import Mathlib

/-!
goblinc: layout engine and emitter of the C-struct generator.

A shallow embedding of `main.go` (the protoc plugin that emits fixed-size Go
records with `Bytes`/`FromBytes` routines) together with theorems about the
layout pass (`baseSize`, `fieldSize`, `messageSize`) and the two emitter passes
(`outputMsgFields`, `inputMsgFields`).

Modelling conventions.

* A schema is a finite tree: a message is the list of its fields and a field of
  message or group kind carries the fields of the message it references.
* Go `int` is the 64-bit integer type (a 64-bit platform). The conversion `int(v.Uint())` of the
  `length` option is modelled (`intOfUint`): an option of `2 ^ 63` or more gives a
  negative `length`. Sizes and offsets are natural numbers and their sums and
  products are exact: the model describes the code as long as every size it
  computes stays below `2 ^ 63`, and the theorems that give the value of a size
  for an arbitrary `length` carry that bound as a hypothesis. Every running size
  and every field size of a message is at most the size that `messageSize`
  returns (`messageSizeFrom_ge`, `messageSizeFrom_ge_field`).
* The process-wide variable `szWord` is the explicit parameter `W`.
* The only error value of the program is `ErrUnsupportedFieldType`.
* A call that can panic has an `Outcome`; what `Uint` does on the zero
  `protoreflect.Value` (the value bound when an option is absent) is a parameter
  of `fieldGoType`.
* The loop of `main` over the input files is modelled by the value of `szWord`
  at each call of `generateFile`.
-/

namespace Goblinc

/-- The field kinds of `protoreflect.Kind`. -/
inductive Kind where
  | BoolKind | EnumKind | Int32Kind | Sint32Kind | Uint32Kind | Int64Kind
  | Sint64Kind | Uint64Kind | Sfixed32Kind | Fixed32Kind | FloatKind
  | Sfixed64Kind | Fixed64Kind | DoubleKind | StringKind | BytesKind
  | MessageKind | GroupKind
  deriving DecidableEq, Repr

deriving instance DecidableEq for Except

/-- The error values of the program. -/
inductive Err where
  | ErrUnsupportedFieldType
  deriving DecidableEq, Repr

/-- A `protogen.Field`: its Go name, kind, `IsList`, `IsWeak`, the two field
options `FieldOptions.length` and `FieldOptions.bits` (absent is `none`; `bits`
is the enum number, `0` for `8BIT` and `1` for `16BIT`), and the fields of
`field.Message` (empty when the field references no message). -/
inductive Field where
  | mk (goName : String) (kind : Kind) (isList : Bool) (isWeak : Bool)
      (lengthOpt : Option Nat) (bitsOpt : Option Int) (message : List Field)

namespace Field

def goName : Field → String
  | mk n _ _ _ _ _ _ => n

def kind : Field → Kind
  | mk _ k _ _ _ _ _ => k

def isList : Field → Bool
  | mk _ _ l _ _ _ _ => l

def isWeak : Field → Bool
  | mk _ _ _ w _ _ _ => w

def lengthOpt : Field → Option Nat
  | mk _ _ _ _ l _ _ => l

def bitsOpt : Field → Option Int
  | mk _ _ _ _ _ b _ => b

def message : Field → List Field
  | mk _ _ _ _ _ _ m => m

end Field

/-- The conversion `int(u)` of a `uint64` to the 64-bit `int`: the two's-complement
reading of the low 64 bits, negative from `2 ^ 63` on. -/
def intOfUint (u : Nat) : Int :=
  if u % 2 ^ 64 < 2 ^ 63 then ((u % 2 ^ 64 : Nat) : Int)
  else ((u % 2 ^ 64 : Nat) : Int) - 2 ^ 64

/-- The value `int(v.Uint())` that the passes assign to the local `length`, as a
natural number: a negative value is represented by `0`. The passes test `length`
by `length <= 0` and `length > 0`, where a negative value and `0` take the same
branch, and use it as a factor, a loop bound or an increment only for a field on
which `fieldSize` has succeeded with `createFixedArray` set, where it is positive. -/
def lengthOfUint (u : Nat) : Nat := (intOfUint u).toNat

/-- The local `length` of the three passes: `int(v.Uint())` of the `length` option,
`0` when the option is absent. -/
def optLength (f : Field) : Nat :=
  match f.lengthOpt with
  | some v => lengthOfUint v
  | none => 0

/-- The switch on the `bits` option inside `baseSize`: `sz` keeps its zero value
when the enum number is neither `0` nor `1`. -/
def bitsSize : Option Int → Nat
  | some 0 => 1
  | some 1 => 2
  | some _ => 0
  | none => 4

/-- The next word boundary computed by each pass, `((offset / szWord) + 1) * szWord`. -/
def boundary (W offset : Nat) : Nat := ((offset / W) + 1) * W

/-- The padding step `offset += szWord - (offset % szWord)` taken when `pad` is set. -/
def applyPad (W offset : Nat) (pad : Bool) : Nat :=
  if pad then offset + (W - offset % W) else offset

/-- The tail of `messageSize`: round the running size up to a multiple of the word. -/
def tailPad (W sz : Nat) : Nat :=
  if sz % W ≠ 0 then sz + (W - sz % W) else sz

mutual

/-- Model of `baseSize`. -/
def baseSize (W : Nat) : Field → Except Err Nat
  | .mk _ k _ _ _ bits sub =>
    match k with
    | .BoolKind => .ok 1
    | .Int32Kind | .Sint32Kind | .Sfixed32Kind | .Uint32Kind | .Fixed32Kind | .FloatKind =>
      .ok (bitsSize bits)
    | .Int64Kind | .Sint64Kind | .Sfixed64Kind | .Uint64Kind | .Fixed64Kind | .DoubleKind =>
      .ok 8
    | .BytesKind => .ok 1
    | .MessageKind | .GroupKind => messageSizeFrom W sub 0
    | _ => .error .ErrUnsupportedFieldType

/-- Model of `fieldSize`: the pair `(base, sz)`. The call `baseSize(field, options)`
is written out in place (the same switch as in `baseSize`) so that the recursion
is structural; `fieldSize_eq_baseSize` relates the two. -/
def fieldSize (W : Nat) : Field → Except Err (Nat × Nat)
  | .mk _ k l _ len bits sub =>
    let createFixedArray := l || k == .BytesKind
    match (match k with
      | .BoolKind => Except.ok 1
      | .Int32Kind | .Sint32Kind | .Sfixed32Kind | .Uint32Kind | .Fixed32Kind | .FloatKind =>
        .ok (bitsSize bits)
      | .Int64Kind | .Sint64Kind | .Sfixed64Kind | .Uint64Kind | .Fixed64Kind | .DoubleKind =>
        .ok 8
      | .BytesKind => .ok 1
      | .MessageKind | .GroupKind => messageSizeFrom W sub 0
      | _ => .error .ErrUnsupportedFieldType) with
    | .error e => .error e
    | .ok base =>
      if createFixedArray then
        let length := match len with
          | some v => lengthOfUint v
          | none => 0
        if length ≤ 0 then .error .ErrUnsupportedFieldType
        else .ok (base, base * length)
      else .ok (base, base)

/-- The descent of `messageSize` through the first fields of a nested message:
`some fsz` is the field size of the leading non-message field, `none` is a
descent that ends in a message without fields. -/
def leadingLeafSize (W : Nat) : List Field → Except Err (Option Nat)
  | [] => .ok none
  | .mk n k l w len bits sub :: _ =>
    if k != .MessageKind then
      match fieldSize W (.mk n k l w len bits sub) with
      | .error e => .error e
      | .ok (_, fsz) => .ok (some fsz)
    else leadingLeafSize W sub

/-- The loop of `messageSize` over the remaining fields, from running size `sz`,
followed by the tail padding. -/
def messageSizeFrom (W : Nat) : List Field → Nat → Except Err Nat
  | [], sz => .ok (tailPad W sz)
  | .mk n k l w len bits sub :: rest, sz =>
    match fieldSize W (.mk n k l w len bits sub) with
    | .error e => .error e
    | .ok (baseSz, fieldSz) =>
      let length := match len with
        | some v => lengthOfUint v
        | none => 0
      let bnd := boundary W sz
      if k == .MessageKind then
        match leadingLeafSize W sub with
        | .error e => .error e
        | .ok leaf =>
          let pad := match leaf with
            | some fsz => decide (sz + fsz > bnd)
            | none => false
          messageSizeFrom W rest (applyPad W sz pad + fieldSz)
      else if length > 0 && baseSz == 1 then
        messageSizeFrom W rest (applyPad W sz false + fieldSz)
      else
        messageSizeFrom W rest (applyPad W sz (decide (sz > bnd)) + fieldSz)

end

/-- Model of `messageSize`. -/
def messageSize (W : Nat) (msg : List Field) : Except Err Nat :=
  messageSizeFrom W msg 0

/-- The pad decision of one loop iteration, the text that `messageSize`,
`outputMsgFields` and `inputMsgFields` each repeat: `baseSz` is the base size of
the field and `offset` the running offset (`sz` in `messageSize`). -/
def padDecision (W : Nat) (f : Field) (baseSz offset : Nat) : Except Err Bool :=
  let length := optLength f
  let bnd := boundary W offset
  if f.kind == .MessageKind then
    match leadingLeafSize W f.message with
    | .error e => .error e
    | .ok (some fsz) => .ok (decide (offset + fsz > bnd))
    | .ok none => .ok false
  else if length > 0 && baseSz == 1 then .ok false
  else .ok (decide (offset > bnd))

/-- The Go types named by `baseFieldGoType`. `message` is the qualified identifier
of the referenced message and `unset` is the empty string that `goType` keeps when
the `bits` option holds an enum number other than `0` and `1`. -/
inductive GoType where
  | bool | int8 | int16 | int32 | uint8 | uint16 | uint32 | int64 | uint64
  | float32 | float64 | byte | message | unset
  deriving DecidableEq, Repr

/-- Model of `baseFieldGoType`. -/
def baseFieldGoType (f : Field) : Except Err GoType :=
  if f.isWeak then .error .ErrUnsupportedFieldType
  else
    match f.kind with
    | .BoolKind => .ok .bool
    | .Int32Kind | .Sint32Kind | .Sfixed32Kind =>
      match f.bitsOpt with
      | some 0 => .ok .int8
      | some 1 => .ok .int16
      | some _ => .ok .unset
      | none => .ok .int32
    | .Uint32Kind | .Fixed32Kind =>
      match f.bitsOpt with
      | some 0 => .ok .uint8
      | some 1 => .ok .uint16
      | some _ => .ok .unset
      | none => .ok .uint32
    | .Int64Kind | .Sint64Kind | .Sfixed64Kind => .ok .int64
    | .Uint64Kind | .Fixed64Kind => .ok .uint64
    | .FloatKind => .ok .float32
    | .DoubleKind => .ok .float64
    | .BytesKind => .ok .byte
    | .MessageKind | .GroupKind => .ok .message
    | _ => .error .ErrUnsupportedFieldType

/-- The operand `fieldName` of an emitted line: the attribute `str.X` or the
local `X_bits` that holds the bit pattern of a float attribute. -/
inductive Operand where
  | str (goName : String)
  | bits (goName : String)
  deriving DecidableEq, Repr

/-- The lines that `outputMsgFields` prints into the body of `Bytes`.
* `declBitsList X w n`: `X_bits := []uintW{ math.FloatWbits(str.X[0]), ..., math.FloatWbits(str.X[n-1]), }`
* `declBits X w`: `X_bits := math.FloatWbits(str.X)`
* `setElemByte o x i k`: `output[o] = byte(x[i] >> (8 * k))`
* `copyOut o x`: `copy(output[o:], x[:])`
* `copyTo x lo hi`: `x.CopyTo(output[lo:hi])`
* `setByteShift o x k`: `output[o] = byte(x >> (8 * k))`
* `setByte o x`: `output[o] = byte(x)` -/
inductive OutLine where
  | declBitsList (goName : String) (width : Nat) (length : Nat)
  | declBits (goName : String) (width : Nat)
  | setElemByte (offset : Nat) (x : Operand) (i : Nat) (k : Nat)
  | copyOut (offset : Nat) (x : Operand)
  | copyTo (x : Operand) (lo hi : Nat)
  | setByteShift (offset : Nat) (x : Operand) (k : Nat)
  | setByte (offset : Nat) (x : Operand)
  deriving DecidableEq, Repr

/-- What one iteration of an emitter loop yields: the offset of the field (the
running offset after the pad step), the printed lines, and the running offset
after the field. -/
structure Emitted (Line : Type) where
  start : Nat
  lines : List Line
  next : Nat
  deriving DecidableEq, Repr

/-- The lines of the nested loops `for i := 0; i < length; i++ { for b := 1; b <= baseSz; b++`
of `outputMsgFields`; the counter `offset` grows by one with every printed line,
so line `b` of element `i` carries `offset + i * baseSz + (b - 1)`. -/
def outElemLines (x : Operand) (offset length baseSz : Nat) : List OutLine :=
  (List.range length).flatMap fun i =>
    (List.range baseSz).map fun b0 =>
      OutLine.setElemByte (offset + i * baseSz + b0) x i (baseSz - (b0 + 1))

/-- The lines of the loop `for b := 1; b <= baseSz; b++` over a scalar field. -/
def outScalarLines (x : Operand) (offset baseSz : Nat) : List OutLine :=
  (List.range baseSz).map fun b0 =>
    OutLine.setByteShift (offset + b0) x (baseSz - (b0 + 1))

/-- The variable `fieldName` of both emitters: `str.X`, replaced by the local
`X_bits` for the kinds `Double` and `Float`. -/
def fieldNameOf (f : Field) : Operand :=
  if f.kind == .DoubleKind || f.kind == .FloatKind then .bits f.goName
  else .str f.goName

/-- The body of the loop of `outputMsgFields` for one field at running offset `offset`. -/
def outputField (W : Nat) (f : Field) (offset : Nat) : Except Err (Emitted OutLine) :=
  match fieldSize W f with
  | .error e => .error e
  | .ok (baseSz, fieldSz) =>
    let length := optLength f
    match padDecision W f baseSz offset with
    | .error e => .error e
    | .ok pad =>
      let offset := applyPad W offset pad
      let fieldName := fieldNameOf f
      let decl : List OutLine :=
        if f.kind == .DoubleKind then
          if f.isList then [.declBitsList f.goName 64 length] else [.declBits f.goName 64]
        else if f.kind == .FloatKind then
          if f.isList then [.declBitsList f.goName 32 length] else [.declBits f.goName 32]
        else []
      if f.isList || f.kind == .BytesKind then
        if baseSz > 1 then
          .ok ⟨offset, decl ++ outElemLines fieldName offset length baseSz,
            offset + length * baseSz⟩
        else
          .ok ⟨offset, decl ++ [.copyOut offset fieldName], offset + length⟩
      else if f.kind == .MessageKind then
        .ok ⟨offset, decl ++ [.copyTo fieldName offset (offset + fieldSz)], offset + fieldSz⟩
      else
        if baseSz > 1 then
          .ok ⟨offset, decl ++ outScalarLines fieldName offset baseSz, offset + baseSz⟩
        else
          .ok ⟨offset, decl ++ [.setByte offset fieldName], offset + 1⟩

/-- The loop of `outputMsgFields` from running offset `offset`: one `Emitted`
entry per field, in declaration order. -/
def outputMsgFieldsFrom (W : Nat) : List Field → Nat → Except Err (List (Emitted OutLine))
  | [], _ => .ok []
  | f :: rest, offset =>
    match outputField W f offset with
    | .error e => .error e
    | .ok e =>
      match outputMsgFieldsFrom W rest e.next with
      | .error err => .error err
      | .ok es => .ok (e :: es)

/-- Model of `outputMsgFields`. -/
def outputMsgFields (W : Nat) (msg : List Field) : Except Err (List (Emitted OutLine)) :=
  outputMsgFieldsFrom W msg 0

/-- The lines that `inputMsgFields` prints into the body of `FromBytes`.
* `declBitsList X w n`: `X_bits := []uintW{ math.FloatWbits(str.X[0]), ..., math.FloatWbits(str.X[n-1]), }`
* `declBitsZero X w`: `X_bits := uintW(0)`
* `orElemByte x i t o k`: `x[i] |= t(input[o]) << (8 * k)`
* `copyIn x o`: `copy(x[:], input[o:])`
* `fromBytes x lo hi`: `x.FromBytes(input[lo:hi])`
* `orByte x t o k`: `x |= t(input[o]) << (8 * k)`
* `setFromByte x t o`: `x = t(input[o])`
* `storeFloatElem X i w`: `str.X[i] = math.FloatWfrombits(X_bits[i])`
* `storeFloat X w`: `str.X = math.FloatWfrombits(X_bits)` -/
inductive InLine where
  | declBitsList (goName : String) (width : Nat) (length : Nat)
  | declBitsZero (goName : String) (width : Nat)
  | orElemByte (x : Operand) (i : Nat) (t : GoType) (offset : Nat) (k : Nat)
  | copyIn (x : Operand) (offset : Nat)
  | fromBytes (x : Operand) (lo hi : Nat)
  | orByte (x : Operand) (t : GoType) (offset : Nat) (k : Nat)
  | setFromByte (x : Operand) (t : GoType) (offset : Nat)
  | storeFloatElem (goName : String) (i : Nat) (width : Nat)
  | storeFloat (goName : String) (width : Nat)
  deriving DecidableEq, Repr

/-- The lines of the nested loops over the elements of an array in `inputMsgFields`. -/
def inElemLines (x : Operand) (t : GoType) (offset length baseSz : Nat) : List InLine :=
  (List.range length).flatMap fun i =>
    (List.range baseSz).map fun b0 =>
      InLine.orElemByte x i t (offset + i * baseSz + b0) (baseSz - (b0 + 1))

/-- The lines of the loop `for b := 1; b <= baseSz; b++` over a scalar field in
`inputMsgFields`. -/
def inScalarLines (x : Operand) (t : GoType) (offset baseSz : Nat) : List InLine :=
  (List.range baseSz).map fun b0 =>
    InLine.orByte x t (offset + b0) (baseSz - (b0 + 1))

/-- The body of the loop of `inputMsgFields` for one field at running offset `offset`. -/
def inputField (W : Nat) (f : Field) (offset : Nat) : Except Err (Emitted InLine) :=
  match fieldSize W f with
  | .error e => .error e
  | .ok (baseSz, fieldSz) =>
    match baseFieldGoType f with
    | .error e => .error e
    | .ok baseType =>
      let length := optLength f
      match padDecision W f baseSz offset with
      | .error e => .error e
      | .ok pad =>
        let offset := applyPad W offset pad
        let fieldName := fieldNameOf f
        let decl : List InLine :=
          if f.kind == .DoubleKind then
            if f.isList then [.declBitsList f.goName 64 length] else [.declBitsZero f.goName 64]
          else if f.kind == .FloatKind then
            if f.isList then [.declBitsList f.goName 32 length] else [.declBitsZero f.goName 32]
          else []
        let baseType : GoType :=
          if f.kind == .DoubleKind then .uint64
          else if f.kind == .FloatKind then .uint32
          else baseType
        let store : List InLine :=
          if f.kind == .DoubleKind then
            if f.isList then (List.range length).map fun i => .storeFloatElem f.goName i 64
            else [.storeFloat f.goName 64]
          else if f.kind == .FloatKind then
            if f.isList then (List.range length).map fun i => .storeFloatElem f.goName i 32
            else [.storeFloat f.goName 32]
          else []
        if f.isList || f.kind == .BytesKind then
          if baseSz > 1 then
            .ok ⟨offset, decl ++ inElemLines fieldName baseType offset length baseSz ++ store,
              offset + length * baseSz⟩
          else
            .ok ⟨offset, decl ++ [.copyIn fieldName offset] ++ store, offset + length⟩
        else if f.kind == .MessageKind then
          .ok ⟨offset, decl ++ [.fromBytes fieldName offset (offset + fieldSz)], offset + fieldSz⟩
        else
          if baseSz > 1 then
            .ok ⟨offset, decl ++ inScalarLines fieldName baseType offset baseSz ++ store,
              offset + baseSz⟩
          else
            .ok ⟨offset, decl ++ [.setFromByte fieldName baseType offset] ++ store, offset + 1⟩

/-- The loop of `inputMsgFields` from running offset `offset`. -/
def inputMsgFieldsFrom (W : Nat) : List Field → Nat → Except Err (List (Emitted InLine))
  | [], _ => .ok []
  | f :: rest, offset =>
    match inputField W f offset with
    | .error e => .error e
    | .ok e =>
      match inputMsgFieldsFrom W rest e.next with
      | .error err => .error err
      | .ok es => .ok (e :: es)

/-- Model of `inputMsgFields`. -/
def inputMsgFields (W : Nat) (msg : List Field) : Except Err (List (Emitted InLine)) :=
  inputMsgFieldsFrom W msg 0

/-- The offsets at which `messageSize` places the fields: the value of `sz`
after the pad step of each iteration, before `sz += fieldSz`. -/
def messageOffsetsFrom (W : Nat) : List Field → Nat → Except Err (List Nat)
  | [], _ => .ok []
  | f :: rest, sz =>
    match fieldSize W f with
    | .error e => .error e
    | .ok (baseSz, fieldSz) =>
      match padDecision W f baseSz sz with
      | .error e => .error e
      | .ok pad =>
        match messageOffsetsFrom W rest (applyPad W sz pad + fieldSz) with
        | .error e => .error e
        | .ok os => .ok (applyPad W sz pad :: os)

/-- The offsets of the fields of a message in `messageSize`. -/
def messageOffsets (W : Nat) (msg : List Field) : Except Err (List Nat) :=
  messageOffsetsFrom W msg 0



/-- The word sizes that `main` can store in `szWord`: the initial `4` and the four
arms of the switch on `SystemOptions.sizeof_word`. -/
def wordSizes : List Nat := [1, 2, 4, 8]

/-- The kinds that the switch of `baseSize` handles: `Bool`, the 32-bit and 64-bit
integer kinds, `Float`, `Double`, `Bytes`, and the nested kinds `Message` and
`Group` (one arm of the switch). -/
def supportedKind : Kind → Bool
  | .EnumKind | .StringKind => false
  | _ => true

mutual

/-- The leading leaf of a nested message, in the words of the layout rule: the
first field that is not of message kind, found by descending through first fields. -/
def leadingLeaf : List Field → Option Field
  | [] => none
  | f :: _ => leadingLeafOf f

/-- The leading leaf below one field: the field itself unless it is of message
kind, and then the leading leaf of the message it references. -/
def leadingLeafOf : Field → Option Field
  | .mk n k l w len bits sub =>
    if k != .MessageKind then some (.mk n k l w len bits sub) else leadingLeaf sub

end

/-- A scalar `uint32` field narrowed to 8 bits (`bits = 8BIT`). -/
def sampleU8 (name : String) : Field := .mk name .Uint32Kind false false none (some 0) []

/-- A scalar `uint32` field. -/
def sampleU32 (name : String) : Field := .mk name .Uint32Kind false false none none []

/-- A scalar field of message kind referencing the message with fields `sub`. -/
def sampleNested (name : String) (sub : List Field) : Field :=
  .mk name .MessageKind false false none none sub

/-! ## Evaluation of the generated routines

The lines printed by the two emitters are Go statements over the record `str`,
the `_bits` locals, and the buffers `output` and `input`. A machine integer of
width `w` is represented by its two's-complement bit pattern, a natural number
below `2 ^ w`; a float is represented by its IEEE-754 bit pattern, so that
`math.Float32bits`, `math.Float32frombits` and their 64-bit counterparts are the
identity on representations. A statement that Go rejects or that indexes out of
range has no result (`none`). Nested records (`CopyTo`, `FromBytes` on an
attribute) are outside this evaluator: such a line has no result here although
the generated method runs it. -/

namespace GoType

/-- Width in bits of a numeric Go type (`0` for the types that are not numeric). -/
def width : GoType → Nat
  | int8 | uint8 | byte => 8
  | int16 | uint16 => 16
  | int32 | uint32 | float32 => 32
  | int64 | uint64 | float64 => 64
  | bool | message | unset => 0

/-- The signed integer types. -/
def isSigned : GoType → Bool
  | int8 | int16 | int32 | int64 => true
  | _ => false

/-- The integer types, on which `>>`, `<<` and `|=` are defined. -/
def isInteger : GoType → Bool
  | int8 | int16 | int32 | int64 | uint8 | uint16 | uint32 | uint64 | byte => true
  | _ => false

/-- The element types that `copy` accepts against a `[]byte`: `byte` and its
alias `uint8`. -/
def isByte : GoType → Bool
  | byte | uint8 => true
  | _ => false

end GoType

/-- A value held by an attribute of the record or by a `_bits` local: a scalar
or a fixed-length array, with its element type and bit patterns. -/
inductive Value where
  | scalar (t : GoType) (bits : Nat)
  | array (t : GoType) (elems : List Nat)
  deriving DecidableEq, Repr

/-- A store maps a name to the value it holds. -/
abbrev Store := String → Option Value

/-- The value of an operand: `str.X` is read from the record, `X_bits` from the locals. -/
def operandValue (str locals : Store) : Operand → Option Value
  | .str n => str n
  | .bits n => locals n

/-- The signed integer denoted by the bit pattern `p` at width `w`. -/
def toSigned (w p : Nat) : Int :=
  if p < 2 ^ (w - 1) then (p : Int) else (p : Int) - 2 ^ w

/-- The Go expression `byte(x >> s)` for `x` of integer type `t` with bit pattern `p`:
a logical shift for unsigned types, an arithmetic shift for signed ones, then
truncation to the low 8 bits. -/
def byteOfShift (t : GoType) (p s : Nat) : Nat :=
  if t.isSigned then (((toSigned t.width p) >>> s) % 256).toNat
  else (p >>> s) % 256

/-- The Go expression `t(b) << s` for a byte `b`, as a bit pattern of type `t`. -/
def shiftedByte (t : GoType) (b s : Nat) : Nat :=
  (b <<< s) % 2 ^ t.width

/-- The state of `Bytes`: the `_bits` locals and the named result `output`. -/
structure OutState where
  locals : Store
  output : List Nat

/-- Execution of one line of `Bytes` on the record `str`. -/
def execOut (str : Store) (st : OutState) : OutLine → Option OutState
  | .declBitsList X w n =>
    match str X with
    | some (.array t elems) =>
      if t.width = w ∧ ¬ t.isInteger ∧ n ≤ elems.length then
        some ⟨Function.update st.locals X
          (some (.array (if w = 64 then .uint64 else .uint32) (elems.take n))), st.output⟩
      else none
    | _ => none
  | .declBits X w =>
    match str X with
    | some (.scalar t p) =>
      if t.width = w ∧ ¬ t.isInteger then
        some ⟨Function.update st.locals X
          (some (.scalar (if w = 64 then .uint64 else .uint32) p)), st.output⟩
      else none
    | _ => none
  | .setElemByte o x i k =>
    match operandValue str st.locals x with
    | some (.array t elems) =>
      if t.isInteger ∧ i < elems.length ∧ o < st.output.length then
        some ⟨st.locals, st.output.set o (byteOfShift t (elems.getD i 0) (8 * k))⟩
      else none
    | _ => none
  | .copyOut o x =>
    match operandValue str st.locals x with
    | some (.array t elems) =>
      if t.isByte ∧ o ≤ st.output.length then
        let n := min (st.output.length - o) elems.length
        some ⟨st.locals, st.output.take o ++ elems.take n ++ st.output.drop (o + n)⟩
      else none
    | _ => none
  | .copyTo _ _ _ => none
  | .setByteShift o x k =>
    match operandValue str st.locals x with
    | some (.scalar t p) =>
      if t.isInteger ∧ o < st.output.length then
        some ⟨st.locals, st.output.set o (byteOfShift t p (8 * k))⟩
      else none
    | _ => none
  | .setByte o x =>
    match operandValue str st.locals x with
    | some (.scalar t p) =>
      if t.isInteger ∧ o < st.output.length then
        some ⟨st.locals, st.output.set o (byteOfShift t p 0)⟩
      else none
    | _ => none

/-- Execution of a sequence of lines of `Bytes`, in order. -/
def execOutLines (str : Store) : List OutLine → OutState → Option OutState
  | [], st => some st
  | l :: ls, st =>
    match execOut str st l with
    | some st' => execOutLines str ls st'
    | none => none

/-- The names of the methods that `generateStruct` prints for every record. -/
def methodNames : List String := ["Bytes", "FromBytes", "CopyTo", "Length"]

/-- Whether Go accepts the record type that `generateStruct` prints for a message
together with its four methods: Go rejects a type that has an attribute and a
method of one name, and a struct that has two attributes of one name. -/
def recordAccepted (msg : List Field) : Bool :=
  msg.all (fun f => !methodNames.contains f.goName) &&
    decide ((msg.map Field.goName).Nodup)

/-- The generated method `Bytes` of the message `msg`: the named result
`output [sizeofMsg]byte` starts zeroed, the printed lines run in order, and
`output` is returned. There is no result (`none`) when generation fails, when Go
rejects the record type or a printed line, and when a printed line calls `CopyTo`
on a nested record, which this evaluator does not run: for a message with a field
of message kind `runBytes` tells nothing about the generated method. -/
def runBytes (W : Nat) (msg : List Field) (str : Store) : Option (List Nat) :=
  if recordAccepted msg then
    match messageSize W msg, outputMsgFields W msg with
    | .ok sizeofMsg, .ok es =>
      (execOutLines str (es.flatMap Emitted.lines)
        ⟨fun _ => none, List.replicate sizeofMsg 0⟩).map OutState.output
    | _, _ => none
  else none

/-- The state of `FromBytes`: the record `str`, updated in place, and the `_bits` locals. -/
structure InState where
  str : Store
  locals : Store

/-- Assignment to an operand. -/
def setOperand (st : InState) : Operand → Value → InState
  | .str n, v => ⟨Function.update st.str n (some v), st.locals⟩
  | .bits n, v => ⟨st.str, Function.update st.locals n (some v)⟩

/-- Execution of one line of `FromBytes` on the buffer `input`. -/
def execIn (input : List Nat) (st : InState) : InLine → Option InState
  | .declBitsList X w n =>
    match st.str X with
    | some (.array t elems) =>
      if t.width = w ∧ ¬ t.isInteger ∧ n ≤ elems.length then
        some ⟨st.str, Function.update st.locals X
          (some (.array (if w = 64 then .uint64 else .uint32) (elems.take n)))⟩
      else none
    | _ => none
  | .declBitsZero X w =>
    some ⟨st.str, Function.update st.locals X
      (some (.scalar (if w = 64 then .uint64 else .uint32) 0))⟩
  | .orElemByte x i t o k =>
    match operandValue st.str st.locals x with
    | some (.array t' elems) =>
      if t' = t ∧ t.isInteger ∧ i < elems.length ∧ o < input.length then
        some (setOperand st x (.array t'
          (elems.set i (elems.getD i 0 ||| shiftedByte t (input.getD o 0) (8 * k)))))
      else none
    | _ => none
  | .copyIn x o =>
    match operandValue st.str st.locals x with
    | some (.array t elems) =>
      if t.isByte ∧ o ≤ input.length then
        let n := min elems.length (input.length - o)
        some (setOperand st x (.array t ((input.drop o).take n ++ elems.drop n)))
      else none
    | _ => none
  | .fromBytes _ _ _ => none
  | .orByte x t o k =>
    match operandValue st.str st.locals x with
    | some (.scalar t' p) =>
      if t' = t ∧ t.isInteger ∧ o < input.length then
        some (setOperand st x (.scalar t' (p ||| shiftedByte t (input.getD o 0) (8 * k))))
      else none
    | _ => none
  | .setFromByte x t o =>
    match operandValue st.str st.locals x with
    | some (.scalar t' _) =>
      if t' = t ∧ t.isInteger ∧ o < input.length then
        some (setOperand st x (.scalar t' (shiftedByte t (input.getD o 0) 0)))
      else none
    | _ => none
  | .storeFloatElem X i w =>
    match st.str X, st.locals X with
    | some (.array t elems), some (.array tb bs) =>
      if t.width = w ∧ ¬ t.isInteger ∧ tb.width = w ∧ tb.isInteger ∧
          i < elems.length ∧ i < bs.length then
        some ⟨Function.update st.str X (some (.array t (elems.set i (bs.getD i 0)))), st.locals⟩
      else none
    | _, _ => none
  | .storeFloat X w =>
    match st.str X, st.locals X with
    | some (.scalar t _), some (.scalar tb p) =>
      if t.width = w ∧ ¬ t.isInteger ∧ tb.width = w ∧ tb.isInteger then
        some ⟨Function.update st.str X (some (.scalar t p)), st.locals⟩
      else none
    | _, _ => none

/-- Execution of a sequence of lines of `FromBytes`, in order. -/
def execInLines (input : List Nat) : List InLine → InState → Option InState
  | [], st => some st
  | l :: ls, st =>
    match execIn input st l with
    | some st' => execInLines input ls st'
    | none => none

/-- The generated method `FromBytes` of the message `msg`, run on the record `str`
with the buffer `input`: the record after the printed lines have run in order.
There is no result (`none`) in the cases in which `runBytes` has none (a call of
`FromBytes` on a nested record is not run). -/
def runFromBytes (W : Nat) (msg : List Field) (str : Store) (input : List Nat) :
    Option Store :=
  if recordAccepted msg then
    match inputMsgFields W msg with
    | .ok es =>
      (execInLines input (es.flatMap Emitted.lines) ⟨str, fun _ => none⟩).map InState.str
    | .error _ => none
  else none

/-- The zero value of the attribute that `generateStruct` declares for a field:
of the base Go type for a scalar, an array of `length` elements of it for a list
or a `Bytes` blob. -/
def zeroValue (f : Field) : Option Value :=
  match baseFieldGoType f with
  | .ok t =>
    if f.isList || f.kind == .BytesKind then some (.array t (List.replicate (optLength f) 0))
    else some (.scalar t 0)
  | .error _ => none

/-- The zero-valued record of a message. -/
def zeroRecord (msg : List Field) : Store := fun n =>
  match msg.find? (fun f => f.goName == n) with
  | some f => zeroValue f
  | none => none

/-- A value of the attribute declared for a field: of the declared type, with
every bit pattern inside the width of the type and, for an array, of the
declared length. -/
def valueOfField (f : Field) : Option Value → Prop
  | some (.scalar t p) =>
    baseFieldGoType f = .ok t ∧ (f.isList || f.kind == .BytesKind) = false ∧ p < 2 ^ t.width
  | some (.array t elems) =>
    baseFieldGoType f = .ok t ∧ (f.isList || f.kind == .BytesKind) = true ∧
      elems.length = optLength f ∧ ∀ p ∈ elems, p < 2 ^ t.width
  | none => False

/-- The field shapes of the round-trip property: scalars and fixed-length arrays
(`length ≥ 1`) of 32-bit integers, unnarrowed or narrowed to 8 or 16 bits, of
64-bit integers, of unnarrowed `float` and of `double`, and `Bytes` blobs; arrays
of signed integers narrowed to 8 bits are left out. -/
def roundTripShape (f : Field) : Bool :=
  !f.isWeak && (!(f.isList || f.kind == .BytesKind) || decide (1 ≤ optLength f)) &&
  match f.kind with
  | .Int32Kind | .Sint32Kind | .Sfixed32Kind =>
    if f.isList then f.bitsOpt == none || f.bitsOpt == some 1
    else f.bitsOpt == none || f.bitsOpt == some 0 || f.bitsOpt == some 1
  | .Uint32Kind | .Fixed32Kind =>
    f.bitsOpt == none || f.bitsOpt == some 0 || f.bitsOpt == some 1
  | .Int64Kind | .Sint64Kind | .Sfixed64Kind | .Uint64Kind | .Fixed64Kind => true
  | .FloatKind => f.bitsOpt == none
  | .DoubleKind => true
  | .BytesKind => true
  | _ => false

/-- The message of the test, `Test0`: every array has length 4, and the
8-bit fields are 32-bit kinds with `bits = 8BIT`. The arrays are declared with
the unsigned kinds, as the array types of the test record show. -/
def test0 : List Field :=
  [ .mk "Tuint8" .Uint32Kind false false none (some 0) [],
    .mk "Tarruint8" .Uint32Kind true false (some 4) (some 0) [],
    .mk "Tint8" .Int32Kind false false none (some 0) [],
    .mk "Tarrint8" .Uint32Kind true false (some 4) (some 0) [],
    .mk "Tuint32" .Uint32Kind false false none none [],
    .mk "Tarruint32" .Uint32Kind true false (some 4) none [],
    .mk "Tint32" .Int32Kind false false none none [],
    .mk "Tarrint32" .Uint32Kind true false (some 4) none [],
    .mk "Tuint64" .Uint64Kind false false none none [],
    .mk "Tarruint64" .Uint64Kind true false (some 4) none [],
    .mk "Tint64" .Int64Kind false false none none [],
    .mk "Tarrint64" .Uint64Kind true false (some 4) none [],
    .mk "Tfloat32" .FloatKind false false none none [],
    .mk "Tarrfloat32" .FloatKind true false (some 4) none [],
    .mk "Tfloat64" .DoubleKind false false none none [],
    .mk "Tarrfloat64" .DoubleKind true false (some 4) none [],
    .mk "Tbytes" .BytesKind false false (some 4) none [] ]

/-- The record of the test, with floats written as their IEEE-754 bit patterns. -/
def test0Record : Store := fun n =>
  if n = "Tuint8" then some (.scalar .uint8 1)
  else if n = "Tarruint8" then some (.array .uint8 [2, 3, 4, 5])
  else if n = "Tint8" then some (.scalar .int8 6)
  else if n = "Tarrint8" then some (.array .uint8 [7, 8, 9, 10])
  else if n = "Tuint32" then some (.scalar .uint32 11)
  else if n = "Tarruint32" then some (.array .uint32 [12, 13, 14, 15])
  else if n = "Tint32" then some (.scalar .int32 16)
  else if n = "Tarrint32" then some (.array .uint32 [17, 18, 19, 20])
  else if n = "Tuint64" then some (.scalar .uint64 21)
  else if n = "Tarruint64" then some (.array .uint64 [22, 23, 24, 25])
  else if n = "Tint64" then some (.scalar .int64 26)
  else if n = "Tarrint64" then some (.array .uint64 [27, 28, 29, 30])
  else if n = "Tfloat32" then some (.scalar .float32 0x41F80000)
  else if n = "Tarrfloat32" then
    some (.array .float32 [0x42006666, 0x4204CCCD, 0x42093333, 0x420D999A])
  else if n = "Tfloat64" then some (.scalar .float64 0x4042000000000000)
  else if n = "Tarrfloat64" then
    some (.array .float64 [0x4042C00000000000, 0x40434CCCCCCCCCCD, 0x4043D9999999999A,
      0x4044666666666666])
  else if n = "Tbytes" then some (.array .byte [41, 42, 43, 44])
  else none

/-- The record `u8 = 0xAB`, `u32 = 0x11223344` of the message `(u8 A, u32 B)`. -/
def sampleRecordAB : Store := fun n =>
  if n = "A" then some (.scalar .uint8 0xAB)
  else if n = "B" then some (.scalar .uint32 0x11223344)
  else none

/-- The lines of `Bytes` that assign one byte of `output` from a shifted value:
`output[o] = byte(x >> (8 * k))` and `output[o] = byte(x[i] >> (8 * k))`. -/
def OutLine.isShiftAssign : OutLine → Bool
  | .setElemByte _ _ _ _ => true
  | .setByteShift _ _ _ => true
  | _ => false

/-- A `uint32` array of four elements. -/
def sampleArrU32 (name : String) : Field := .mk name .Uint32Kind true false (some 4) none []

/-- An array of eight nested messages, the nested message having no fields. -/
def sampleArrEmpty (name : String) : Field := .mk name .MessageKind true false (some 8) none []

/-- An array of four `int32` elements narrowed to 8 bits (`bits = 8BIT`), declared
as `[4]int8` in the record. -/
def sampleArrI8 (name : String) : Field := .mk name .Int32Kind true false (some 4) (some 0) []

/-- A record whose attribute `T` holds the `[4]int8` array `7, 8, 9, 10`. -/
def sampleRecordI8 : Store := fun n =>
  if n = "T" then some (.array .int8 [7, 8, 9, 10]) else none

/-! ## Byte-level description of a record

The big-endian bytes of a bit pattern and of a value, and the replacement of a
segment of a buffer; used to state what `Bytes` writes and `FromBytes` reads. -/

/-- The `S` big-endian bytes of the bit pattern `p`. -/
def beBytes (S p : Nat) : List Nat :=
  (List.range S).map fun j => (p >>> (8 * (S - (j + 1)))) % 256

/-- The bytes of a value whose elements have base size `S`, elements in index order. -/
def valueBytes (S : Nat) : Value → List Nat
  | .scalar _ p => beBytes S p
  | .array _ elems => elems.flatMap (beBytes S)

/-- The buffer `out` with the segment that starts at `o` replaced by `b`. -/
def splice (out : List Nat) (o : Nat) (b : List Nat) : List Nat :=
  out.take o ++ b ++ out.drop (o + b.length)

/-- The value assembled from the bytes `bs` by `x |= t(byte) << (8 * k)`, `k`
counting down from `S - 1`, starting from `acc`. -/
def orBytes (t : GoType) (S : Nat) (input : List Nat) (o : Nat) (acc : Nat) (n : Nat) : Nat :=
  (List.range n).foldl
    (fun a j => a ||| shiftedByte t (input.getD (o + j) 0) (8 * (S - (j + 1)))) acc

/-- The fields that both emitters route through a `_bits` local. -/
def isFloatField (f : Field) : Bool := f.kind == .DoubleKind || f.kind == .FloatKind

/-- The fields that the emitters treat as fixed-length arrays. -/
def isArrayField (f : Field) : Bool := f.isList || f.kind == .BytesKind

/-- The size in bytes of a field of base size `S`, as `fieldSize` computes it. -/
def sizeOfShape (f : Field) (S : Nat) : Nat :=
  if isArrayField f then S * optLength f else S

/-- The lines by which `outputMsgFields` declares the `_bits` local of a float field. -/
def outDecl (f : Field) : List OutLine :=
  if f.kind == .DoubleKind then
    if f.isList then [.declBitsList f.goName 64 (optLength f)] else [.declBits f.goName 64]
  else if f.kind == .FloatKind then
    if f.isList then [.declBitsList f.goName 32 (optLength f)] else [.declBits f.goName 32]
  else []

/-- The lines by which `outputMsgFields` writes a field of base size `S` that is
not a nested message, at offset `o`. -/
def outBody (f : Field) (S o : Nat) : List OutLine :=
  if isArrayField f then
    if S > 1 then outElemLines (fieldNameOf f) o (optLength f) S
    else [.copyOut o (fieldNameOf f)]
  else
    if S > 1 then outScalarLines (fieldNameOf f) o S
    else [.setByte o (fieldNameOf f)]

/-- The bytes that hold the value `v` of a field in the buffer. -/
def fieldBytes (W : Nat) (f : Field) (v : Option Value) : List Nat :=
  match fieldSize W f, v with
  | .ok (S, _), some v => valueBytes S v
  | _, _ => []

/-- The bytes that hold the fields of a record, in declaration order. -/
def messageBytes (W : Nat) (msg : List Field) (str : Store) : List Nat :=
  msg.flatMap fun f => fieldBytes W f (str f.goName)

/-- The variable `baseType` of `inputMsgFields` after the override for floats. -/
def inBaseType (f : Field) (t : GoType) : GoType :=
  if f.kind == .DoubleKind then .uint64
  else if f.kind == .FloatKind then .uint32
  else t

/-- The lines by which `inputMsgFields` declares the `_bits` local of a float field. -/
def inDecl (f : Field) : List InLine :=
  if f.kind == .DoubleKind then
    if f.isList then [.declBitsList f.goName 64 (optLength f)] else [.declBitsZero f.goName 64]
  else if f.kind == .FloatKind then
    if f.isList then [.declBitsList f.goName 32 (optLength f)] else [.declBitsZero f.goName 32]
  else []

/-- The lines by which `inputMsgFields` reads a field of base size `S` that is not
a nested message, at offset `o`. -/
def inBody (f : Field) (t : GoType) (S o : Nat) : List InLine :=
  if isArrayField f then
    if S > 1 then inElemLines (fieldNameOf f) t o (optLength f) S
    else [.copyIn (fieldNameOf f) o]
  else
    if S > 1 then inScalarLines (fieldNameOf f) t o S
    else [.setFromByte (fieldNameOf f) t o]

/-- The lines by which `inputMsgFields` stores the `_bits` local of a float field
back into the record. -/
def inStore (f : Field) : List InLine :=
  if f.kind == .DoubleKind then
    if f.isList then (List.range (optLength f)).map fun i => .storeFloatElem f.goName i 64
    else [.storeFloat f.goName 64]
  else if f.kind == .FloatKind then
    if f.isList then (List.range (optLength f)).map fun i => .storeFloatElem f.goName i 32
    else [.storeFloat f.goName 32]
  else []

/-- The index `k` of a line of `Bytes` of the form `output[k] = ...`. -/
def OutLine.index? : OutLine → Option Nat
  | .setElemByte o _ _ _ => some o
  | .setByteShift o _ _ => some o
  | .setByte o _ => some o
  | _ => none

/-! ## The run over the input files, the declared types, and further samples -/

/-- An array of `L` nested messages, the nested message having the fields `sub`. -/
def sampleArrNested (name : String) (L : Nat) (sub : List Field) : Field :=
  .mk name .MessageKind true false (some L) none sub

/-- An input file of the plugin (`protogen.File`): the flag `Generate`, the
file-level option `SystemOptions.sizeof_word` (absent is `none`, otherwise the
enum number), and the messages of the file. -/
structure File where
  generate : Bool
  sizeofWord : Option Int
  messages : List (List Field)

/-- The block `// Override size of word` of `main`: the value of `szWord` after
the block, from its value before and the option of the file. The switch has the
arms `0`, `1`, `2` and `3`; `szWord` is left as it is when the option is absent
and when the enum number is outside the switch. -/
def overrideSzWord (szWord : Nat) : Option Int → Nat
  | some 0 => 1
  | some 1 => 2
  | some 2 => 4
  | some 3 => 8
  | some _ => szWord
  | none => szWord

/-- The loop `// Generate all sources` of `main` from the current value of the
variable `szWord`: for every file that is generated, in order, the value of
`szWord` at the call of `generateFile`. -/
def mainWordSizesFrom : List File → Nat → List Nat
  | [], _ => []
  | f :: rest, szWord =>
    if !f.generate then mainWordSizesFrom rest szWord
    else
      let szWord := overrideSzWord szWord f.sizeofWord
      szWord :: mainWordSizesFrom rest szWord

/-- The word sizes in effect in a run of `main`; `szWord` is initialised to `4`. -/
def mainWordSizes (files : List File) : List Nat := mainWordSizesFrom files 4

/-- A message with a single `bool` field. -/
def sampleBoolMsg : List Field := [.mk "Flag" .BoolKind false false none none []]

/-- A record of the message `(u32 B)` whose attribute `B` holds the bit pattern `p`. -/
def sampleRecordB (p : Nat) : Store := fun n =>
  if n = "B" then some (.scalar .uint32 p) else none

/-- The running offset of an emitter loop after its last iteration, from the
offset `o` at which the loop starts. -/
def finalOffset {Line : Type} (o : Nat) (es : List (Emitted Line)) : Nat :=
  (es.getLast?.map Emitted.next).getD o

/-- The size in bytes of a value of a Go type named by `baseFieldGoType` for a
field that is not nested: `bool`, `byte`, `int8`, `uint8` take 1 byte, `int16`,
`uint16` take 2, `int32`, `uint32`, `float32` take 4 and `int64`, `uint64`,
`float64` take 8 (`0` stands for the two entries that are not such a type). -/
def GoType.byteWidth : GoType → Nat
  | .bool | .byte | .int8 | .uint8 => 1
  | .int16 | .uint16 => 2
  | .int32 | .uint32 | .float32 => 4
  | .int64 | .uint64 | .float64 => 8
  | .message | .unset => 0

/-- A scalar `float` field with the `bits` option set to the enum number `bits`. -/
def sampleFloatBits (name : String) (bits : Int) : Field :=
  .mk name .FloatKind false false none (some bits) []

/-- A scalar `uint64` field. -/
def sampleU64 (name : String) : Field := .mk name .Uint64Kind false false none none []

/-- The type that `generateStruct` declares for an attribute, the string returned
by `fieldGoType`: the base type `T`, or the array type `[n]T`. -/
inductive DeclType where
  | base (t : GoType)
  | array (n : Nat) (t : GoType)
  deriving DecidableEq, Repr

/-- The outcome of a call: it returns a value, or it panics. -/
inductive Outcome (α : Type) where
  | returns (v : α)
  | panics
  deriving DecidableEq, Repr

/-- The call `v.Uint()` on the value bound by `v, ok := options["FieldOptions.length"]`.
When the key is present the call returns the number held by the option. When the
key is absent `v` is the zero `protoreflect.Value`, which holds no number; the
outcome of the call on it is the parameter `zeroUint` (in the protobuf library
`Uint` panics on a value that is not of an unsigned integer type). -/
def lengthUint (zeroUint : Outcome Nat) : Option Nat → Outcome Nat
  | some v => .returns v
  | none => zeroUint

/-- Model of `fieldGoType`. The condition `ok && v.Uint() <= 0` evaluates
`v.Uint()` only when `ok` holds; the `else` branch evaluates it in either case. -/
def fieldGoType (zeroUint : Outcome Nat) (f : Field) : Outcome (Except Err DeclType) :=
  match baseFieldGoType f with
  | .error e => .returns (.error e)
  | .ok goType =>
    if f.isList || f.kind == .BytesKind then
      let ok := f.lengthOpt.isSome
      let elseBranch : Outcome (Except Err DeclType) :=
        match lengthUint zeroUint f.lengthOpt with
        | .panics => .panics
        | .returns u => .returns (.ok (.array u goType))
      if ok then
        match lengthUint zeroUint f.lengthOpt with
        | .panics => .panics
        | .returns u =>
          if u ≤ 0 then .returns (.error .ErrUnsupportedFieldType) else elseBranch
      else elseBranch
    else .returns (.ok (.base goType))

/-- A `Bytes` blob with the `length` option `L`. -/
def sampleBytes (name : String) (L : Nat) : Field :=
  .mk name .BytesKind false false (some L) none []

/-- A `uint32` list field with the `length` option `len`. -/
def sampleListU32 (name : String) (len : Option Nat) : Field :=
  .mk name .Uint32Kind true false len none []

/-! ## Layout: basic facts -/

theorem wordSizes_pos {W : Nat} (h : W ∈ wordSizes) : 0 < W := by
  simp [wordSizes] at h
  omega

/-- The local `length` in terms of the option: the option itself below `2 ^ 63`,
and `0` for the values whose conversion to `int` is negative. -/
theorem lengthOfUint_eq (u : Nat) :
    lengthOfUint u = if u % 2 ^ 64 < 2 ^ 63 then u % 2 ^ 64 else 0 := by
  unfold lengthOfUint intOfUint
  by_cases h : u % 2 ^ 64 < 2 ^ 63
  · rw [if_pos h, if_pos h]
    exact Int.toNat_ofNat _
  · rw [if_neg h, if_neg h]
    have h2 : u % 2 ^ 64 < 2 ^ 64 := Nat.mod_lt _ (by norm_num)
    apply Int.toNat_eq_zero.mpr
    omega

theorem lengthOfUint_of_lt (u : Nat) (h : u < 2 ^ 63) : lengthOfUint u = u := by
  rw [lengthOfUint_eq]
  have : u % 2 ^ 64 = u := Nat.mod_eq_of_lt (by omega)
  rw [this, if_pos h]

theorem lengthOfUint_of_ge (u : Nat) (h1 : 2 ^ 63 ≤ u) (h2 : u < 2 ^ 64) :
    lengthOfUint u = 0 := by
  rw [lengthOfUint_eq]
  have : u % 2 ^ 64 = u := Nat.mod_eq_of_lt h2
  rw [this]
  have : ¬ u < 2 ^ 63 := by omega
  rw [if_neg this]

/-- `fieldSize` is `baseSize` followed by the multiplication by `length`. -/
theorem fieldSize_eq_baseSize (W : Nat) (f : Field) :
    fieldSize W f =
      match baseSize W f with
      | .error e => .error e
      | .ok base =>
        if f.isList || f.kind == .BytesKind then
          if optLength f ≤ 0 then .error .ErrUnsupportedFieldType
          else .ok (base, base * optLength f)
        else .ok (base, base) := by
  cases f with
  | mk n k l w len bits sub =>
    cases k <;> simp only [fieldSize, baseSize, Field.isList, Field.kind, optLength, Field.lengthOpt]

/-- One iteration of the loop of `messageSize`, through `padDecision`. -/
theorem messageSizeFrom_cons (W : Nat) (f : Field) (rest : List Field) (sz : Nat) :
    messageSizeFrom W (f :: rest) sz =
      match fieldSize W f with
      | .error e => .error e
      | .ok (baseSz, fieldSz) =>
        match padDecision W f baseSz sz with
        | .error e => .error e
        | .ok pad => messageSizeFrom W rest (applyPad W sz pad + fieldSz) := by
  cases f with
  | mk n k l w len bits sub =>
    have hdef : messageSizeFrom W (.mk n k l w len bits sub :: rest) sz =
        match fieldSize W (.mk n k l w len bits sub) with
        | .error e => .error e
        | .ok (baseSz, fieldSz) =>
          let length := match len with
            | some v => lengthOfUint v
            | none => 0
          let bnd := boundary W sz
          if k == .MessageKind then
            match leadingLeafSize W sub with
            | .error e => .error e
            | .ok leaf =>
              let pad := match leaf with
                | some fsz => decide (sz + fsz > bnd)
                | none => false
              messageSizeFrom W rest (applyPad W sz pad + fieldSz)
          else if length > 0 && baseSz == 1 then
            messageSizeFrom W rest (applyPad W sz false + fieldSz)
          else
            messageSizeFrom W rest (applyPad W sz (decide (sz > bnd)) + fieldSz) := rfl
    rw [hdef]
    cases hfs : fieldSize W (.mk n k l w len bits sub) with
    | error e => rfl
    | ok p =>
      obtain ⟨baseSz, fieldSz⟩ := p
      simp only [padDecision, Field.kind, Field.message, optLength, Field.lengthOpt]
      cases hkk : (k == Kind.MessageKind) with
      | true =>
        simp only [if_true]
        cases leadingLeafSize W sub with
        | error e => rfl
        | ok leaf => cases leaf <;> rfl
      | false =>
        simp only [Bool.false_eq_true, if_false]
        split <;> rfl

theorem boundary_gt (W offset : Nat) (hW : 0 < W) : offset < boundary W offset := by
  unfold boundary
  have := Nat.div_add_mod offset W
  have := Nat.mod_lt offset hW
  rw [Nat.add_mul]
  nlinarith [Nat.mul_comm W (offset / W)]

theorem tailPad_mod (W sz : Nat) (hW : 0 < W) : tailPad W sz % W = 0 := by
  unfold tailPad
  split
  · have h1 := Nat.mod_lt sz hW
    have h2 := Nat.div_add_mod sz W
    have : sz + (W - sz % W) = W * (sz / W + 1) := by
      rw [Nat.mul_add]; omega
    rw [this]; exact Nat.mul_mod_right _ _
  · omega

theorem messageSizeFrom_mod (W : Nat) (hW : 0 < W) (fs : List Field) :
    ∀ (sz n : Nat), messageSizeFrom W fs sz = .ok n → n % W = 0 := by
  induction fs with
  | nil =>
    intro sz n h
    simp only [messageSizeFrom, Except.ok.injEq] at h
    subst h; exact tailPad_mod W sz hW
  | cons f rest ih =>
    intro sz n h
    rw [messageSizeFrom_cons] at h
    cases hfs : fieldSize W f with
    | error e => simp [hfs] at h
    | ok p =>
      obtain ⟨b, s⟩ := p
      simp only [hfs] at h
      cases hp : padDecision W f b sz with
      | error e => simp [hp] at h
      | ok pad =>
        simp only [hp] at h
        exact ih _ _ h

/-- C2: for every word size `W` in `{1, 2, 4, 8}` and every message on which
`messageSize` returns no error, the returned size is a multiple of `W`. -/
theorem messageSize_multiple_of_word (W : Nat) (msg : List Field) (n : Nat)
    (hW : W ∈ wordSizes) (h : messageSize W msg = .ok n) : n % W = 0 :=
  messageSizeFrom_mod W (wordSizes_pos hW) msg 0 n h


theorem padDecision_of_not_message (W : Nat) (hW : 0 < W) (f : Field) (baseSz offset : Nat)
    (hk : f.kind ≠ .MessageKind) : padDecision W f baseSz offset = .ok false := by
  have hb := boundary_gt W offset hW
  unfold padDecision
  have : (f.kind == Kind.MessageKind) = false := by simpa using hk
  simp only [this, Bool.false_eq_true, if_false]
  split
  · rfl
  · simp only [Except.ok.injEq, decide_eq_false_iff_not]; omega

theorem leadingLeafSize_eq_leadingLeaf (W : Nat) : ∀ fs : List Field,
    leadingLeafSize W fs =
      match leadingLeaf fs with
      | none => .ok none
      | some leaf =>
        match fieldSize W leaf with
        | .error e => .error e
        | .ok (_, fsz) => .ok (some fsz)
  | [] => by
    have h1 : leadingLeafSize W [] = .ok none := rfl
    have h2 : leadingLeaf [] = none := rfl
    rw [h1, h2]
  | .mk n k l w len bits sub :: rest => by
    have ih := leadingLeafSize_eq_leadingLeaf W sub
    have h1 : leadingLeafSize W (.mk n k l w len bits sub :: rest) =
        if k != .MessageKind then
          match fieldSize W (.mk n k l w len bits sub) with
          | .error e => .error e
          | .ok (_, fsz) => .ok (some fsz)
        else leadingLeafSize W sub := rfl
    have h2 : leadingLeaf (.mk n k l w len bits sub :: rest) =
        if (k != .MessageKind) = true then some (.mk n k l w len bits sub)
        else leadingLeaf sub := rfl
    rw [h1, h2]
    cases hk : (k != Kind.MessageKind) with
    | true => simp only [if_true]
    | false => simp only [Bool.false_eq_true, if_false]; exact ih


theorem padDecision_of_message (W : Nat) (f leaf : Field) (baseSz offset b0 s : Nat)
    (hk : f.kind = .MessageKind) (hleaf : leadingLeaf f.message = some leaf)
    (hs : fieldSize W leaf = .ok (b0, s)) :
    padDecision W f baseSz offset = .ok (decide (offset + s > boundary W offset)) := by
  unfold padDecision
  simp only [hk, beq_self_eq_true, if_true, leadingLeafSize_eq_leadingLeaf, hleaf, hs]

theorem applyPad_decide (W O : Nat) (p : Prop) [Decidable p] :
    applyPad W O (decide p) = if p then O + (W - O % W) else O := by
  unfold applyPad
  by_cases h : p <;> simp [h]

theorem err_eq (e : Err) : e = .ErrUnsupportedFieldType := by
  cases e; rfl

theorem messageSizeFrom_error_of_mem (W : Nat) (f : Field) (e : Err)
    (hf : fieldSize W f = .error e) (fs : List Field) (hmem : f ∈ fs) :
    ∀ sz, messageSizeFrom W fs sz = .error .ErrUnsupportedFieldType := by
  induction fs with
  | nil => simp at hmem
  | cons g rest ih =>
    intro sz
    rw [messageSizeFrom_cons]
    cases hg : fieldSize W g with
    | error e' => rfl
    | ok p =>
      obtain ⟨b, s⟩ := p
      simp only
      cases hp : padDecision W g b sz with
      | error e' => rfl
      | ok pad =>
        simp only
        rcases List.mem_cons.mp hmem with h | h
        · subst h; rw [hf] at hg; cases hg
        · exact ih h _

theorem tailPad_eq_ceil (W L : Nat) (hW : 0 < W) : tailPad W L = (L + W - 1) / W * W := by
  unfold tailPad
  have h1 := Nat.mod_lt L hW
  have h2 := Nat.div_add_mod L W
  by_cases h : L % W = 0
  · simp only [h, ne_eq, not_true_eq_false, if_false]
    have hL : L = W * (L / W) := by omega
    have : (L + W - 1) / W = L / W := by
      rw [hL, Nat.mul_div_cancel_left _ hW]
      have : W * (L / W) + W - 1 = (W - 1) + W * (L / W) := by omega
      rw [this, Nat.add_mul_div_left _ _ hW, Nat.div_eq_of_lt (by omega)]
      omega
    rw [this]; rw [Nat.mul_comm]; exact hL
  · simp only [ne_eq, h, not_false_eq_true, if_true]
    have : (L + W - 1) / W = L / W + 1 := by
      have e : L + W - 1 = (L % W - 1) + W * (L / W + 1) := by
        rw [Nat.mul_add]; omega
      rw [e, Nat.add_mul_div_left _ _ hW, Nat.div_eq_of_lt (by omega)]
      omega
    rw [this, Nat.add_mul, Nat.mul_comm (L / W) W]
    omega

/-- C7: a field of message kind reached at running offset `O`, whose leading leaf
has field size `s`, is padded exactly when `O + s` exceeds the boundary
`((O / W) + 1) * W`; its offset is then `O + (W - O mod W)` and otherwise `O`, in
`messageSize` and in `outputMsgFields`. With `W = 4` the message `(u8, Nested{u32})`
has offsets `0`, `4` and size `8`. -/
theorem nested_leading_leaf_rule (W O s b0 b fsz : Nat) (f leaf : Field)
    (hk : f.kind = .MessageKind) (hleaf : leadingLeaf f.message = some leaf)
    (hs : fieldSize W leaf = .ok (b0, s)) (hf : fieldSize W f = .ok (b, fsz)) :
    padDecision W f b O = .ok (decide (O + s > ((O / W) + 1) * W)) ∧
    (∀ rest, messageSizeFrom W (f :: rest) O =
      messageSizeFrom W rest
        ((if O + s > ((O / W) + 1) * W then O + (W - O % W) else O) + fsz)) ∧
    (∃ lines next, outputField W f O =
      .ok ⟨if O + s > ((O / W) + 1) * W then O + (W - O % W) else O, lines, next⟩) ∧
    messageOffsets 4 [sampleU8 "A", sampleNested "N" [sampleU32 "B"]] = .ok [0, 4] ∧
    (outputMsgFields 4 [sampleU8 "A", sampleNested "N" [sampleU32 "B"]]).map
      (List.map Emitted.start) = .ok [0, 4] ∧
    messageSize 4 [sampleU8 "A", sampleNested "N" [sampleU32 "B"]] = .ok 8 := by
  have hp := padDecision_of_message W f leaf b O b0 s hk hleaf hs
  have hb : boundary W O = ((O / W) + 1) * W := rfl
  rw [hb] at hp
  refine ⟨hp, ?_, ?_, by decide, by decide, by decide⟩
  · intro rest
    rw [messageSizeFrom_cons, hf]
    simp only [hp, applyPad_decide]
  · unfold outputField
    simp only [hf, hp, applyPad_decide, hk]
    split
    · split <;> exact ⟨_, _, rfl⟩
    · simp only [beq_self_eq_true, if_true]
      exact ⟨_, _, rfl⟩

theorem nested_leading_leaf_rule_witness :
    padDecision 4 (sampleNested "N" [sampleU32 "B"]) 4 1 = .ok (decide (1 + 4 > ((1 / 4) + 1) * 4)) ∧
    (∀ rest, messageSizeFrom 4 (sampleNested "N" [sampleU32 "B"] :: rest) 1 =
      messageSizeFrom 4 rest
        ((if 1 + 4 > ((1 / 4) + 1) * 4 then 1 + (4 - 1 % 4) else 1) + 4)) ∧
    (∃ lines next, outputField 4 (sampleNested "N" [sampleU32 "B"]) 1 =
      .ok ⟨if 1 + 4 > ((1 / 4) + 1) * 4 then 1 + (4 - 1 % 4) else 1, lines, next⟩) ∧
    messageOffsets 4 [sampleU8 "A", sampleNested "N" [sampleU32 "B"]] = .ok [0, 4] ∧
    (outputMsgFields 4 [sampleU8 "A", sampleNested "N" [sampleU32 "B"]]).map
      (List.map Emitted.start) = .ok [0, 4] ∧
    messageSize 4 [sampleU8 "A", sampleNested "N" [sampleU32 "B"]] = .ok 8 :=
  nested_leading_leaf_rule 4 1 4 4 4 4 (sampleNested "N" [sampleU32 "B"]) (sampleU32 "B")
    (by decide) rfl (by decide) (by decide)


theorem fieldSize_bytes (W L : Nat) (f : Field) (hL : 1 ≤ L) (hL2 : L < 2 ^ 63)
    (hk : f.kind = .BytesKind) (hlen : f.lengthOpt = some L) :
    fieldSize W f = .ok (1, L) := by
  cases f with
  | mk n k l w len bits sub =>
    simp only [Field.kind, Field.lengthOpt] at hk hlen
    subst hk hlen
    have hL' : ¬ L = 0 := by omega
    simp [fieldSize, lengthOfUint_of_lt L hL2, hL']

/-- C8 (counterexample): with `W = 4`, for the `Bytes` blob of length `L = 2 ^ 63`
the conversion `int(v.Uint())` gives the negative length `-2 ^ 63`, and `fieldSize`
and `messageSize` of the message whose only field is the blob return
`ErrUnsupportedFieldType`: there is no size `ceil(L / W) * W`. -/
theorem bytes_blob_length_beyond_int :
    1 ≤ 2 ^ 63 ∧
    intOfUint (2 ^ 63) = -(2 ^ 63) ∧
    fieldSize 4 (sampleBytes "Tbytes" (2 ^ 63)) = .error .ErrUnsupportedFieldType ∧
    messageSize 4 [sampleBytes "Tbytes" (2 ^ 63)] = .error .ErrUnsupportedFieldType := by
  refine ⟨by decide, by decide, by decide, by decide⟩

/-- C8 (amended): for every word size `W` in `{1, 2, 4, 8}` and every `L` with
`1 ≤ L` and `L + W ≤ 2 ^ 63` (the length and the padded size are in the range of
`int`), a message whose only field is a `Bytes` blob of length `L` has size
`ceil(L / W) * W`, and the blob is at offset `0` in `messageSize` and in
`outputMsgFields`. -/
theorem bytes_blob_message_size (W L : Nat) (f : Field) (hW : W ∈ wordSizes) (hL : 1 ≤ L)
    (hL2 : L + W ≤ 2 ^ 63) (hk : f.kind = .BytesKind) (hlen : f.lengthOpt = some L) :
    messageSize W [f] = .ok ((L + W - 1) / W * W) ∧
    messageOffsets W [f] = .ok [0] ∧
    (outputMsgFields W [f]).map (List.map Emitted.start) = .ok [0] := by
  have hW0 := wordSizes_pos hW
  have hfs := fieldSize_bytes W L f hL (by omega) hk hlen
  have hkm : f.kind ≠ .MessageKind := by rw [hk]; decide
  have hp := padDecision_of_not_message W hW0 f 1 0 hkm
  refine ⟨?_, ?_, ?_⟩
  · unfold messageSize
    rw [messageSizeFrom_cons, hfs]
    simp only [hp, applyPad, Bool.false_eq_true, if_false, Nat.zero_add]
    simp only [messageSizeFrom, tailPad_eq_ceil W L hW0]
  · simp only [messageOffsets, messageOffsetsFrom, hfs, hp, applyPad, Bool.false_eq_true,
      if_false]
  · simp only [outputMsgFields, outputMsgFieldsFrom, outputField, hfs, hp, applyPad,
      Bool.false_eq_true, if_false, hk]
    simp [Except.map]

theorem bytes_blob_message_size_witness :
    4 ∈ wordSizes ∧ 1 ≤ 5 ∧ 5 + 4 ≤ 2 ^ 63 ∧
    messageSize 4 [sampleBytes "Tbytes" 5] = .ok ((5 + 4 - 1) / 4 * 4) ∧
    messageOffsets 4 [sampleBytes "Tbytes" 5] = .ok [0] ∧
    (outputMsgFields 4 [sampleBytes "Tbytes" 5]).map (List.map Emitted.start) = .ok [0] :=
  ⟨by decide, by decide, by decide,
    bytes_blob_message_size 4 5 (sampleBytes "Tbytes" 5) (by decide) (by decide) (by decide)
      rfl rfl⟩

/-- C9 (counterexample): with `W = 4`, for the list field `repeated uint32 T`
with `length = 2 ^ 63` the base size computes without error and the `length` option
is present and not zero, but `int(v.Uint())` is `-2 ^ 63` and `fieldSize` returns
`ErrUnsupportedFieldType`. -/
theorem fieldSize_rejects_length_beyond_int :
    baseSize 4 (sampleListU32 "T" (some (2 ^ 63))) = .ok 4 ∧
    (sampleListU32 "T" (some (2 ^ 63))).isList = true ∧
    (sampleListU32 "T" (some (2 ^ 63))).lengthOpt ≠ none ∧
    (sampleListU32 "T" (some (2 ^ 63))).lengthOpt ≠ some 0 ∧
    intOfUint (2 ^ 63) = -(2 ^ 63) ∧
    fieldSize 4 (sampleListU32 "T" (some (2 ^ 63))) = .error .ErrUnsupportedFieldType := by
  refine ⟨by decide, rfl, by decide, by decide, by decide, by decide⟩

/-- C9 (amended): for a field whose base size computes without error and whose
`length` option, when present, is a `uint64`, `fieldSize` returns
`ErrUnsupportedFieldType` exactly when the field is a list or a `Bytes` blob whose
`length` option is absent, zero, or `2 ^ 63` or more (a negative `int`); otherwise
it returns `(base, base)` for a scalar and, for a list or blob of length `L` with
`1 ≤ L < 2 ^ 63` and `base * L < 2 ^ 63`, `(base, base * L)`; and `messageSize` of a
message that holds a field on which `fieldSize` fails returns that error. -/
theorem fieldSize_error_iff (W base : Nat) (f : Field) (hb : baseSize W f = .ok base)
    (hu : ∀ v, f.lengthOpt = some v → v < 2 ^ 64) :
    (fieldSize W f = .error .ErrUnsupportedFieldType ↔
      (f.isList = true ∨ f.kind = .BytesKind) ∧
        (f.lengthOpt = none ∨ f.lengthOpt = some 0 ∨
          ∃ v, f.lengthOpt = some v ∧ 2 ^ 63 ≤ v)) ∧
    (¬ (f.isList = true ∨ f.kind = .BytesKind) → fieldSize W f = .ok (base, base)) ∧
    (∀ L, (f.isList = true ∨ f.kind = .BytesKind) → f.lengthOpt = some L → 1 ≤ L →
      L < 2 ^ 63 → base * L < 2 ^ 63 → fieldSize W f = .ok (base, base * L)) ∧
    (∀ msg, f ∈ msg → fieldSize W f = .error .ErrUnsupportedFieldType →
      messageSize W msg = .error .ErrUnsupportedFieldType) := by
  have hfs := fieldSize_eq_baseSize W f
  rw [hb] at hfs
  simp only at hfs
  have hopt : ∀ v, f.lengthOpt = some v → optLength f = lengthOfUint v := by
    intro v hv
    simp [optLength, hv]
  have hnone : f.lengthOpt = none → optLength f = 0 := by
    intro h
    simp [optLength, h]
  refine ⟨?_, ?_, ?_, ?_⟩
  · rw [hfs]
    by_cases hl : (f.isList || f.kind == .BytesKind) = true
    · have hl' : f.isList = true ∨ f.kind = .BytesKind := by simpa using hl
      simp only [hl, if_true]
      have key : optLength f ≤ 0 ↔ (f.lengthOpt = none ∨ f.lengthOpt = some 0 ∨
          ∃ v, f.lengthOpt = some v ∧ 2 ^ 63 ≤ v) := by
        cases hlen : f.lengthOpt with
        | none =>
          rw [hnone hlen]
          simp
        | some v =>
          have hv := hu v hlen
          rw [hopt v hlen]
          by_cases h63 : v < 2 ^ 63
          · rw [lengthOfUint_of_lt v h63]
            constructor
            · intro h0
              have : v = 0 := by omega
              subst this
              exact Or.inr (Or.inl rfl)
            · rintro (h | h | ⟨v2, h, h2⟩)
              · cases h
              · cases h
                exact Nat.le_refl 0
              · cases h
                omega
          · rw [lengthOfUint_of_ge v (by omega) hv]
            constructor
            · intro _
              exact Or.inr (Or.inr ⟨v, rfl, by omega⟩)
            · intro _
              exact Nat.le_refl 0
      by_cases h0 : optLength f ≤ 0
      · simp only [h0, if_true, true_iff]
        exact ⟨hl', key.mp h0⟩
      · simp only [h0, if_false]
        constructor
        · intro h
          cases h
        · intro h
          exact absurd (key.mpr h.2) h0
    · simp only [hl]
      have hl' : ¬ (f.isList = true ∨ f.kind = .BytesKind) := by simpa using hl
      simp [hl']
  · intro h
    rw [hfs]
    have hl : (f.isList || f.kind == .BytesKind) = false := by simpa using h
    simp [hl]
  · intro L h hlen hL hL2 _
    rw [hfs]
    have hl : (f.isList || f.kind == .BytesKind) = true := by simpa using h
    have hL' : ¬ L ≤ 0 := by omega
    simp only [hl, if_true, hopt L hlen, lengthOfUint_of_lt L hL2, hL', if_false]
  · intro msg hmem herr
    exact messageSizeFrom_error_of_mem W f _ herr msg hmem 0

theorem fieldSize_error_iff_witness :
    baseSize 4 (sampleListU32 "T" (some 3)) = .ok 4 ∧
    (∀ v, (sampleListU32 "T" (some 3)).lengthOpt = some v → v < 2 ^ 64) ∧
    (fieldSize 4 (sampleListU32 "T" (some 3)) = .error .ErrUnsupportedFieldType ↔
      ((sampleListU32 "T" (some 3)).isList = true ∨
        (sampleListU32 "T" (some 3)).kind = .BytesKind) ∧
        ((sampleListU32 "T" (some 3)).lengthOpt = none ∨
          (sampleListU32 "T" (some 3)).lengthOpt = some 0 ∨
          ∃ v, (sampleListU32 "T" (some 3)).lengthOpt = some v ∧ 2 ^ 63 ≤ v)) ∧
    (¬ ((sampleListU32 "T" (some 3)).isList = true ∨
        (sampleListU32 "T" (some 3)).kind = .BytesKind) →
      fieldSize 4 (sampleListU32 "T" (some 3)) = .ok (4, 4)) ∧
    (∀ L, ((sampleListU32 "T" (some 3)).isList = true ∨
        (sampleListU32 "T" (some 3)).kind = .BytesKind) →
      (sampleListU32 "T" (some 3)).lengthOpt = some L → 1 ≤ L → L < 2 ^ 63 →
      4 * L < 2 ^ 63 → fieldSize 4 (sampleListU32 "T" (some 3)) = .ok (4, 4 * L)) ∧
    (∀ msg, sampleListU32 "T" (some 3) ∈ msg →
      fieldSize 4 (sampleListU32 "T" (some 3)) = .error .ErrUnsupportedFieldType →
      messageSize 4 msg = .error .ErrUnsupportedFieldType) :=
  ⟨by decide, by intro v h; cases h; decide,
    fieldSize_error_iff 4 4 (sampleListU32 "T" (some 3)) (by decide)
      (by intro v h; cases h; decide)⟩

/-- C10: for a field whose kind is outside the supported set (`Enum` and `String`
are the kinds that no arm of the switch handles), `baseSize` and `baseFieldGoType`
both return `ErrUnsupportedFieldType`, and `messageSize` of every message that
contains the field fails with that error. -/
theorem unsupported_kind_rejected (W : Nat) (f : Field) (hk : supportedKind f.kind = false) :
    baseSize W f = .error .ErrUnsupportedFieldType ∧
    baseFieldGoType f = .error .ErrUnsupportedFieldType ∧
    (∀ msg, f ∈ msg → messageSize W msg = .error .ErrUnsupportedFieldType) := by
  have hbs : baseSize W f = .error .ErrUnsupportedFieldType := by
    cases f with
    | mk n k l w len bits sub =>
      cases k <;> simp [supportedKind, Field.kind] at hk <;> rfl
  refine ⟨hbs, ?_, ?_⟩
  · unfold baseFieldGoType
    split
    · rfl
    · cases hkk : f.kind <;> simp [supportedKind, hkk] at hk <;> rfl
  · intro msg hmem
    have hfs : fieldSize W f = .error .ErrUnsupportedFieldType := by
      rw [fieldSize_eq_baseSize, hbs]
    exact messageSizeFrom_error_of_mem W f _ hfs msg hmem 0

theorem unsupported_kind_rejected_witness :
    baseSize 4 (Field.mk "Tstr" .StringKind false false none none []) =
      .error .ErrUnsupportedFieldType ∧
    baseFieldGoType (Field.mk "Tstr" .StringKind false false none none []) =
      .error .ErrUnsupportedFieldType ∧
    (∀ msg, Field.mk "Tstr" .StringKind false false none none [] ∈ msg →
      messageSize 4 msg = .error .ErrUnsupportedFieldType) :=
  unsupported_kind_rejected 4 (.mk "Tstr" .StringKind false false none none []) rfl


theorem messageSize_multiple_of_word_witness :
    4 ∈ wordSizes ∧ messageSize 4 test0 = .ok 196 ∧ 196 % 4 = 0 :=
  ⟨by decide, by decide, messageSize_multiple_of_word 4 test0 196 (by decide) (by decide)⟩

/-- C5 (the code at the failing input): with `W = 4` the message `(u8, u32)` gets
the offsets `0` and `1` in `messageSize` and in `outputMsgFields`; the `u32` field
has size `4 ≤ W` and its offset `1` is not a multiple of `4`. -/
theorem scalar_alignment_u8_u32 :
    fieldSize 4 (sampleU32 "B") = .ok (4, 4) ∧
    messageOffsets 4 [sampleU8 "A", sampleU32 "B"] = .ok [0, 1] ∧
    (outputMsgFields 4 [sampleU8 "A", sampleU32 "B"]).map (List.map Emitted.start) =
      .ok [0, 1] ∧
    1 % 4 ≠ 0 := by
  refine ⟨by decide, by decide, by decide, by decide⟩

/-- C6 (the code at the failing input): with `W = 4` the message `(u8, u32)` has
size `8` but the offsets `0` and `1`, no padding follows the first field, and
`u8 = 0xAB`, `u32 = 0x11223344` is encoded as `AB 11 22 33 44 00 00 00`. -/
theorem encode_u8_u32 :
    messageSize 4 [sampleU8 "A", sampleU32 "B"] = .ok 8 ∧
    messageOffsets 4 [sampleU8 "A", sampleU32 "B"] = .ok [0, 1] ∧
    (outputMsgFields 4 [sampleU8 "A", sampleU32 "B"]).map (List.map Emitted.start) =
      .ok [0, 1] ∧
    runBytes 4 [sampleU8 "A", sampleU32 "B"] sampleRecordAB =
      some [0xAB, 0x11, 0x22, 0x33, 0x44, 0x00, 0x00, 0x00] := by
  refine ⟨by decide, by decide, by decide, by decide⟩


/-! ## Big-endian emission -/

theorem toSigned_shift_byte (w p s : Nat) (hs : s + 8 ≤ w) :
    (((toSigned w p) >>> s) % 256).toNat = (p >>> s) % 256 := by
  have hcast : ((((p : Int) / 2 ^ s) % 256).toNat) = (p >>> s) % 256 := by
    rw [Nat.shiftRight_eq_div_pow]
    have : ((p : Int) / 2 ^ s) % 256 = (((p / 2 ^ s) % 256 : Nat) : Int) := by
      push_cast; rfl
    rw [this, Int.toNat_ofNat]
  unfold toSigned
  split
  · rw [Int.shiftRight_eq_div_pow]; push_cast; exact hcast
  · rw [Int.shiftRight_eq_div_pow]
    push_cast
    have hw : (2 : Int) ^ w = (2 ^ (w - s - 8) * 256) * 2 ^ s := by
      have : w = (w - s - 8) + 8 + s := by omega
      conv_lhs => rw [this]
      rw [pow_add, pow_add]; norm_num
    have h1 : ((p : Int) - 2 ^ w) / 2 ^ s = (p : Int) / 2 ^ s - 2 ^ (w - s - 8) * 256 := by
      rw [hw, sub_eq_add_neg, ← neg_mul, Int.add_mul_ediv_right _ _ (by positivity)]
      ring
    rw [h1, sub_eq_add_neg, ← neg_mul, Int.add_mul_emod_self]
    exact hcast

theorem byteOfShift_eq (t : GoType) (p s : Nat) (hs : s + 8 ≤ t.width) :
    byteOfShift t p s = (p >>> s) &&& 0xff := by
  have hand : (p >>> s) &&& 0xff = (p >>> s) % 256 :=
    Nat.and_pow_two_sub_one_eq_mod (p >>> s) 8
  rw [hand]
  unfold byteOfShift
  split
  · exact toSigned_shift_byte _ p s hs
  · rfl

theorem fieldSize_bytes_base (W S sz : Nat) (f : Field) (hfs : fieldSize W f = .ok (S, sz))
    (hk : f.kind = .BytesKind) : S = 1 := by
  cases f with
  | mk n k l w len bits sub =>
    simp only [Field.kind] at hk
    subst hk
    simp only [fieldSize] at hfs
    split at hfs
    · split at hfs
      · cases hfs
      · simp only [Except.ok.injEq, Prod.mk.injEq] at hfs; omega
    · simp only [Except.ok.injEq, Prod.mk.injEq] at hfs; omega

theorem filter_outElemLines (x : Operand) (o n S : Nat) :
    (outElemLines x o n S).filter OutLine.isShiftAssign = outElemLines x o n S := by
  rw [List.filter_eq_self]
  intro l hl
  simp only [outElemLines, List.mem_flatMap, List.mem_map] at hl
  obtain ⟨i, _, b, _, rfl⟩ := hl
  rfl

theorem filter_outScalarLines (x : Operand) (o S : Nat) :
    (outScalarLines x o S).filter OutLine.isShiftAssign = outScalarLines x o S := by
  rw [List.filter_eq_self]
  intro l hl
  simp only [outScalarLines, List.mem_map] at hl
  obtain ⟨b, _, rfl⟩ := hl
  rfl

theorem outElemLines_eq (x : Operand) (o n S : Nat) :
    outElemLines x o n S =
      (List.range n).flatMap (fun i =>
        (List.range' 1 S).map (fun b => OutLine.setElemByte (o + i * S + b - 1) x i (S - b))) := by
  unfold outElemLines
  congr 1
  funext i
  rw [List.range'_eq_map_range, List.map_map]
  apply List.map_congr_left
  intro b _
  simp only [Function.comp]
  congr 1 <;> omega

theorem outScalarLines_eq (x : Operand) (o S : Nat) :
    outScalarLines x o S =
      (List.range' 1 S).map (fun b => OutLine.setByteShift (o + b - 1) x (S - b)) := by
  unfold outScalarLines
  rw [List.range'_eq_map_range, List.map_map]
  apply List.map_congr_left
  intro b _
  simp only [Function.comp]
  congr 1 <;> omega

theorem filter_decl_nil (f : Field) (length : Nat) :
    (if (f.kind == Kind.DoubleKind) = true then
      if f.isList = true then [OutLine.declBitsList f.goName 64 length]
      else [OutLine.declBits f.goName 64]
    else if (f.kind == Kind.FloatKind) = true then
      if f.isList = true then [OutLine.declBitsList f.goName 32 length]
      else [OutLine.declBits f.goName 32]
    else ([] : List OutLine)).filter OutLine.isShiftAssign = [] := by
  split
  · split <;> rfl
  · split
    · split <;> rfl
    · rfl

/-- C4: for a field of base size `S > 1` (a scalar that is not a nested message, or
a fixed-length array) that `outputMsgFields` places at offset `e.start`, the
shifted byte assignments printed for the field are exactly, element by element in
index order and for `b = 1, ..., S`, the lines
`output[o + b - 1] = byte(x >> (8 * (S - b)))` with `o = e.start + i * S` the offset
of element `i` (`o = e.start` for a scalar); and each such line stores
`(value >> (8 * (S - b))) & 0xff`, where `value` is the bit pattern held by the
operand (the integer, or the `_bits` local of a float). -/
theorem big_endian_emission (W O S sz : Nat) (f : Field) (e : Emitted OutLine)
    (hfs : fieldSize W f = .ok (S, sz)) (hS : 1 < S) (he : outputField W f O = .ok e)
    (hk : f.isList = true ∨ f.kind ≠ .MessageKind) :
    e.lines.filter OutLine.isShiftAssign =
      (List.range (if f.isList then optLength f else 1)).flatMap (fun i =>
        (List.range' 1 S).map (fun b =>
          if f.isList then
            OutLine.setElemByte (e.start + i * S + b - 1) (fieldNameOf f) i (S - b)
          else OutLine.setByteShift (e.start + b - 1) (fieldNameOf f) (S - b))) ∧
    (∀ b, 1 ≤ b → b ≤ S → ∀ (str : Store) (st : OutState) (t : GoType) (p o : Nat),
      operandValue str st.locals (fieldNameOf f) = some (.scalar t p) →
      t.isInteger = true → 8 * S ≤ t.width → o < st.output.length →
      execOut str st (.setByteShift o (fieldNameOf f) (S - b)) =
        some ⟨st.locals, st.output.set o ((p >>> (8 * (S - b))) &&& 0xff)⟩) ∧
    (∀ b, 1 ≤ b → b ≤ S →
      ∀ (str : Store) (st : OutState) (t : GoType) (elems : List Nat) (i o : Nat),
      operandValue str st.locals (fieldNameOf f) = some (.array t elems) →
      t.isInteger = true → 8 * S ≤ t.width → i < elems.length → o < st.output.length →
      execOut str st (.setElemByte o (fieldNameOf f) i (S - b)) =
        some ⟨st.locals, st.output.set o ((elems.getD i 0 >>> (8 * (S - b))) &&& 0xff)⟩) := by
  refine ⟨?_, ?_, ?_⟩
  · have hnb : f.kind ≠ .BytesKind := by
      intro h
      have := fieldSize_bytes_base W S sz f hfs h
      omega
    have hnb' : (f.kind == Kind.BytesKind) = false := by simpa using hnb
    unfold outputField at he
    rw [hfs] at he
    simp only at he
    cases hp : padDecision W f S O with
    | error err => rw [hp] at he; cases he
    | ok pad =>
      rw [hp] at he
      simp only [hnb', Bool.or_false] at he
      cases hl : f.isList with
      | true =>
        simp only [hl, if_true, hS] at he
        cases he
        simp only [List.filter_append, filter_outElemLines]
        have hd := filter_decl_nil f (optLength f)
        simp only [hl, if_true] at hd
        rw [hd, List.nil_append, outElemLines_eq]
        simp only [if_true]
      | false =>
        have hkm : (f.kind == Kind.MessageKind) = false := by
          rcases hk with h | h
          · rw [hl] at h; cases h
          · simpa using h
        simp only [hl, Bool.false_eq_true, if_false, hkm, hS, if_true] at he
        cases he
        simp only [List.filter_append, filter_outScalarLines]
        have hd := filter_decl_nil f (optLength f)
        simp only [hl, Bool.false_eq_true, if_false] at hd
        rw [hd, List.nil_append, outScalarLines_eq]
        simp [List.range_succ]
  · intro b hb1 hbS str st t p o hx ht hw ho
    simp only [execOut, hx, ht, ho, and_self, if_true]
    rw [byteOfShift_eq t p (8 * (S - b)) (by omega)]
  · intro b hb1 hbS str st t elems i o hx ht hw hi ho
    simp only [execOut, hx, ht, hi, ho, and_self, if_true]
    rw [byteOfShift_eq t (elems.getD i 0) (8 * (S - b)) (by omega)]

theorem big_endian_emission_witness :
    (⟨1, outElemLines (.str "T") 1 4 4, 17⟩ : Emitted OutLine).lines.filter
        OutLine.isShiftAssign =
      (List.range (if (sampleArrU32 "T").isList then optLength (sampleArrU32 "T") else 1)).flatMap
        (fun i => (List.range' 1 4).map (fun b =>
          if (sampleArrU32 "T").isList then
            OutLine.setElemByte
              ((⟨1, outElemLines (.str "T") 1 4 4, 17⟩ : Emitted OutLine).start + i * 4 + b - 1)
              (fieldNameOf (sampleArrU32 "T")) i (4 - b)
          else
            OutLine.setByteShift
              ((⟨1, outElemLines (.str "T") 1 4 4, 17⟩ : Emitted OutLine).start + b - 1)
              (fieldNameOf (sampleArrU32 "T")) (4 - b))) ∧
    (∀ b, 1 ≤ b → b ≤ 4 → ∀ (str : Store) (st : OutState) (t : GoType) (p o : Nat),
      operandValue str st.locals (fieldNameOf (sampleArrU32 "T")) = some (.scalar t p) →
      t.isInteger = true → 8 * 4 ≤ t.width → o < st.output.length →
      execOut str st (.setByteShift o (fieldNameOf (sampleArrU32 "T")) (4 - b)) =
        some ⟨st.locals, st.output.set o ((p >>> (8 * (4 - b))) &&& 0xff)⟩) ∧
    (∀ b, 1 ≤ b → b ≤ 4 →
      ∀ (str : Store) (st : OutState) (t : GoType) (elems : List Nat) (i o : Nat),
      operandValue str st.locals (fieldNameOf (sampleArrU32 "T")) = some (.array t elems) →
      t.isInteger = true → 8 * 4 ≤ t.width → i < elems.length → o < st.output.length →
      execOut str st (.setElemByte o (fieldNameOf (sampleArrU32 "T")) i (4 - b)) =
        some ⟨st.locals, st.output.set o ((elems.getD i 0 >>> (8 * (4 - b))) &&& 0xff)⟩) :=
  big_endian_emission 4 1 4 16 (sampleArrU32 "T") ⟨1, outElemLines (.str "T") 1 4 4, 17⟩
    (by decide) (by decide) (by decide) (Or.inl rfl)


/-- C3 (the code at the failing input): with `W = 4`, for the message
`(repeated Empty E [length = 8], u32 B)` every `bits` option is valid and the array
has length `8 ≥ 1`; `fieldSize` of `E` is `(0, 0)` and `messageSize` is `4`, but
`outputMsgFields` advances past `E` by `length = 8` and prints the bytes of `B` at
`output[8]`, ..., `output[11]`. -/
theorem output_index_beyond_message_size :
    fieldSize 4 (sampleArrEmpty "E") = .ok (0, 0) ∧
    messageSize 4 [sampleArrEmpty "E", sampleU32 "B"] = .ok 4 ∧
    outputMsgFields 4 [sampleArrEmpty "E", sampleU32 "B"] =
      .ok [⟨0, [.copyOut 0 (.str "E")], 8⟩,
        ⟨8, [.setByteShift 8 (.str "B") 3, .setByteShift 9 (.str "B") 2,
          .setByteShift 10 (.str "B") 1, .setByteShift 11 (.str "B") 0], 12⟩] := by
  refine ⟨by decide, by decide, by decide⟩

/-- C1 (the code at the failing input): the message whose only field is
`repeated int32 T` with `length = 4` and `bits = 8BIT` is built from a shape of the
round-trip property, a fixed-length array of 8-bit-narrowed signed integers. `messageSize`
returns `4`, `baseFieldGoType` names `int8`, so the attribute is a `[4]int8`, and
the lines printed by `outputMsgFields` and `inputMsgFields` are
`copy(output[0:], str.T[:])` and `copy(str.T[:], input[0:])`. Go accepts `copy`
between a `[]byte` and a slice of `byte` or `uint8` only: on the record
`T = [7, 8, 9, 10]` `Bytes` has no result, and `FromBytes` has none on the
zero-valued record. -/
theorem int8_array_has_no_bytes :
    sampleArrI8 "T" = .mk "T" .Int32Kind true false (some 4) (some 0) [] ∧
    recordAccepted [sampleArrI8 "T"] = true ∧
    messageSize 4 [sampleArrI8 "T"] = .ok 4 ∧
    baseFieldGoType (sampleArrI8 "T") = .ok .int8 ∧
    GoType.isByte .int8 = false ∧
    outputMsgFields 4 [sampleArrI8 "T"] = .ok [⟨0, [.copyOut 0 (.str "T")], 4⟩] ∧
    inputMsgFields 4 [sampleArrI8 "T"] = .ok [⟨0, [.copyIn (.str "T") 0], 4⟩] ∧
    valueOfField (sampleArrI8 "T") (sampleRecordI8 "T") ∧
    runBytes 4 [sampleArrI8 "T"] sampleRecordI8 = none ∧
    (runFromBytes 4 [sampleArrI8 "T"] (zeroRecord [sampleArrI8 "T"]) [7, 8, 9, 10]).isNone =
      true := by
  refine ⟨rfl, by decide, by decide, by decide, by decide, by decide, by decide, ?_, by decide,
    by decide⟩
  simp [valueOfField, sampleRecordI8, sampleArrI8, baseFieldGoType, Field.isWeak, Field.kind,
    Field.bitsOpt, Field.isList, optLength, Field.lengthOpt, GoType.width,
    lengthOfUint_of_lt 4 (by norm_num)]


/-! ## Round trip: buffers -/

theorem splice_length (out : List Nat) (o : Nat) (b : List Nat) (h : o + b.length ≤ out.length) :
    (splice out o b).length = out.length := by
  simp only [splice, List.length_append, List.length_take, List.length_drop]
  omega

theorem splice_nil (out : List Nat) (o : Nat) : splice out o [] = out := by
  simp [splice]

theorem splice_splice (out : List Nat) (o : Nat) (b1 b2 : List Nat)
    (h : o + b1.length + b2.length ≤ out.length) :
    splice (splice out o b1) (o + b1.length) b2 = splice out o (b1 ++ b2) := by
  have hl : (out.take o ++ b1).length = o + b1.length := by
    simp only [List.length_append, List.length_take]; omega
  simp only [splice]
  have e1 : List.take (o + b1.length) (out.take o ++ b1 ++ out.drop (o + b1.length)) =
      out.take o ++ b1 := by
    rw [← hl, List.take_left']
    rfl
  have e2 : List.drop (o + b1.length + b2.length)
      (out.take o ++ b1 ++ out.drop (o + b1.length)) =
      out.drop (o + (b1 ++ b2).length) := by
    rw [List.drop_append_eq_append_drop, List.drop_of_length_le (by omega), List.nil_append, hl,
      List.drop_drop, List.length_append]
    congr 1; omega
  rw [e1, e2]
  simp only [List.append_assoc]

theorem splice_set (out : List Nat) (o : Nat) (b : List Nat) (v : Nat)
    (h : o + b.length < out.length) :
    (splice out o b).set (o + b.length) v = splice out o (b ++ [v]) := by
  have hl : (out.take o ++ b).length = o + b.length := by
    simp only [List.length_append, List.length_take]; omega
  simp only [splice]
  rw [List.set_append_right _ _ (by omega), hl, Nat.sub_self]
  have hd : out.drop (o + b.length) =
      out.getD (o + b.length) 0 :: out.drop (o + (b ++ [v]).length) := by
    rw [List.length_append, List.length_singleton, ← Nat.add_assoc]
    rw [List.getD_eq_getElem _ _ h]
    exact List.drop_eq_getElem_cons h
  rw [hd, List.set_cons_zero]
  simp only [List.append_assoc, List.singleton_append]

theorem execOutLines_append (str : Store) (l1 l2 : List OutLine) (st : OutState) :
    execOutLines str (l1 ++ l2) st =
      (execOutLines str l1 st).bind (execOutLines str l2) := by
  induction l1 generalizing st with
  | nil => rfl
  | cons l ls ih =>
    simp only [List.cons_append, execOutLines]
    cases execOut str st l with
    | none => rfl
    | some st' => exact ih st'

theorem execInLines_append (input : List Nat) (l1 l2 : List InLine) (st : InState) :
    execInLines input (l1 ++ l2) st =
      (execInLines input l1 st).bind (execInLines input l2) := by
  induction l1 generalizing st with
  | nil => rfl
  | cons l ls ih =>
    simp only [List.cons_append, execInLines]
    cases execIn input st l with
    | none => rfl
    | some st' => exact ih st'


/-! ## Round trip: the lines of `Bytes` -/

theorem byteOfShift_mod (t : GoType) (p s : Nat) (hs : s + 8 ≤ t.width) :
    byteOfShift t p s = (p >>> s) % 256 := by
  rw [byteOfShift_eq t p s hs]
  exact Nat.and_pow_two_sub_one_eq_mod (p >>> s) 8

theorem shiftBytes_eq_beBytes (t : GoType) (S p : Nat) (hw : t.width = 8 * S) :
    ((List.range S).map fun j => byteOfShift t p (8 * (S - (j + 1)))) = beBytes S p := by
  unfold beBytes
  apply List.map_congr_left
  intro j hj
  have hj' : j < S := List.mem_range.mp hj
  exact byteOfShift_mod t p _ (by omega)

theorem exec_outScalar_upto (str loc : Store) (x : Operand) (t : GoType) (p o S : Nat)
    (hx : operandValue str loc x = some (.scalar t p)) (ht : t.isInteger = true) :
    ∀ (n : Nat) (out : List Nat), o + n ≤ out.length →
      execOutLines str
        ((List.range n).map fun b0 => OutLine.setByteShift (o + b0) x (S - (b0 + 1)))
        ⟨loc, out⟩ =
      some ⟨loc, splice out o
        ((List.range n).map fun j => byteOfShift t p (8 * (S - (j + 1))))⟩ := by
  intro n
  induction n with
  | zero => intro out _; simp [execOutLines, splice_nil]
  | succ n ih =>
    intro out h
    rw [List.range_succ, List.map_append, execOutLines_append, ih out (by omega)]
    simp only [List.map_cons, List.map_nil, Option.some_bind, execOutLines, execOut, hx, ht]
    have hlen : (splice out o
        ((List.range n).map fun j => byteOfShift t p (8 * (S - (j + 1))))).length =
        out.length := splice_length _ _ _ (by simp; omega)
    have hlt : o + n < (splice out o
        ((List.range n).map fun j => byteOfShift t p (8 * (S - (j + 1))))).length := by
      rw [hlen]; omega
    simp only [hlt, and_self, if_true]
    have hset := splice_set out o
      ((List.range n).map fun j => byteOfShift t p (8 * (S - (j + 1))))
      (byteOfShift t p (8 * (S - (n + 1)))) (by simp; omega)
    simp only [List.length_map, List.length_range] at hset
    rw [hset, List.map_append]
    rfl

theorem exec_outElem_upto (str loc : Store) (x : Operand) (t : GoType) (elems : List Nat)
    (i o S : Nat) (hx : operandValue str loc x = some (.array t elems))
    (ht : t.isInteger = true) (hi : i < elems.length) :
    ∀ (n : Nat) (out : List Nat), o + n ≤ out.length →
      execOutLines str
        ((List.range n).map fun b0 => OutLine.setElemByte (o + b0) x i (S - (b0 + 1)))
        ⟨loc, out⟩ =
      some ⟨loc, splice out o
        ((List.range n).map fun j => byteOfShift t (elems.getD i 0) (8 * (S - (j + 1))))⟩ := by
  intro n
  induction n with
  | zero => intro out _; simp [execOutLines, splice_nil]
  | succ n ih =>
    intro out h
    rw [List.range_succ, List.map_append, execOutLines_append, ih out (by omega)]
    simp only [List.map_cons, List.map_nil, Option.some_bind, execOutLines, execOut, hx, ht, hi]
    have hlen : (splice out o
        ((List.range n).map fun j =>
          byteOfShift t (elems.getD i 0) (8 * (S - (j + 1))))).length =
        out.length := splice_length _ _ _ (by simp; omega)
    have hlt : o + n < (splice out o
        ((List.range n).map fun j =>
          byteOfShift t (elems.getD i 0) (8 * (S - (j + 1))))).length := by
      rw [hlen]; omega
    simp only [hlt, and_self, if_true]
    have hset := splice_set out o
      ((List.range n).map fun j => byteOfShift t (elems.getD i 0) (8 * (S - (j + 1))))
      (byteOfShift t (elems.getD i 0) (8 * (S - (n + 1)))) (by simp; omega)
    simp only [List.length_map, List.length_range] at hset
    rw [hset, List.map_append]
    rfl

theorem beBytes_length (S p : Nat) : (beBytes S p).length = S := by
  simp [beBytes]

theorem flatMap_beBytes_length (S : Nat) (l : List Nat) :
    (l.flatMap (beBytes S)).length = l.length * S := by
  induction l with
  | nil => simp
  | cons a l ih =>
    simp only [List.flatMap_cons, List.length_append, beBytes_length, ih, List.length_cons]
    rw [Nat.add_mul, Nat.one_mul, Nat.add_comm]

theorem take_succ_getD (l : List Nat) (m : Nat) (h : m < l.length) :
    l.take (m + 1) = l.take m ++ [l.getD m 0] := by
  rw [List.take_succ, List.getD_eq_getElem _ _ h, List.getElem?_eq_getElem h]
  rfl

theorem outElemLines_succ (x : Operand) (o m S : Nat) :
    outElemLines x o (m + 1) S =
      outElemLines x o m S ++
        (List.range S).map fun b0 => OutLine.setElemByte (o + m * S + b0) x m (S - (b0 + 1)) := by
  simp [outElemLines, List.range_succ, List.flatMap_append]

theorem exec_outElemLines (str loc : Store) (x : Operand) (t : GoType) (elems : List Nat)
    (o S : Nat) (hx : operandValue str loc x = some (.array t elems))
    (ht : t.isInteger = true) (hw : t.width = 8 * S) :
    ∀ (m : Nat) (out : List Nat), m ≤ elems.length → o + m * S ≤ out.length →
      execOutLines str (outElemLines x o m S) ⟨loc, out⟩ =
        some ⟨loc, splice out o ((elems.take m).flatMap (beBytes S))⟩ := by
  intro m
  induction m with
  | zero => intro out _ _; simp [outElemLines, execOutLines, splice_nil]
  | succ m ih =>
    intro out hm h
    have hmS : o + m * S + S ≤ out.length := by
      have : (m + 1) * S = m * S + S := by ring
      omega
    rw [outElemLines_succ, execOutLines_append, ih out (by omega) (by omega)]
    simp only [Option.some_bind]
    have hB : ((elems.take m).flatMap (beBytes S)).length = m * S := by
      rw [flatMap_beBytes_length, List.length_take, Nat.min_eq_left (by omega)]
    have hlen : (splice out o ((elems.take m).flatMap (beBytes S))).length = out.length :=
      splice_length _ _ _ (by rw [hB]; omega)
    rw [exec_outElem_upto str loc x t elems m (o + m * S) S hx ht (by omega) S _
      (by rw [hlen]; omega)]
    rw [shiftBytes_eq_beBytes t S _ hw]
    have hss := splice_splice out o ((elems.take m).flatMap (beBytes S))
      (beBytes S (elems.getD m 0)) (by rw [hB, beBytes_length]; omega)
    rw [hB] at hss
    rw [hss, take_succ_getD elems m (by omega), List.flatMap_append]
    simp

theorem flatMap_beBytes_one (l : List Nat) (h : ∀ p ∈ l, p < 256) :
    l.flatMap (beBytes 1) = l := by
  induction l with
  | nil => rfl
  | cons a l ih =>
    have ha : a < 256 := h a (List.mem_cons_self _ _)
    rw [List.flatMap_cons, ih (fun p hp => h p (List.mem_cons_of_mem _ hp))]
    simp [beBytes, Nat.mod_eq_of_lt ha]


/-! ## Round trip: the shape of a field -/

theorem roundTripShape_facts (W : Nat) (f : Field) (h : roundTripShape f = true) :
    ∃ t, baseFieldGoType f = .ok t ∧
      fieldSize W f = .ok (t.width / 8, sizeOfShape f (t.width / 8)) ∧
      f.kind ≠ .MessageKind ∧ (isArrayField f = true → 1 ≤ optLength f) ∧
      t.width = 8 * (t.width / 8) ∧ 1 ≤ t.width / 8 ∧
      (f.kind = .DoubleKind → t = .float64) ∧ (f.kind = .FloatKind → t = .float32) ∧
      (isFloatField f = false → t.isInteger = true) ∧
      (isArrayField f = true → t.width / 8 = 1 → t.isByte = true) ∧
      (isFloatField f = true → f.kind ≠ .BytesKind ∧ 1 < t.width / 8) := by
  cases f with
  | mk n k l w len bits sub =>
    cases w with
    | true => simp [roundTripShape, Field.isWeak] at h
    | false =>
      cases len with
      | none =>
        cases k <;> cases l <;>
          simp [roundTripShape, Field.isWeak, Field.kind, Field.isList, Field.bitsOpt,
            optLength, Field.lengthOpt] at h <;>
          (try rcases h with (rfl | rfl) | rfl) <;>
          refine ⟨_, rfl, ?_⟩ <;>
          simp [fieldSize, sizeOfShape, isArrayField, isFloatField, GoType.width, bitsSize,
            GoType.isInteger, GoType.isByte, Field.kind, Field.isList, optLength,
            Field.lengthOpt]
      | some L =>
        rcases Nat.eq_zero_or_pos (lengthOfUint L) with h0 | hpos
        · cases k <;> cases l <;>
            simp [roundTripShape, Field.isWeak, Field.kind, Field.isList, Field.bitsOpt,
              optLength, Field.lengthOpt, h0] at h <;>
            (try rcases h with (rfl | rfl) | rfl) <;>
            refine ⟨_, rfl, ?_⟩ <;>
            simp [fieldSize, sizeOfShape, isArrayField, isFloatField, GoType.width, bitsSize,
              GoType.isInteger, GoType.isByte, Field.kind, Field.isList, optLength,
              Field.lengthOpt, h0]
        · have hne : ¬ lengthOfUint L = 0 := by omega
          have h1 : 1 ≤ lengthOfUint L := hpos
          cases k <;> cases l <;>
            simp [roundTripShape, Field.isWeak, Field.kind, Field.isList, Field.bitsOpt,
              optLength, Field.lengthOpt, h1] at h <;>
            (try rcases h with (rfl | rfl) | rfl) <;>
            refine ⟨_, rfl, ?_⟩ <;>
            simp [fieldSize, sizeOfShape, isArrayField, isFloatField, GoType.width, bitsSize,
              GoType.isInteger, GoType.isByte, Field.kind, Field.isList, optLength,
              Field.lengthOpt, hne, h1]

theorem exec_outBody_scalar (str loc : Store) (x : Operand) (te : GoType) (S o p : Nat)
    (out : List Nat) (hx : operandValue str loc x = some (.scalar te p))
    (hte : te.isInteger = true) (hw : te.width = 8 * S) (hS : 1 ≤ S)
    (hfit : o + S ≤ out.length) :
    execOutLines str (if S > 1 then outScalarLines x o S else [.setByte o x]) ⟨loc, out⟩ =
      some ⟨loc, splice out o (beBytes S p)⟩ := by
  by_cases h1 : S > 1
  · simp only [h1, if_true, outScalarLines]
    rw [exec_outScalar_upto str loc x te p o S hx hte S out hfit,
      shiftBytes_eq_beBytes te S p hw]
  · have hS1 : S = 1 := by omega
    subst hS1
    simp only [h1, if_false, execOutLines, execOut, hx, hte]
    have ho : o < out.length := by omega
    simp only [ho, and_self, if_true]
    have hset := splice_set out o [] (byteOfShift te p 0) (by simpa using ho)
    simp only [List.length_nil, Nat.add_zero, splice_nil, List.nil_append] at hset
    rw [hset, byteOfShift_mod te p 0 (by omega)]
    simp [beBytes]

theorem exec_outBody_array (str loc : Store) (x : Operand) (te : GoType) (S o : Nat)
    (elems out : List Nat) (hx : operandValue str loc x = some (.array te elems))
    (hte : te.isInteger = true) (hw : te.width = 8 * S) (hS : 1 ≤ S)
    (hbyte : S = 1 → te.isByte = true ∧ ∀ p ∈ elems, p < 256)
    (hfit : o + S * elems.length ≤ out.length) :
    execOutLines str
      (if S > 1 then outElemLines x o elems.length S else [.copyOut o x]) ⟨loc, out⟩ =
      some ⟨loc, splice out o (elems.flatMap (beBytes S))⟩ := by
  by_cases h1 : S > 1
  · simp only [h1, if_true]
    rw [exec_outElemLines str loc x te elems o S hx hte hw elems.length out (le_refl _)
      (by rw [Nat.mul_comm]; exact hfit), List.take_length]
  · have hS1 : S = 1 := by omega
    subst hS1
    obtain ⟨hb, hlt⟩ := hbyte rfl
    simp only [h1, if_false, execOutLines, execOut, hx, hb]
    have ho : o ≤ out.length := by omega
    simp only [ho, and_self, if_true]
    have hmin : min (out.length - o) elems.length = elems.length := by
      apply Nat.min_eq_right; omega
    rw [hmin, List.take_length, flatMap_beBytes_one elems hlt]
    rfl


/-! ## Round trip: one field of `Bytes` -/

theorem outputField_of_shape (W o S sz : Nat) (f : Field) (hW : 0 < W)
    (hfs : fieldSize W f = .ok (S, sz)) (hsz : sz = sizeOfShape f S)
    (hkm : f.kind ≠ .MessageKind) (hS : 1 ≤ S) :
    outputField W f o = .ok ⟨o, outDecl f ++ outBody f S o, o + sz⟩ := by
  have hp := padDecision_of_not_message W hW f S o hkm
  have hkm' : (f.kind == Kind.MessageKind) = false := by simpa using hkm
  unfold outputField
  simp only [hfs, hp, applyPad, Bool.false_eq_true, if_false, hkm']
  subst hsz
  unfold outBody outDecl sizeOfShape isArrayField
  cases harr : (f.isList || f.kind == Kind.BytesKind) <;>
    by_cases h1 : S > 1 <;> simp only [h1, if_true, if_false, Bool.false_eq_true]
  · have : S = 1 := by omega
    subst this; rfl
  · rw [Nat.mul_comm]
  · have : S = 1 := by omega
    subst this; rw [Nat.one_mul]

theorem outDecl_of_not_float (f : Field) (h : isFloatField f = false) :
    outDecl f = [] ∧ fieldNameOf f = .str f.goName := by
  simp only [isFloatField, Bool.or_eq_false_iff] at h
  simp [outDecl, fieldNameOf, h.1, h.2]

theorem exec_outDecl_scalar (f : Field) (str loc : Store) (out : List Nat) (t : GoType) (p : Nat)
    (hfl : isFloatField f = true) (hl : f.isList = false)
    (hD : f.kind = .DoubleKind → t = .float64) (hF : f.kind = .FloatKind → t = .float32)
    (hv : str f.goName = some (.scalar t p)) :
    ∃ loc' te, execOutLines str (outDecl f) ⟨loc, out⟩ = some ⟨loc', out⟩ ∧
      operandValue str loc' (fieldNameOf f) = some (.scalar te p) ∧
      te.isInteger = true ∧ te.width = t.width := by
  simp only [isFloatField, Bool.or_eq_true, beq_iff_eq] at hfl
  rcases hfl with hk | hk
  · have ht := hD hk
    subst ht
    refine ⟨Function.update loc f.goName (some (.scalar .uint64 p)), .uint64, ?_, ?_, rfl, rfl⟩
    · simp [outDecl, hk, hl, execOutLines, execOut, hv, GoType.width, GoType.isInteger]
    · simp [fieldNameOf, hk, operandValue]
  · have ht := hF hk
    subst ht
    refine ⟨Function.update loc f.goName (some (.scalar .uint32 p)), .uint32, ?_, ?_, rfl, rfl⟩
    · simp [outDecl, hk, hl, execOutLines, execOut, hv, GoType.width, GoType.isInteger]
    · simp [fieldNameOf, hk, operandValue]

theorem exec_outDecl_array (f : Field) (str loc : Store) (out : List Nat) (t : GoType)
    (elems : List Nat) (hfl : isFloatField f = true) (hl : f.isList = true)
    (hD : f.kind = .DoubleKind → t = .float64) (hF : f.kind = .FloatKind → t = .float32)
    (hlen : elems.length = optLength f)
    (hv : str f.goName = some (.array t elems)) :
    ∃ loc' te, execOutLines str (outDecl f) ⟨loc, out⟩ = some ⟨loc', out⟩ ∧
      operandValue str loc' (fieldNameOf f) = some (.array te elems) ∧
      te.isInteger = true ∧ te.width = t.width := by
  simp only [isFloatField, Bool.or_eq_true, beq_iff_eq] at hfl
  rcases hfl with hk | hk
  · have ht := hD hk
    subst ht
    refine ⟨Function.update loc f.goName (some (.array .uint64 elems)), .uint64, ?_, ?_, rfl, rfl⟩
    · simp [outDecl, hk, hl, execOutLines, execOut, hv, GoType.width, GoType.isInteger, hlen]
      rw [← hlen, List.take_length]
    · simp [fieldNameOf, hk, operandValue, ← hlen]
  · have ht := hF hk
    subst ht
    refine ⟨Function.update loc f.goName (some (.array .uint32 elems)), .uint32, ?_, ?_, rfl, rfl⟩
    · simp [outDecl, hk, hl, execOutLines, execOut, hv, GoType.width, GoType.isInteger, hlen]
      rw [← hlen, List.take_length]
    · simp [fieldNameOf, hk, operandValue, ← hlen]

theorem valueOfField_cases (f : Field) (v : Option Value) (hv : valueOfField f v) :
    (∃ t p, v = some (.scalar t p) ∧ baseFieldGoType f = .ok t ∧ isArrayField f = false ∧
      p < 2 ^ t.width) ∨
    (∃ t elems, v = some (.array t elems) ∧ baseFieldGoType f = .ok t ∧
      isArrayField f = true ∧ elems.length = optLength f ∧ ∀ p ∈ elems, p < 2 ^ t.width) := by
  cases v with
  | none => exact hv.elim
  | some v =>
    cases v with
    | scalar t p => exact Or.inl ⟨t, p, rfl, hv.1, hv.2.1, hv.2.2⟩
    | array t elems => exact Or.inr ⟨t, elems, rfl, hv.1, hv.2.1, hv.2.2.1, hv.2.2.2⟩

theorem exec_outputField (W o : Nat) (f : Field) (str : Store) (st : OutState) (hW : 0 < W)
    (hsh : roundTripShape f = true) (hv : valueOfField f (str f.goName)) :
    ∃ e S sz, outputField W f o = .ok e ∧ fieldSize W f = .ok (S, sz) ∧ e.start = o ∧
      e.next = o + sz ∧ (fieldBytes W f (str f.goName)).length = sz ∧
      (o + sz ≤ st.output.length →
        ∃ loc', execOutLines str e.lines st =
          some ⟨loc', splice st.output o (fieldBytes W f (str f.goName))⟩) := by
  obtain ⟨t, hbt, hfs, hkm, hL, hw, hS, hD, hF, hint, hbyte, hfl⟩ :=
    roundTripShape_facts W f hsh
  generalize hSdef : t.width / 8 = S at hfs hw hS hbyte hfl
  have hof := outputField_of_shape W o S _ f hW hfs rfl hkm hS
  refine ⟨_, S, _, hof, hfs, rfl, rfl, ?_⟩
  obtain ⟨locals, out⟩ := st
  rcases valueOfField_cases f _ hv with ⟨t', p, hval, hbt', harr, hp⟩ |
      ⟨t', elems, hval, hbt', harr, hlen, hel⟩
  · -- a scalar
    have htt : t' = t := by rw [hbt] at hbt'; cases hbt'; rfl
    subst htt
    have hfb : fieldBytes W f (str f.goName) = beBytes S p := by
      simp [fieldBytes, hfs, hval, valueBytes]
    have hsz : sizeOfShape f S = S := by simp [sizeOfShape, harr]
    rw [hfb, hsz, beBytes_length]
    refine ⟨rfl, ?_⟩
    intro hfit
    simp only [execOutLines_append, outBody, harr, Bool.false_eq_true, if_false]
    cases hflo : isFloatField f with
    | false =>
      obtain ⟨hd, hn⟩ := outDecl_of_not_float f hflo
      rw [hd, hn]
      simp only [execOutLines, Option.some_bind]
      exact ⟨locals, exec_outBody_scalar str locals _ t' S o p out (by simpa [operandValue] using hval)
        (hint hflo) hw hS hfit⟩
    | true =>
      have hl : f.isList = false := by
        simp only [isArrayField, Bool.or_eq_false_iff] at harr; exact harr.1
      obtain ⟨loc', te, hex, hop, hte, hwe⟩ :=
        exec_outDecl_scalar f str locals out t' p hflo hl hD hF hval
      rw [hex]
      simp only [Option.some_bind]
      exact ⟨loc', exec_outBody_scalar str loc' _ te S o p out hop hte (by rw [hwe]; exact hw)
        hS hfit⟩
  · -- an array
    have htt : t' = t := by rw [hbt] at hbt'; cases hbt'; rfl
    subst htt
    have hfb : fieldBytes W f (str f.goName) = elems.flatMap (beBytes S) := by
      simp [fieldBytes, hfs, hval, valueBytes]
    have hsz : sizeOfShape f S = S * elems.length := by simp [sizeOfShape, harr, hlen]
    rw [hfb, hsz, flatMap_beBytes_length, Nat.mul_comm]
    refine ⟨rfl, ?_⟩
    intro hfit
    simp only [execOutLines_append, outBody, harr, if_true, ← hlen]
    cases hflo : isFloatField f with
    | false =>
      obtain ⟨hd, hn⟩ := outDecl_of_not_float f hflo
      rw [hd, hn]
      simp only [execOutLines, Option.some_bind]
      refine ⟨locals, exec_outBody_array str locals _ t' S o elems out
        (by simpa [operandValue] using hval) (hint hflo) hw hS ?_ hfit⟩
      intro hS1
      refine ⟨hbyte harr hS1, ?_⟩
      intro q hq
      have := hel q hq
      rw [hw, hS1] at this
      simpa using this
    | true =>
      have hnb := (hfl hflo).1
      have hl : f.isList = true := by
        simp only [isArrayField, Bool.or_eq_true, beq_iff_eq] at harr
        rcases harr with h | h
        · exact h
        · exact absurd h hnb
      obtain ⟨loc', te, hex, hop, hte, hwe⟩ :=
        exec_outDecl_array f str locals out t' elems hflo hl hD hF hlen hval
      rw [hex]
      simp only [Option.some_bind]
      refine ⟨loc', exec_outBody_array str loc' _ te S o elems out hop hte
        (by rw [hwe]; exact hw) hS ?_ hfit⟩
      intro hS1
      have := (hfl hflo).2
      omega


/-! ## Round trip: the whole of `Bytes` -/

theorem tailPad_ge (W sz : Nat) : sz ≤ tailPad W sz := by
  unfold tailPad
  split <;> omega

theorem exec_outputMsgFieldsFrom (W : Nat) (hW : 0 < W) (str : Store) (fs : List Field)
    (hsh : ∀ f ∈ fs, roundTripShape f = true)
    (hv : ∀ f ∈ fs, valueOfField f (str f.goName)) :
    ∀ (o : Nat) (st : OutState),
      messageSizeFrom W fs o = .ok (tailPad W (o + (messageBytes W fs str).length)) ∧
      ∃ es, outputMsgFieldsFrom W fs o = .ok es ∧
        (o + (messageBytes W fs str).length ≤ st.output.length →
          ∃ loc', execOutLines str (es.flatMap Emitted.lines) st =
            some ⟨loc', splice st.output o (messageBytes W fs str)⟩) := by
  induction fs with
  | nil =>
    intro o st
    refine ⟨by simp [messageSizeFrom, messageBytes], [], rfl, ?_⟩
    intro _
    exact ⟨st.locals, by simp [execOutLines, messageBytes, splice_nil]⟩
  | cons f rest ih =>
    intro o st
    have hshf := hsh f (List.mem_cons_self _ _)
    have hvf := hv f (List.mem_cons_self _ _)
    have ih' := ih (fun g hg => hsh g (List.mem_cons_of_mem _ hg))
      (fun g hg => hv g (List.mem_cons_of_mem _ hg))
    obtain ⟨e, S, sz, hof, hfs, hstart, hnext, hlen, hex⟩ :=
      exec_outputField W o f str st hW hshf hvf
    have hmb : messageBytes W (f :: rest) str =
        fieldBytes W f (str f.goName) ++ messageBytes W rest str := by
      simp [messageBytes]
    have hkm : f.kind ≠ .MessageKind := by
      obtain ⟨t, _, _, hkm, _⟩ := roundTripShape_facts W f hshf
      exact hkm
    refine ⟨?_, ?_⟩
    · rw [messageSizeFrom_cons, hfs]
      simp only [padDecision_of_not_message W hW f S o hkm, applyPad, Bool.false_eq_true,
        if_false]
      rw [(ih' (o + sz) st).1, hmb, List.length_append, hlen, Nat.add_assoc]
    · obtain ⟨loc0, out⟩ := st
      by_cases hfit : o + (messageBytes W (f :: rest) str).length ≤ out.length
      · rw [hmb, List.length_append, hlen] at hfit
        obtain ⟨loc1, hex1⟩ := hex (by simp only; omega)
        obtain ⟨_, es, hes, hrest⟩ :=
          ih' (o + sz) ⟨loc1, splice out o (fieldBytes W f (str f.goName))⟩
        have hsl : (splice out o (fieldBytes W f (str f.goName))).length = out.length :=
          splice_length _ _ _ (by rw [hlen]; omega)
        obtain ⟨loc2, hex2⟩ := hrest (by simp only; rw [hsl]; omega)
        refine ⟨e :: es, ?_, ?_⟩
        · simp only [outputMsgFieldsFrom, hof, hnext, hes]
        · intro _
          refine ⟨loc2, ?_⟩
          rw [List.flatMap_cons, execOutLines_append, hex1]
          simp only [Option.some_bind]
          rw [hex2]
          simp only
          have hss := splice_splice out o (fieldBytes W f (str f.goName))
            (messageBytes W rest str) (by rw [hlen]; omega)
          rw [hlen] at hss
          rw [hss, hmb]
      · obtain ⟨_, es, hes, _⟩ := ih' (o + sz) ⟨loc0, out⟩
        refine ⟨e :: es, ?_, ?_⟩
        · simp only [outputMsgFieldsFrom, hof, hnext, hes]
        · intro h; exact absurd h hfit

theorem runBytes_of_shape (W : Nat) (hW : 0 < W) (str : Store) (msg : List Field)
    (hacc : recordAccepted msg = true)
    (hsh : ∀ f ∈ msg, roundTripShape f = true)
    (hv : ∀ f ∈ msg, valueOfField f (str f.goName)) :
    messageSize W msg = .ok (tailPad W (messageBytes W msg str).length) ∧
    runBytes W msg str =
      some (messageBytes W msg str ++
        List.replicate (tailPad W (messageBytes W msg str).length -
          (messageBytes W msg str).length) 0) := by
  have hge := tailPad_ge W (messageBytes W msg str).length
  obtain ⟨hms, es, hes, hex⟩ := exec_outputMsgFieldsFrom W hW str msg hsh hv 0
    ⟨fun _ => none, List.replicate (tailPad W (messageBytes W msg str).length) 0⟩
  simp only [Nat.zero_add] at hms hex
  refine ⟨hms, ?_⟩
  obtain ⟨loc', hex'⟩ := hex (by simpa using hge)
  unfold runBytes
  rw [if_pos hacc, show messageSize W msg = messageSizeFrom W msg 0 from rfl, hms,
    show outputMsgFields W msg = outputMsgFieldsFrom W msg 0 from rfl, hes]
  simp only [hex', Option.map_some', splice, List.take_zero, List.nil_append, Nat.zero_add,
    List.drop_replicate]


/-! ## Round trip: big-endian reassembly -/

theorem or_byte_step (p s w : Nat) (hw : s + 8 ≤ w) :
    (p >>> (s + 8)) <<< (s + 8) ||| (((p >>> s) % 256) <<< s) % 2 ^ w = (p >>> s) <<< s := by
  apply Nat.eq_of_testBit_eq
  intro i
  have h256 : (256 : Nat) = 2 ^ 8 := by norm_num
  rw [h256]
  simp only [Nat.testBit_or, Nat.testBit_shiftLeft, Nat.testBit_shiftRight,
    Nat.testBit_mod_two_pow]
  by_cases h1 : i ≥ s + 8
  · have h2 : i ≥ s := by omega
    have h3 : ¬ (i - s < 8) := by omega
    have e : s + 8 + (i - (s + 8)) = s + (i - s) := by omega
    simp [h1, h2, h3, e]
  · by_cases h2 : i ≥ s
    · have h3 : i - s < 8 := by omega
      have h4 : i < w := by omega
      simp [h1, h2, h3, h4]
    · simp [h1, h2]

theorem orBytes_succ (t : GoType) (S : Nat) (input : List Nat) (o acc n : Nat) :
    orBytes t S input o acc (n + 1) =
      orBytes t S input o acc n |||
        shiftedByte t (input.getD (o + n) 0) (8 * (S - (n + 1))) := by
  simp [orBytes, List.range_succ, List.foldl_append]

theorem orBytes_upto (t : GoType) (S p : Nat) (input : List Nat) (o : Nat)
    (hw : t.width = 8 * S) (hp : p < 2 ^ (8 * S))
    (hin : ∀ j, j < S → input.getD (o + j) 0 = (p >>> (8 * (S - (j + 1)))) % 256) :
    ∀ n, n ≤ S → orBytes t S input o 0 n = (p >>> (8 * (S - n))) <<< (8 * (S - n)) := by
  intro n
  induction n with
  | zero =>
    intro _
    simp only [orBytes, List.range_zero, List.foldl_nil, Nat.sub_zero]
    rw [Nat.shiftRight_eq_div_pow, Nat.div_eq_of_lt hp, Nat.zero_shiftLeft]
  | succ n ih =>
    intro hn
    rw [orBytes_succ, ih (by omega), hin n (by omega)]
    have e : 8 * (S - n) = 8 * (S - (n + 1)) + 8 := by omega
    rw [e]
    unfold shiftedByte
    rw [hw]
    exact or_byte_step p (8 * (S - (n + 1))) (8 * S) (by omega)

theorem orBytes_full (t : GoType) (S p : Nat) (input : List Nat) (o : Nat)
    (hw : t.width = 8 * S) (hp : p < 2 ^ (8 * S))
    (hin : ∀ j, j < S → input.getD (o + j) 0 = (p >>> (8 * (S - (j + 1)))) % 256) :
    orBytes t S input o 0 S = p := by
  rw [orBytes_upto t S p input o hw hp hin S (le_refl _)]
  simp


/-! ## Round trip: the lines of `FromBytes` -/

theorem operandValue_setOperand (st : InState) (x : Operand) (v : Value) :
    operandValue (setOperand st x v).str (setOperand st x v).locals x = some v := by
  cases x <;> simp [setOperand, operandValue]

theorem setOperand_self (st : InState) (x : Operand) (v : Value)
    (h : operandValue st.str st.locals x = some v) : setOperand st x v = st := by
  cases x <;> simp only [operandValue] at h <;> simp [setOperand, ← h]

theorem setOperand_twice (st : InState) (x : Operand) (v1 v2 : Value) :
    setOperand (setOperand st x v1) x v2 = setOperand st x v2 := by
  cases x <;> simp [setOperand]

theorem set_getD_self (l : List Nat) : ∀ i, i < l.length → l.set i (l.getD i 0) = l := by
  induction l with
  | nil => intro i h; simp at h
  | cons a l ih =>
    intro i h
    cases i with
    | zero => rfl
    | succ i =>
      simp only [List.set_cons_succ, List.getD_cons_succ]
      rw [ih i (by simpa using h)]

theorem exec_inScalar_upto (input : List Nat) (x : Operand) (t : GoType) (S o acc : Nat)
    (st : InState) (hx : operandValue st.str st.locals x = some (.scalar t acc))
    (ht : t.isInteger = true) :
    ∀ n, o + n ≤ input.length →
      execInLines input
        ((List.range n).map fun b0 => InLine.orByte x t (o + b0) (S - (b0 + 1))) st =
        some (setOperand st x (.scalar t (orBytes t S input o acc n))) := by
  intro n
  induction n with
  | zero =>
    intro _
    simp only [List.range_zero, List.map_nil, execInLines, orBytes, List.foldl_nil]
    rw [setOperand_self st x _ hx]
  | succ n ih =>
    intro h
    rw [List.range_succ, List.map_append, execInLines_append, ih (by omega)]
    have ho : o + n < input.length := by omega
    simp only [List.map_cons, List.map_nil, Option.some_bind, execInLines, execIn,
      operandValue_setOperand, ht, ho, and_self, if_true, setOperand_twice, orBytes_succ]

theorem exec_inElem_upto (input : List Nat) (x : Operand) (t : GoType) (S o i : Nat)
    (arr : List Nat) (st : InState)
    (hx : operandValue st.str st.locals x = some (.array t arr))
    (ht : t.isInteger = true) (hi : i < arr.length) :
    ∀ n, o + n ≤ input.length →
      execInLines input
        ((List.range n).map fun b0 => InLine.orElemByte x i t (o + b0) (S - (b0 + 1))) st =
        some (setOperand st x
          (.array t (arr.set i (orBytes t S input o (arr.getD i 0) n)))) := by
  intro n
  induction n with
  | zero =>
    intro _
    simp only [List.range_zero, List.map_nil, execInLines, orBytes, List.foldl_nil]
    have hself : arr.set i (arr.getD i 0) = arr := set_getD_self arr i hi
    rw [hself, setOperand_self st x _ hx]
  | succ n ih =>
    intro h
    rw [List.range_succ, List.map_append, execInLines_append, ih (by omega)]
    have ho : o + n < input.length := by omega
    have hi' : i < (arr.set i (orBytes t S input o (arr.getD i 0) n)).length := by
      simpa using hi
    have hget : (arr.set i (orBytes t S input o (arr.getD i 0) n)).getD i 0 =
        orBytes t S input o (arr.getD i 0) n := by
      rw [List.getD_eq_getElem _ _ hi']
      simp
    simp only [List.map_cons, List.map_nil, Option.some_bind, execInLines, execIn,
      operandValue_setOperand, ht, ho, hi', and_self, if_true, setOperand_twice, hget,
      List.set_set, orBytes_succ]


theorem getD_of_holds (input b : List Nat) (o k : Nat)
    (hin : (input.drop o).take b.length = b) (hk : k < b.length) :
    input.getD (o + k) 0 = b.getD k 0 := by
  have h1 : b[k]? = input[o + k]? := by
    conv_lhs => rw [← hin]
    rw [List.getElem?_take, if_pos hk, List.getElem?_drop]
  rw [List.getD_eq_getElem?_getD, List.getD_eq_getElem?_getD, h1]

theorem getD_beBytes (S p j : Nat) (hj : j < S) :
    (beBytes S p).getD j 0 = (p >>> (8 * (S - (j + 1)))) % 256 := by
  have hl : j < (beBytes S p).length := by rw [beBytes_length]; exact hj
  rw [List.getD_eq_getElem _ _ hl]
  simp [beBytes]

theorem getD_flatMap_beBytes (S : Nat) :
    ∀ (vals : List Nat) (i j : Nat), i < vals.length → j < S →
      (vals.flatMap (beBytes S)).getD (i * S + j) 0 =
        (vals.getD i 0 >>> (8 * (S - (j + 1)))) % 256 := by
  intro vals
  induction vals with
  | nil => intro i j h; simp at h
  | cons a l ih =>
    intro i j hi hj
    rw [List.flatMap_cons]
    cases i with
    | zero =>
      have hl : 0 * S + j < (beBytes S a).length := by rw [beBytes_length]; omega
      rw [List.getD_append _ _ _ _ hl]
      simp only [Nat.zero_mul, Nat.zero_add, List.getD_cons_zero]
      exact getD_beBytes S a j hj
    | succ i =>
      have hge : (beBytes S a).length ≤ (i + 1) * S + j := by
        rw [beBytes_length, Nat.add_mul]; omega
      rw [List.getD_append_right _ _ _ _ hge, beBytes_length, List.getD_cons_succ]
      have e : (i + 1) * S + j - S = i * S + j := by rw [Nat.add_mul]; omega
      rw [e]
      exact ih i j (by simpa using hi) hj

theorem set_append_replicate (A : List Nat) (k v : Nat) :
    (A ++ List.replicate (k + 1) 0).set A.length v = (A ++ [v]) ++ List.replicate k 0 := by
  rw [List.set_append_right _ _ (le_refl _), Nat.sub_self, List.replicate_succ,
    List.set_cons_zero]
  simp

theorem inElemLines_succ (x : Operand) (t : GoType) (o m S : Nat) :
    inElemLines x t o (m + 1) S =
      inElemLines x t o m S ++
        (List.range S).map fun b0 =>
          InLine.orElemByte x m t (o + m * S + b0) (S - (b0 + 1)) := by
  simp [inElemLines, List.range_succ, List.flatMap_append]

theorem exec_inElemLines (input : List Nat) (x : Operand) (t : GoType) (S o L : Nat)
    (vals : List Nat) (st : InState)
    (hx : operandValue st.str st.locals x = some (.array t (List.replicate L 0)))
    (ht : t.isInteger = true) (hw : t.width = 8 * S) (hlen : vals.length = L)
    (hvals : ∀ p ∈ vals, p < 2 ^ (8 * S))
    (hin : ∀ i, i < L → ∀ j, j < S →
      input.getD (o + i * S + j) 0 = (vals.getD i 0 >>> (8 * (S - (j + 1)))) % 256)
    (hfit : o + L * S ≤ input.length) :
    ∀ m, m ≤ L →
      execInLines input (inElemLines x t o m S) st =
        some (setOperand st x (.array t (vals.take m ++ List.replicate (L - m) 0))) := by
  intro m
  induction m with
  | zero =>
    intro _
    simp only [inElemLines, List.range_zero, List.flatMap_nil, execInLines, List.take_zero,
      List.nil_append, Nat.sub_zero]
    rw [setOperand_self st x _ hx]
  | succ m ih =>
    intro hm
    rw [inElemLines_succ, execInLines_append, ih (by omega)]
    simp only [Option.some_bind]
    have htk : (vals.take m).length = m := by
      rw [List.length_take, hlen]; omega
    have hmlt : m < (vals.take m ++ List.replicate (L - m) 0).length := by
      rw [List.length_append, htk, List.length_replicate]; omega
    have hmS : o + m * S + S ≤ input.length := by
      have h1 : (m + 1) * S ≤ L * S := Nat.mul_le_mul_right S hm
      have h2 : (m + 1) * S = m * S + S := by ring
      omega
    rw [exec_inElem_upto input x t S (o + m * S) m _ _
      (operandValue_setOperand st x _) ht hmlt S hmS, setOperand_twice]
    have hget0 : (vals.take m ++ List.replicate (L - m) 0).getD m 0 = 0 := by
      rw [List.getD_append_right _ _ _ _ (by omega), htk, Nat.sub_self]
      have hk : L - m = (L - (m + 1)) + 1 := by omega
      rw [hk, List.replicate_succ, List.getD_cons_zero]
    have hmem : vals.getD m 0 ∈ vals := by
      rw [List.getD_eq_getElem _ _ (by omega)]
      exact List.getElem_mem _
    rw [hget0, orBytes_full t S (vals.getD m 0) input (o + m * S) hw (hvals _ hmem)
      (fun j hj => hin m (by omega) j hj)]
    have hsplit : L - m = (L - (m + 1)) + 1 := by omega
    have hset := set_append_replicate (vals.take m) (L - (m + 1)) (vals.getD m 0)
    rw [htk, ← hsplit] at hset
    rw [hset, take_succ_getD vals m (by omega)]


theorem exec_inBody_scalar (input : List Nat) (x : Operand) (te : GoType) (S o p : Nat)
    (st : InState) (hx : operandValue st.str st.locals x = some (.scalar te 0))
    (hte : te.isInteger = true) (hw : te.width = 8 * S) (hS : 1 ≤ S)
    (hp : p < 2 ^ (8 * S)) (hfit : o + S ≤ input.length)
    (hin : (input.drop o).take (beBytes S p).length = beBytes S p) :
    execInLines input (if S > 1 then inScalarLines x te o S else [.setFromByte x te o]) st =
      some (setOperand st x (.scalar te p)) := by
  have hget : ∀ j, j < S → input.getD (o + j) 0 = (p >>> (8 * (S - (j + 1)))) % 256 := by
    intro j hj
    rw [getD_of_holds input _ o j hin (by rw [beBytes_length]; exact hj), getD_beBytes S p j hj]
  by_cases h1 : S > 1
  · simp only [h1, if_true, inScalarLines]
    rw [exec_inScalar_upto input x te S o 0 st hx hte S hfit,
      orBytes_full te S p input o hw hp hget]
  · have hS1 : S = 1 := by omega
    subst hS1
    have ho : o < input.length := by omega
    have hb := hget 0 (by omega)
    simp only [Nat.add_zero, Nat.sub_self, Nat.mul_zero, Nat.shiftRight_zero] at hb
    have hp' : p < 256 := by simpa using hp
    simp only [h1, if_false, execInLines, execIn, hx, hte, ho, and_self, if_true]
    have hsb : shiftedByte te (input.getD o 0) 0 = p := by
      unfold shiftedByte
      rw [hb, hw, Nat.shiftLeft_zero, Nat.mod_eq_of_lt hp']
      exact Nat.mod_eq_of_lt (by simpa using hp')
    rw [hsb]

theorem exec_inBody_array (input : List Nat) (x : Operand) (te : GoType) (S o L : Nat)
    (vals : List Nat) (st : InState)
    (hx : operandValue st.str st.locals x = some (.array te (List.replicate L 0)))
    (hte : te.isInteger = true) (hw : te.width = 8 * S) (hS : 1 ≤ S)
    (hlen : vals.length = L) (hvals : ∀ p ∈ vals, p < 2 ^ (8 * S))
    (hbyte : S = 1 → te.isByte = true) (hfit : o + S * L ≤ input.length)
    (hin : (input.drop o).take (vals.flatMap (beBytes S)).length = vals.flatMap (beBytes S)) :
    execInLines input (if S > 1 then inElemLines x te o L S else [.copyIn x o]) st =
      some (setOperand st x (.array te vals)) := by
  by_cases h1 : S > 1
  · simp only [h1, if_true]
    have hget : ∀ i, i < L → ∀ j, j < S →
        input.getD (o + i * S + j) 0 = (vals.getD i 0 >>> (8 * (S - (j + 1)))) % 256 := by
      intro i hi j hj
      have hk : i * S + j < (vals.flatMap (beBytes S)).length := by
        rw [flatMap_beBytes_length, hlen]
        have : (i + 1) * S ≤ L * S := Nat.mul_le_mul_right S hi
        rw [Nat.add_mul] at this
        omega
      rw [Nat.add_assoc, getD_of_holds input _ o _ hin hk]
      exact getD_flatMap_beBytes S vals i j (by omega) hj
    rw [exec_inElemLines input x te S o L vals st hx hte hw hlen hvals hget
      (by rw [Nat.mul_comm]; exact hfit) L (le_refl _)]
    rw [← hlen, List.take_length, Nat.sub_self]
    simp
  · have hS1 : S = 1 := by omega
    subst hS1
    have hlt : ∀ p ∈ vals, p < 256 := by
      intro p hp; simpa using hvals p hp
    rw [flatMap_beBytes_one vals hlt, hlen] at hin
    have ho : o ≤ input.length := by omega
    have hmin : min (List.replicate L 0).length (input.length - o) = L := by
      rw [List.length_replicate]; apply Nat.min_eq_left; omega
    simp only [h1, if_false, execInLines, execIn, hx, hbyte rfl, ho, and_self, if_true, hmin,
      hin]
    simp


/-! ## Round trip: one field of `FromBytes` -/

theorem inputField_of_shape (W o S sz : Nat) (f : Field) (t : GoType) (hW : 0 < W)
    (hfs : fieldSize W f = .ok (S, sz)) (hsz : sz = sizeOfShape f S)
    (hbt : baseFieldGoType f = .ok t) (hkm : f.kind ≠ .MessageKind) (hS : 1 ≤ S) :
    inputField W f o =
      .ok ⟨o, inDecl f ++ inBody f (inBaseType f t) S o ++ inStore f, o + sz⟩ := by
  have hp := padDecision_of_not_message W hW f S o hkm
  have hkm' : (f.kind == Kind.MessageKind) = false := by simpa using hkm
  unfold inputField
  simp only [hfs, hbt, hp, applyPad, Bool.false_eq_true, if_false, hkm']
  subst hsz
  unfold inBody inDecl inStore inBaseType sizeOfShape isArrayField
  cases harr : (f.isList || f.kind == Kind.BytesKind) <;>
    by_cases h1 : S > 1 <;> simp only [h1, if_true, if_false, Bool.false_eq_true]
  · have : S = 1 := by omega
    subst this; rfl
  · rw [Nat.mul_comm]
  · have : S = 1 := by omega
    subst this; rw [Nat.one_mul]

theorem in_of_not_float (f : Field) (t : GoType) (h : isFloatField f = false) :
    inDecl f = [] ∧ inStore f = [] ∧ inBaseType f t = t ∧ fieldNameOf f = .str f.goName := by
  simp only [isFloatField, Bool.or_eq_false_iff] at h
  simp [inDecl, inStore, inBaseType, fieldNameOf, h.1, h.2]

theorem exec_storeFloatElems (input : List Nat) (X : String) (w : Nat) (t tb : GoType)
    (e0 bs : List Nat) (str loc : Store) (hs : str X = some (.array t e0))
    (hl : loc X = some (.array tb bs)) (ht : t.width = w) (hti : t.isInteger = false)
    (htb : tb.width = w) (htbi : tb.isInteger = true) (hlen : e0.length = bs.length) :
    ∀ m, m ≤ bs.length →
      execInLines input ((List.range m).map fun i => InLine.storeFloatElem X i w) ⟨str, loc⟩ =
        some ⟨Function.update str X (some (.array t (bs.take m ++ e0.drop m))), loc⟩ := by
  intro m
  induction m with
  | zero =>
    intro _
    simp only [List.range_zero, List.map_nil, execInLines, List.take_zero, List.nil_append,
      List.drop_zero]
    rw [← hs, Function.update_eq_self]
  | succ m ih =>
    intro hm
    rw [List.range_succ, List.map_append, execInLines_append, ih (by omega)]
    have hml : m < (bs.take m ++ e0.drop m).length := by
      simp only [List.length_append, List.length_take, List.length_drop]; omega
    have hmb : m < bs.length := by omega
    simp only [List.map_cons, List.map_nil, Option.some_bind, execInLines, execIn,
      Function.update_same, hl, ht, hti, htb, htbi, hml, hmb, and_self, if_true,
      Bool.false_eq_true, not_false_eq_true, Function.update_idem]
    have htk : (bs.take m).length = m := by rw [List.length_take]; omega
    have hset : (bs.take m ++ e0.drop m).set m (bs.getD m 0) =
        bs.take (m + 1) ++ e0.drop (m + 1) := by
      rw [List.set_append_right _ _ (by omega), htk, Nat.sub_self]
      have hd : e0.drop m = e0.getD m 0 :: e0.drop (m + 1) := by
        rw [List.getD_eq_getElem _ _ (by omega)]
        exact List.drop_eq_getElem_cons (by omega)
      rw [hd, List.set_cons_zero, take_succ_getD bs m hmb]
      simp
    rw [hset]


theorem in_of_float (f : Field) (t : GoType) (hfl : isFloatField f = true)
    (hD : f.kind = .DoubleKind → t = .float64) (hF : f.kind = .FloatKind → t = .float32) :
    ∃ w tb, t.width = w ∧ t.isInteger = false ∧ tb.width = w ∧ tb.isInteger = true ∧
      inBaseType f t = tb ∧ fieldNameOf f = .bits f.goName ∧
      inDecl f = (if f.isList then [.declBitsList f.goName w (optLength f)]
        else [.declBitsZero f.goName w]) ∧
      inStore f = (if f.isList then
          (List.range (optLength f)).map fun i => .storeFloatElem f.goName i w
        else [.storeFloat f.goName w]) ∧
      tb = (if w = 64 then .uint64 else .uint32) := by
  simp only [isFloatField, Bool.or_eq_true, beq_iff_eq] at hfl
  rcases hfl with hk | hk
  · have ht := hD hk
    subst ht
    exact ⟨64, .uint64, rfl, rfl, rfl, rfl, by simp [inBaseType, hk], by simp [fieldNameOf, hk],
      by simp [inDecl, hk], by simp [inStore, hk], rfl⟩
  · have ht := hF hk
    subst ht
    exact ⟨32, .uint32, rfl, rfl, rfl, rfl, by simp [inBaseType, hk], by simp [fieldNameOf, hk],
      by simp [inDecl, hk], by simp [inStore, hk], rfl⟩

theorem exec_inputField (W o : Nat) (f : Field) (input : List Nat) (str loc : Store)
    (v : Value) (hW : 0 < W) (hsh : roundTripShape f = true)
    (hz : str f.goName = zeroValue f) (hv : valueOfField f (some v))
    (hfit : o + (fieldBytes W f (some v)).length ≤ input.length)
    (hin : (input.drop o).take (fieldBytes W f (some v)).length = fieldBytes W f (some v)) :
    ∃ e, inputField W f o = .ok e ∧
      e.next = o + (fieldBytes W f (some v)).length ∧
      ∃ loc', execInLines input e.lines ⟨str, loc⟩ =
        some ⟨Function.update str f.goName (some v), loc'⟩ := by
  obtain ⟨t, hbt, hfs, hkm, hL, hw, hS, hD, hF, hint, hbyte, hfl⟩ :=
    roundTripShape_facts W f hsh
  generalize hSdef : t.width / 8 = S at hfs hw hS hbyte hfl
  have hif := inputField_of_shape W o S _ f t hW hfs rfl hbt hkm hS
  have hzero : zeroValue f =
      if isArrayField f then some (.array t (List.replicate (optLength f) 0))
      else some (.scalar t 0) := by
    simp only [zeroValue, hbt, isArrayField]
  rw [hzero] at hz
  rcases valueOfField_cases f _ hv with ⟨t', p, hval, hbt', harr, hp⟩ |
      ⟨t', elems, hval, hbt', harr, hlen, hel⟩
  · -- a scalar
    have htt : t' = t := by rw [hbt] at hbt'; cases hbt'; rfl
    subst htt
    cases hval
    have hfb : fieldBytes W f (some (.scalar t' p)) = beBytes S p := by
      simp [fieldBytes, hfs, valueBytes]
    have hsz : sizeOfShape f S = S := by simp [sizeOfShape, harr]
    rw [hfb] at hin hfit ⊢
    rw [beBytes_length] at hfit ⊢
    rw [hsz] at hif
    simp only [harr, Bool.false_eq_true, if_false] at hz
    rw [hw] at hp
    cases hflo : isFloatField f with
    | false =>
      obtain ⟨hd, hst, hbase, hn⟩ := in_of_not_float f t' hflo
      refine ⟨_, hif, rfl, loc, ?_⟩
      simp only [hd, hst, hbase, List.nil_append, List.append_nil, inBody, harr,
        Bool.false_eq_true, if_false, hn]
      rw [exec_inBody_scalar input (.str f.goName) t' S o p ⟨str, loc⟩
        (by simpa [operandValue] using hz) (hint hflo) hw hS hp hfit hin]
      rfl
    | true =>
      have hl : f.isList = false := by
        simp only [isArrayField, Bool.or_eq_false_iff] at harr; exact harr.1
      obtain ⟨w, tb, hwt, hti, hwb, htbi, hbase, hn, hd, hst, htb⟩ :=
        in_of_float f t' hflo hD hF
      refine ⟨_, hif, rfl, ?_⟩
      simp only [hd, hst, hbase, hl, Bool.false_eq_true, if_false, inBody, harr, hn,
        List.singleton_append, List.cons_append, execInLines, execIn, ← htb,
        execInLines_append, Option.some_bind]
      rw [exec_inBody_scalar input (.bits f.goName) tb S o p
        ⟨str, Function.update loc f.goName (some (.scalar tb 0))⟩
        (by simp [operandValue]) htbi (by rw [hwb, ← hwt]; exact hw) hS hp hfit hin]
      simp only [Option.some_bind, execInLines, execIn, setOperand, Function.update_same, hz,
        hwt, hti, hwb, htbi, and_self, if_true, Bool.false_eq_true, not_false_eq_true]
      exact ⟨_, rfl⟩
  · -- an array
    have htt : t' = t := by rw [hbt] at hbt'; cases hbt'; rfl
    subst htt
    cases hval
    have hfb : fieldBytes W f (some (.array t' elems)) = elems.flatMap (beBytes S) := by
      simp [fieldBytes, hfs, valueBytes]
    have hsz : sizeOfShape f S = S * optLength f := by simp [sizeOfShape, harr]
    rw [hfb] at hin hfit ⊢
    have hfl' := flatMap_beBytes_length S elems
    rw [hsz] at hif
    simp only [harr, if_true] at hz
    have hel' : ∀ q ∈ elems, q < 2 ^ (8 * S) := by
      intro q hq; rw [← hw]; exact hel q hq
    have hfit' : o + S * optLength f ≤ input.length := by
      rw [hfl', hlen, Nat.mul_comm] at hfit; exact hfit
    have hnext : o + S * optLength f = o + (elems.flatMap (beBytes S)).length := by
      rw [hfl', hlen, Nat.mul_comm]
    cases hflo : isFloatField f with
    | false =>
      obtain ⟨hd, hst, hbase, hn⟩ := in_of_not_float f t' hflo
      refine ⟨_, hif, hnext, loc, ?_⟩
      simp only [hd, hst, hbase, List.nil_append, List.append_nil, inBody, harr, if_true, hn]
      rw [exec_inBody_array input (.str f.goName) t' S o (optLength f) elems ⟨str, loc⟩
        (by simpa [operandValue] using hz) (hint hflo) hw hS hlen hel' (hbyte harr) hfit' hin]
      rfl
    | true =>
      have hnb := (hfl hflo).1
      have hl : f.isList = true := by
        simp only [isArrayField, Bool.or_eq_true, beq_iff_eq] at harr
        rcases harr with h | h
        · exact h
        · exact absurd h hnb
      obtain ⟨w, tb, hwt, hti, hwb, htbi, hbase, hn, hd, hst, htb⟩ :=
        in_of_float f t' hflo hD hF
      refine ⟨_, hif, hnext, ?_⟩
      have hti' : ¬ t'.isInteger = true := by rw [hti]; simp
      simp only [hd, hst, hbase, hl, if_true, inBody, harr, hn,
        List.singleton_append, List.cons_append, execInLines, execIn, ← htb,
        execInLines_append, hz, hwt, hti', List.length_replicate, le_refl, and_self,
        not_false_eq_true, List.take_replicate, Nat.min_self, Option.some_bind, if_true,
        true_and, and_true, Bool.false_eq_true, hti]
      rw [exec_inBody_array input (.bits f.goName) tb S o (optLength f) elems
        ⟨str, Function.update loc f.goName
          (some (.array tb (List.replicate (optLength f) 0)))⟩
        (by simp [operandValue]) htbi (by rw [hwb, ← hwt]; exact hw) hS hlen hel'
        (by intro h1; have := (hfl hflo).2; omega) hfit' hin]
      simp only [Option.some_bind, setOperand]
      rw [exec_storeFloatElems input f.goName w t' tb (List.replicate (optLength f) 0) elems
        str _ hz (by simp) hwt hti hwb htbi (by simp [hlen]) (optLength f) (by omega)]
      rw [← hlen, List.take_length]
      refine ⟨Function.update loc f.goName (some (.array tb elems)), ?_⟩
      simp


/-! ## Round trip: the whole of `FromBytes` -/

theorem take_append_split (l x y : List Nat) (h : l.take (x.length + y.length) = x ++ y) :
    l.take x.length = x ∧ (l.drop x.length).take y.length = y := by
  have h1 : l.take x.length = x := by
    have := congrArg (List.take x.length) h
    rw [List.take_take, Nat.min_eq_left (Nat.le_add_right _ _), List.take_left'] at this
    · exact this
    · rfl
  refine ⟨h1, ?_⟩
  have := congrArg (List.drop x.length) h
  rw [List.drop_left' rfl, List.drop_take] at this
  rw [Nat.add_sub_cancel_left] at this
  exact this

theorem exec_inputMsgFieldsFrom (W : Nat) (hW : 0 < W) (input : List Nat) (r : Store)
    (fs : List Field) (hsh : ∀ f ∈ fs, roundTripShape f = true)
    (hv : ∀ f ∈ fs, valueOfField f (r f.goName)) (hnd : (fs.map Field.goName).Nodup) :
    ∀ (o : Nat) (str loc : Store), (∀ f ∈ fs, str f.goName = zeroValue f) →
      o + (messageBytes W fs r).length ≤ input.length →
      (input.drop o).take (messageBytes W fs r).length = messageBytes W fs r →
      ∃ es str' loc', inputMsgFieldsFrom W fs o = .ok es ∧
        execInLines input (es.flatMap Emitted.lines) ⟨str, loc⟩ = some ⟨str', loc'⟩ ∧
        (∀ f ∈ fs, str' f.goName = r f.goName) ∧
        (∀ n, n ∉ fs.map Field.goName → str' n = str n) := by
  induction fs with
  | nil =>
    intro o str loc _ _ _
    exact ⟨[], str, loc, rfl, rfl, by simp, by simp⟩
  | cons f rest ih =>
    intro o str loc hz hfit hin
    have hshf := hsh f (List.mem_cons_self _ _)
    have hvf := hv f (List.mem_cons_self _ _)
    rw [List.map_cons, List.nodup_cons] at hnd
    obtain ⟨hfn, hndr⟩ := hnd
    have ih' := ih (fun g hg => hsh g (List.mem_cons_of_mem _ hg))
      (fun g hg => hv g (List.mem_cons_of_mem _ hg)) hndr
    have hmb : messageBytes W (f :: rest) r =
        fieldBytes W f (r f.goName) ++ messageBytes W rest r := by
      simp [messageBytes]
    rw [hmb, List.length_append] at hfit hin
    obtain ⟨hin1, hin2⟩ := take_append_split _ _ _ hin
    rw [List.drop_drop] at hin2
    obtain ⟨v, hrv⟩ : ∃ v, r f.goName = some v := by
      cases h : r f.goName with
      | none => rw [h] at hvf; exact hvf.elim
      | some v => exact ⟨v, rfl⟩
    rw [hrv] at hvf hin1 hin2 hfit
    obtain ⟨e, hif, hnext, loc1, hex1⟩ := exec_inputField W o f input str loc v hW hshf
      (hz f (List.mem_cons_self _ _)) hvf (by omega) hin1
    have hz1 : ∀ g ∈ rest, (Function.update str f.goName (some v)) g.goName = zeroValue g := by
      intro g hg
      have hne : g.goName ≠ f.goName := by
        intro heq
        exact hfn (heq ▸ List.mem_map_of_mem Field.goName hg)
      rw [Function.update_noteq hne]
      exact hz g (List.mem_cons_of_mem _ hg)
    obtain ⟨es, str', loc', hes, hex2, hres, hframe⟩ :=
      ih' (o + (fieldBytes W f (some v)).length) (Function.update str f.goName (some v)) loc1
        hz1 (by omega) hin2
    refine ⟨e :: es, str', loc', ?_, ?_, ?_, ?_⟩
    · simp only [inputMsgFieldsFrom, hif, hnext, hes]
    · rw [List.flatMap_cons, execInLines_append, hex1]
      exact hex2
    · intro g hg
      rcases List.mem_cons.mp hg with rfl | hg'
      · rw [hframe _ hfn, Function.update_same, hrv]
      · exact hres g hg'
    · intro n hn
      rw [List.map_cons, List.mem_cons, not_or] at hn
      rw [hframe n hn.2, Function.update_noteq hn.1]

theorem zeroRecord_of_mem (msg : List Field) (hnd : (msg.map Field.goName).Nodup) :
    ∀ f ∈ msg, zeroRecord msg f.goName = zeroValue f := by
  intro f hf
  unfold zeroRecord
  cases hfind : msg.find? (fun g => g.goName == f.goName) with
  | none =>
    rw [List.find?_eq_none] at hfind
    have := hfind f hf
    simp at this
  | some g =>
    have hg : g ∈ msg := List.mem_of_find?_eq_some hfind
    have hname : g.goName = f.goName := by
      have := List.find?_some hfind
      simpa using this
    have : g = f := List.inj_on_of_nodup_map hnd hg hf hname
    rw [this]


/-- Round trip on the shapes that the emitted lines serve: for every word size in
`{1, 2, 4, 8}`, every message that Go accepts as a record type (no attribute named
like a method, attribute names pairwise distinct) and whose fields have the shapes
of `roundTripShape` (scalars and fixed-length arrays of 32-bit integers, unnarrowed
or narrowed to 8 or 16 bits, of 64-bit integers, of unnarrowed `float` and of
`double`, and `Bytes` blobs; arrays of signed integers narrowed to 8 bits left
out), and for every record `r` of the message, `Bytes` returns a buffer of
`messageSize` bytes, and `FromBytes` run on the zero-valued record with that buffer
yields a record equal to `r` on every field (floats compared by bit pattern). -/
theorem round_trip (W : Nat) (msg : List Field) (r : Store) (hW : W ∈ wordSizes)
    (hsh : ∀ f ∈ msg, roundTripShape f = true)
    (hacc : recordAccepted msg = true)
    (hv : ∀ f ∈ msg, valueOfField f (r f.goName)) :
    ∃ out, runBytes W msg r = some out ∧ messageSize W msg = .ok out.length ∧
      ∃ r', runFromBytes W msg (zeroRecord msg) out = some r' ∧
        ∀ f ∈ msg, r' f.goName = r f.goName := by
  have hW0 := wordSizes_pos hW
  have hnd : (msg.map Field.goName).Nodup := by
    unfold recordAccepted at hacc
    simp only [Bool.and_eq_true, decide_eq_true_eq] at hacc
    exact hacc.2
  obtain ⟨hms, hrun⟩ := runBytes_of_shape W hW0 r msg hacc hsh hv
  have hge := tailPad_ge W (messageBytes W msg r).length
  refine ⟨_, hrun, ?_, ?_⟩
  · rw [hms, List.length_append, List.length_replicate]
    congr 1; omega
  · obtain ⟨es, str', loc', hes, hex, hres, _⟩ :=
      exec_inputMsgFieldsFrom W hW0
        (messageBytes W msg r ++ List.replicate
          (tailPad W (messageBytes W msg r).length - (messageBytes W msg r).length) 0)
        r msg hsh hv hnd 0 (zeroRecord msg) (fun _ => none) (zeroRecord_of_mem msg hnd)
        (by simp) (by simp)
    refine ⟨str', ?_, hres⟩
    unfold runFromBytes
    rw [if_pos hacc, show inputMsgFields W msg = inputMsgFieldsFrom W msg 0 from rfl, hes]
    simp only [hex, Option.map_some']

/-- A message with an attribute named like one of the printed methods has no
`Bytes` and no `FromBytes`: Go rejects the record type. -/
theorem no_methods_of_name_clash (W : Nat) (msg : List Field) (f : Field) (hf : f ∈ msg)
    (hname : f.goName ∈ methodNames) (str : Store) (input : List Nat) :
    runBytes W msg str = none ∧ runFromBytes W msg str input = none := by
  have hacc : recordAccepted msg = false := by
    unfold recordAccepted
    rw [Bool.and_eq_false_iff]
    left
    rw [List.all_eq_false]
    exact ⟨f, hf, by simpa using hname⟩
  unfold runBytes runFromBytes
  simp [hacc]

theorem round_trip_witness :
    ∃ out, runBytes 4 test0 test0Record = some out ∧ messageSize 4 test0 = .ok out.length ∧
      ∃ r', runFromBytes 4 test0 (zeroRecord test0) out = some r' ∧
        ∀ f ∈ test0, r' f.goName = test0Record f.goName :=
  round_trip 4 test0 test0Record (by decide) (by decide) (by decide) (by
    intro f hf
    simp only [test0, List.mem_cons, List.mem_singleton, List.not_mem_nil, or_false] at hf
    rcases hf with rfl | rfl | rfl | rfl | rfl | rfl | rfl | rfl | rfl | rfl | rfl | rfl | rfl |
      rfl | rfl | rfl | rfl <;>
    simp [valueOfField, test0Record, baseFieldGoType, Field.goName, Field.isWeak, Field.kind,
      Field.bitsOpt, Field.isList, optLength, Field.lengthOpt, GoType.width,
      lengthOfUint_of_lt 4 (by norm_num)])


/-! ## The emitter stays inside the buffer when no base size is zero -/

theorem fieldSize_sz (W b s : Nat) (f : Field) (hfs : fieldSize W f = .ok (b, s)) :
    s = if (f.isList || f.kind == .BytesKind) = true then b * optLength f else b := by
  rw [fieldSize_eq_baseSize] at hfs
  cases hb : baseSize W f with
  | error e => rw [hb] at hfs; cases hfs
  | ok base =>
    rw [hb] at hfs
    simp only at hfs
    split at hfs
    · split at hfs
      · cases hfs
      · cases hfs; simp [*]
    · cases hfs; simp [*]

theorem outputField_span (W o b s : Nat) (f : Field) (pad : Bool)
    (hfs : fieldSize W f = .ok (b, s)) (hp : padDecision W f b o = .ok pad) (hb : 1 ≤ b) :
    ∃ lines, outputField W f o = .ok ⟨applyPad W o pad, lines, applyPad W o pad + s⟩ ∧
      ∀ l ∈ lines, ∀ k, l.index? = some k → applyPad W o pad ≤ k ∧ k < applyPad W o pad + s := by
  have hsz := fieldSize_sz W b s f hfs
  unfold outputField
  simp only [hfs, hp]
  cases harr : (f.isList || f.kind == Kind.BytesKind) with
  | true =>
    simp only [harr, if_true] at hsz ⊢
    by_cases h1 : b > 1
    · simp only [h1, if_true]
      refine ⟨_, by rw [hsz, Nat.mul_comm], ?_⟩
      intro l hl k hk
      rw [List.mem_append] at hl
      rcases hl with hl | hl
      · split at hl <;> (try split at hl) <;> (try split at hl) <;> simp at hl <;>
          (subst hl; simp [OutLine.index?] at hk)
      · simp only [outElemLines, List.mem_flatMap, List.mem_map, List.mem_range] at hl
        obtain ⟨i, hi, b0, hb0, rfl⟩ := hl
        simp only [OutLine.index?, Option.some.injEq] at hk
        subst hk hsz
        have : (i + 1) * b ≤ optLength f * b := Nat.mul_le_mul_right b hi
        rw [Nat.add_mul] at this
        rw [Nat.mul_comm b]
        omega
    · have hb1 : b = 1 := by omega
      subst hb1
      simp only [h1, if_false]
      refine ⟨_, by rw [hsz, Nat.one_mul], ?_⟩
      intro l hl k hk
      rw [List.mem_append] at hl
      rcases hl with hl | hl
      · split at hl <;> (try split at hl) <;> (try split at hl) <;> simp at hl <;>
          (subst hl; simp [OutLine.index?] at hk)
      · simp at hl; subst hl; simp [OutLine.index?] at hk
  | false =>
    simp only [harr, Bool.false_eq_true, if_false] at hsz ⊢
    subst hsz
    cases hkm : (f.kind == Kind.MessageKind) with
    | true =>
      simp only [if_true]
      refine ⟨_, rfl, ?_⟩
      intro l hl k hk
      rw [List.mem_append] at hl
      rcases hl with hl | hl
      · split at hl <;> (try split at hl) <;> (try split at hl) <;> simp at hl <;>
          (subst hl; simp [OutLine.index?] at hk)
      · simp at hl; subst hl; simp [OutLine.index?] at hk
    | false =>
      simp only [Bool.false_eq_true, if_false]
      by_cases h1 : s > 1
      · simp only [h1, if_true]
        refine ⟨_, rfl, ?_⟩
        intro l hl k hk
        rw [List.mem_append] at hl
        rcases hl with hl | hl
        · split at hl <;> (try split at hl) <;> (try split at hl) <;> simp at hl <;>
            (subst hl; simp [OutLine.index?] at hk)
        · simp only [outScalarLines, List.mem_map, List.mem_range] at hl
          obtain ⟨b0, hb0, rfl⟩ := hl
          simp only [OutLine.index?, Option.some.injEq] at hk
          omega
      · have hb1 : s = 1 := by omega
        subst hb1
        simp only [h1, if_false]
        refine ⟨_, rfl, ?_⟩
        intro l hl k hk
        rw [List.mem_append] at hl
        rcases hl with hl | hl
        · split at hl <;> (try split at hl) <;> (try split at hl) <;> simp at hl <;>
            (subst hl; simp [OutLine.index?] at hk)
        · simp at hl; subst hl
          simp only [OutLine.index?, Option.some.injEq] at hk
          omega


theorem applyPad_ge (W o : Nat) (pad : Bool) : o ≤ applyPad W o pad := by
  unfold applyPad
  split <;> omega

theorem messageSizeFrom_ge (W : Nat) (fs : List Field) :
    ∀ o n, messageSizeFrom W fs o = .ok n → o ≤ n := by
  induction fs with
  | nil =>
    intro o n h
    simp only [messageSizeFrom, Except.ok.injEq] at h
    subst h; exact tailPad_ge W o
  | cons f rest ih =>
    intro o n h
    rw [messageSizeFrom_cons] at h
    cases hfs : fieldSize W f with
    | error e => simp [hfs] at h
    | ok p =>
      obtain ⟨b, s⟩ := p
      simp only [hfs] at h
      cases hp : padDecision W f b o with
      | error e => simp [hp] at h
      | ok pad =>
        simp only [hp] at h
        have := ih _ _ h
        have := applyPad_ge W o pad
        omega

/-- In a message none of whose fields has base size `0`, `outputMsgFields` succeeds
whenever `messageSize` does, places every field at the offset that `messageSize`
gives it, advances past it by its field size, never beyond the message size, and
every index `k` of a printed line `output[k] = ...` is below the message size. -/
theorem outputMsgFields_within (W : Nat) (fs : List Field)
    (hnz : ∀ f ∈ fs, ∀ b s, fieldSize W f = .ok (b, s) → 1 ≤ b) :
    ∀ o n, messageSizeFrom W fs o = .ok n →
      ∃ es, outputMsgFieldsFrom W fs o = .ok es ∧
        messageOffsetsFrom W fs o = .ok (es.map Emitted.start) ∧
        List.Forall₂ (fun f e => ∃ b s, fieldSize W f = .ok (b, s) ∧
          e.next = e.start + s ∧ e.next ≤ n) fs es ∧
        ∀ e ∈ es, ∀ l ∈ e.lines, ∀ k, l.index? = some k → k < n := by
  induction fs with
  | nil =>
    intro o n _
    exact ⟨[], rfl, rfl, List.Forall₂.nil, by simp⟩
  | cons f rest ih =>
    intro o n h
    rw [messageSizeFrom_cons] at h
    cases hfs : fieldSize W f with
    | error e => simp [hfs] at h
    | ok p =>
      obtain ⟨b, s⟩ := p
      simp only [hfs] at h
      cases hp : padDecision W f b o with
      | error e => simp [hp] at h
      | ok pad =>
        simp only [hp] at h
        have hb := hnz f (List.mem_cons_self _ _) b s hfs
        obtain ⟨lines, hof, hidx⟩ := outputField_span W o b s f pad hfs hp hb
        obtain ⟨es, hes, hoffs, hall, hlines⟩ :=
          ih (fun g hg => hnz g (List.mem_cons_of_mem _ hg)) _ _ h
        have hle := messageSizeFrom_ge W rest _ _ h
        refine ⟨⟨applyPad W o pad, lines, applyPad W o pad + s⟩ :: es, ?_, ?_, ?_, ?_⟩
        · simp only [outputMsgFieldsFrom, hof, hes]
        · simp only [messageOffsetsFrom, hfs, hp, hoffs, List.map_cons]
        · exact List.Forall₂.cons ⟨b, s, hfs, rfl, hle⟩ hall
        · intro e he l hl k hk
          rcases List.mem_cons.mp he with rfl | he'
          · have := (hidx l hl k hk).2
            omega
          · exact hlines e he' l hl k hk


/-! ## Arrays of nested messages -/

/-- When `messageSize` succeeds on a message, the descent to its leading leaf
succeeds. -/
theorem leadingLeafSize_ok (W : Nat) (fs : List Field) (o n : Nat)
    (h : messageSizeFrom W fs o = .ok n) : ∃ leaf, leadingLeafSize W fs = .ok leaf := by
  cases fs with
  | nil => exact ⟨none, rfl⟩
  | cons g rest =>
    rw [messageSizeFrom_cons] at h
    cases hfs : fieldSize W g with
    | error e => simp [hfs] at h
    | ok p =>
      obtain ⟨b, s⟩ := p
      simp only [hfs] at h
      cases hp : padDecision W g b o with
      | error e => simp [hp] at h
      | ok pad =>
        cases g with
        | mk nm k l w len bits sub =>
          have h1 : leadingLeafSize W (.mk nm k l w len bits sub :: rest) =
              if k != .MessageKind then
                match fieldSize W (.mk nm k l w len bits sub) with
                | .error e => .error e
                | .ok (_, fsz) => .ok (some fsz)
              else leadingLeafSize W sub := rfl
          rw [h1]
          cases hk : (k != Kind.MessageKind) with
          | true => simp only [if_true, hfs]; exact ⟨_, rfl⟩
          | false =>
            simp only [Bool.false_eq_true, if_false]
            have hkm : (k == Kind.MessageKind) = true := by
              cases k <;> simp_all
            unfold padDecision at hp
            simp only [Field.kind, hkm, if_true, Field.message] at hp
            cases hl : leadingLeafSize W sub with
            | error e => rw [hl] at hp; cases hp
            | ok leaf => exact ⟨leaf, rfl⟩

/-- The base size of a field of message kind is the size of the message it references. -/
theorem baseSize_of_message (W : Nat) (f : Field) (hk : f.kind = .MessageKind) :
    baseSize W f = messageSize W f.message := by
  cases f with
  | mk nm k l w len bits sub =>
    simp only [Field.kind] at hk
    subst hk
    rfl

/-- C11 (the code at the failing input): with `W = 4` the field
`repeated Inner N [length = 2]`, `Inner` being the message `(u32 B)`, is a list
field of message kind. `fieldSize` returns `(4, 8)` for it and `messageSize` of the
enclosing message returns `8`: neither returns `ErrUnsupportedFieldType`. The
attribute has the record type `Inner` as its element type, and `outputMsgFields`
takes the branch of the arrays and prints `output[k] = byte(str.N[i] >> (8 * j))`,
a shift of a record, where for a scalar field of the same message kind it prints
the call `str.N.CopyTo(output[0:4])`. -/
theorem nested_array_not_rejected :
    (sampleArrNested "N" 2 [sampleU32 "B"]).kind = .MessageKind ∧
    (sampleArrNested "N" 2 [sampleU32 "B"]).isList = true ∧
    fieldSize 4 (sampleArrNested "N" 2 [sampleU32 "B"]) = .ok (4, 8) ∧
    messageOffsets 4 [sampleArrNested "N" 2 [sampleU32 "B"]] = .ok [0] ∧
    messageSize 4 [sampleArrNested "N" 2 [sampleU32 "B"]] = .ok 8 ∧
    baseFieldGoType (sampleArrNested "N" 2 [sampleU32 "B"]) = .ok .message ∧
    outputMsgFields 4 [sampleArrNested "N" 2 [sampleU32 "B"]] =
      .ok [⟨0, [.setElemByte 0 (.str "N") 0 3, .setElemByte 1 (.str "N") 0 2,
        .setElemByte 2 (.str "N") 0 1, .setElemByte 3 (.str "N") 0 0,
        .setElemByte 4 (.str "N") 1 3, .setElemByte 5 (.str "N") 1 2,
        .setElemByte 6 (.str "N") 1 1, .setElemByte 7 (.str "N") 1 0], 8⟩] ∧
    outputMsgFields 4 [sampleNested "N" [sampleU32 "B"]] =
      .ok [⟨0, [.copyTo (.str "N") 0 4], 4⟩] := by
  refine ⟨rfl, rfl, by decide, by decide, by decide, by decide, by decide, by decide⟩

/-! ## The word size across the files of a run -/

/-- A file that carries the option with one of the enum numbers `0`, `1`, `2`,
`3` is generated with the word size `1`, `2`, `4`, `8`, whatever `szWord` held. -/
theorem overrideSzWord_of_option (szWord : Nat) :
    overrideSzWord szWord (some 0) = 1 ∧ overrideSzWord szWord (some 1) = 2 ∧
    overrideSzWord szWord (some 2) = 4 ∧ overrideSzWord szWord (some 3) = 8 ∧
    overrideSzWord szWord none = szWord :=
  ⟨rfl, rfl, rfl, rfl, rfl⟩

/-- C12 (the code at the failing input): in a run over the files `a.proto`, which
carries `sizeof_word` with enum number `3`, and `b.proto`, which carries no
`sizeof_word` option, both generated, the word size in effect is `8` for
`a.proto` and still `8` for `b.proto`: a message `(bool Flag)` of `b.proto` gets
the size `8`, where the word size `4` gives `4`. Alone, `b.proto` is generated
with the word size `4`. -/
theorem word_size_carries_over :
    mainWordSizes [⟨true, some 3, []⟩, ⟨true, none, [sampleBoolMsg]⟩] = [8, 8] ∧
    mainWordSizes [⟨true, none, [sampleBoolMsg]⟩] = [4] ∧
    messageSize 8 sampleBoolMsg = .ok 8 ∧
    messageSize 4 sampleBoolMsg = .ok 4 := by
  refine ⟨by decide, by decide, by decide, by decide⟩


/-! ## Declaration order and positive sizes -/

/-- Whether the pad decision of a field fails does not depend on the base size
and the running offset. -/
theorem padDecision_ok_indep (W : Nat) (f : Field) (b o b2 o2 : Nat) (pad : Bool)
    (hp : padDecision W f b o = .ok pad) : ∃ pad2, padDecision W f b2 o2 = .ok pad2 := by
  unfold padDecision at hp ⊢
  cases hk : (f.kind == Kind.MessageKind) with
  | true =>
    simp only [hk, if_true] at hp ⊢
    cases hl : leadingLeafSize W f.message with
    | error e => rw [hl] at hp; cases hp
    | ok leaf => cases leaf <;> exact ⟨_, rfl⟩
  | false =>
    simp only [Bool.false_eq_true, if_false]
    split <;> exact ⟨_, rfl⟩

/-- Every field of a message on which `messageSize` succeeds lies inside the message. -/
theorem messageSizeFrom_ge_field (W : Nat) (fs : List Field) :
    ∀ o n, messageSizeFrom W fs o = .ok n →
      ∀ f ∈ fs, ∀ b s, fieldSize W f = .ok (b, s) → o + s ≤ n := by
  induction fs with
  | nil => intro o n _ f hf; simp at hf
  | cons g rest ih =>
    intro o n h f hf b s hs
    rw [messageSizeFrom_cons] at h
    cases hfs : fieldSize W g with
    | error e => simp [hfs] at h
    | ok p =>
      obtain ⟨b0, s0⟩ := p
      simp only [hfs] at h
      cases hp : padDecision W g b0 o with
      | error e => simp [hp] at h
      | ok pad =>
        simp only [hp] at h
        have hge := applyPad_ge W o pad
        rcases List.mem_cons.mp hf with rfl | hf'
        · rw [hfs] at hs
          cases hs
          have := messageSizeFrom_ge W rest _ _ h
          omega
        · have := ih _ _ h f hf' b s hs
          omega

/-- The offsets of `messageSize` exist whenever `messageSize` succeeds. -/
theorem messageOffsetsFrom_of_size (W : Nat) (fs : List Field) :
    ∀ o n, messageSizeFrom W fs o = .ok n →
      ∃ os, messageOffsetsFrom W fs o = .ok os ∧ os.length = fs.length := by
  induction fs with
  | nil => intro o n _; exact ⟨[], rfl, rfl⟩
  | cons g rest ih =>
    intro o n h
    rw [messageSizeFrom_cons] at h
    cases hfs : fieldSize W g with
    | error e => simp [hfs] at h
    | ok p =>
      obtain ⟨b0, s0⟩ := p
      simp only [hfs] at h
      cases hp : padDecision W g b0 o with
      | error e => simp [hp] at h
      | ok pad =>
        simp only [hp] at h
        obtain ⟨os, hos, hlen⟩ := ih _ _ h
        refine ⟨applyPad W o pad :: os, ?_, by simp [hlen]⟩
        simp only [messageOffsetsFrom, hfs, hp, hos]

/-- In `messageSize` a field starts at or after the end of every field declared
before it. -/
theorem messageOffsetsFrom_order (W : Nat) (fs : List Field) :
    ∀ o os, messageOffsetsFrom W fs o = .ok os →
      (∀ x ∈ os, o ≤ x) ∧
      ∀ (i j : Nat) (f : Field) (b s oi oj : Nat), i < j → fs[i]? = some f →
        fieldSize W f = .ok (b, s) →
        os[i]? = some oi → os[j]? = some oj → oi + s ≤ oj := by
  induction fs with
  | nil =>
    intro o os h
    simp only [messageOffsetsFrom, Except.ok.injEq] at h
    subst h
    exact ⟨by simp, by simp⟩
  | cons g rest ih =>
    intro o os h
    simp only [messageOffsetsFrom] at h
    cases hfs : fieldSize W g with
    | error e => simp [hfs] at h
    | ok p =>
      obtain ⟨b0, s0⟩ := p
      simp only [hfs] at h
      cases hp : padDecision W g b0 o with
      | error e => simp [hp] at h
      | ok pad =>
        simp only [hp] at h
        cases hr : messageOffsetsFrom W rest (applyPad W o pad + s0) with
        | error e => simp [hr] at h
        | ok os2 =>
          simp only [hr, Except.ok.injEq] at h
          subst h
          obtain ⟨hge, hord⟩ := ih _ _ hr
          have hpad := applyPad_ge W o pad
          refine ⟨?_, ?_⟩
          · intro x hx
            rcases List.mem_cons.mp hx with rfl | hx2
            · exact hpad
            · have := hge x hx2
              omega
          · intro i j f b s oi oj hij hf hs hoi hoj
            cases j with
            | zero => omega
            | succ j2 =>
              simp only [List.getElem?_cons_succ] at hoj
              cases i with
              | zero =>
                simp only [List.getElem?_cons_zero, Option.some.injEq] at hf hoi
                subst hf hoi
                rw [hfs] at hs
                cases hs
                exact hge oj (List.getElem?_mem hoj)
              | succ i2 =>
                simp only [List.getElem?_cons_succ] at hf hoi
                exact hord i2 j2 f b s oi oj (by omega) hf hs hoi hoj


/-- The body of the loop of `outputMsgFields` places the field at the padded
running offset and leaves the running offset at or after the end of the field. -/
theorem outputField_advance (W o b s : Nat) (f : Field) (pad : Bool)
    (hfs : fieldSize W f = .ok (b, s)) (hp : padDecision W f b o = .ok pad) :
    ∃ lines next, outputField W f o = .ok ⟨applyPad W o pad, lines, next⟩ ∧
      applyPad W o pad + s ≤ next := by
  have hsz := fieldSize_sz W b s f hfs
  unfold outputField
  simp only [hfs, hp]
  cases harr : (f.isList || f.kind == Kind.BytesKind) with
  | true =>
    simp only [harr, if_true] at hsz ⊢
    by_cases h1 : b > 1
    · simp only [h1, if_true]
      refine ⟨_, _, rfl, ?_⟩
      rw [hsz, Nat.mul_comm]
    · simp only [h1, if_false]
      refine ⟨_, _, rfl, ?_⟩
      have : b * optLength f ≤ 1 * optLength f := Nat.mul_le_mul_right _ (by omega)
      omega
  | false =>
    simp only [harr, Bool.false_eq_true, if_false] at hsz ⊢
    subst hsz
    cases hkm : (f.kind == Kind.MessageKind) with
    | true =>
      simp only [if_true]
      exact ⟨_, _, rfl, Nat.le_refl _⟩
    | false =>
      simp only [Bool.false_eq_true, if_false]
      by_cases h1 : s > 1
      · simp only [h1, if_true]
        exact ⟨_, _, rfl, Nat.le_refl _⟩
      · simp only [h1, if_false]
        refine ⟨_, _, rfl, ?_⟩
        omega

/-- The loop of `outputMsgFields` succeeds, from any running offset, on a message
on which `messageSize` succeeds. -/
theorem outputMsgFieldsFrom_of_size (W : Nat) (fs : List Field) :
    ∀ o n, messageSizeFrom W fs o = .ok n →
      ∀ o2, ∃ es, outputMsgFieldsFrom W fs o2 = .ok es ∧ es.length = fs.length := by
  induction fs with
  | nil => intro o n _ o2; exact ⟨[], rfl, rfl⟩
  | cons g rest ih =>
    intro o n h o2
    rw [messageSizeFrom_cons] at h
    cases hfs : fieldSize W g with
    | error e => simp [hfs] at h
    | ok p =>
      obtain ⟨b0, s0⟩ := p
      simp only [hfs] at h
      cases hp : padDecision W g b0 o with
      | error e => simp [hp] at h
      | ok pad =>
        simp only [hp] at h
        obtain ⟨pad2, hp2⟩ := padDecision_ok_indep W g b0 o b0 o2 pad hp
        obtain ⟨lines, next, hof, _⟩ := outputField_advance W o2 b0 s0 g pad2 hfs hp2
        obtain ⟨es, hes, hlen⟩ := ih _ _ h next
        refine ⟨⟨applyPad W o2 pad2, lines, next⟩ :: es, ?_, by simp [hlen]⟩
        simp only [outputMsgFieldsFrom, hof, hes]

/-- In `outputMsgFields` a field starts at or after the end of every field
declared before it. -/
theorem outputMsgFieldsFrom_order (W : Nat) (fs : List Field) :
    ∀ o es, outputMsgFieldsFrom W fs o = .ok es →
      (∀ e ∈ es, o ≤ e.start) ∧
      ∀ (i j : Nat) (f : Field) (b s : Nat) (ei ej : Emitted OutLine), i < j →
        fs[i]? = some f → fieldSize W f = .ok (b, s) →
        es[i]? = some ei → es[j]? = some ej → ei.start + s ≤ ej.start := by
  induction fs with
  | nil =>
    intro o es h
    simp only [outputMsgFieldsFrom, Except.ok.injEq] at h
    subst h
    exact ⟨by simp, by simp⟩
  | cons g rest ih =>
    intro o es h
    simp only [outputMsgFieldsFrom] at h
    cases hof : outputField W g o with
    | error e => simp [hof] at h
    | ok e0 =>
      simp only [hof] at h
      cases hr : outputMsgFieldsFrom W rest e0.next with
      | error e => simp [hr] at h
      | ok es2 =>
        simp only [hr, Except.ok.injEq] at h
        subst h
        obtain ⟨hge, hord⟩ := ih _ _ hr
        cases hfs : fieldSize W g with
        | error e => unfold outputField at hof; simp [hfs] at hof
        | ok p =>
          obtain ⟨b0, s0⟩ := p
          cases hp : padDecision W g b0 o with
          | error e => unfold outputField at hof; simp [hfs, hp] at hof
          | ok pad =>
            obtain ⟨lines, next, hof2, hnext⟩ := outputField_advance W o b0 s0 g pad hfs hp
            rw [hof2] at hof
            cases hof
            have hpad := applyPad_ge W o pad
            refine ⟨?_, ?_⟩
            · intro x hx
              rcases List.mem_cons.mp hx with rfl | hx2
              · exact hpad
              · have := hge x hx2
                simp only at this
                omega
            · intro i j f b s ei ej hij hf hs hei hej
              cases j with
              | zero => omega
              | succ j2 =>
                simp only [List.getElem?_cons_succ] at hej
                cases i with
                | zero =>
                  simp only [List.getElem?_cons_zero, Option.some.injEq] at hf hei
                  subst hf hei
                  rw [hfs] at hs
                  cases hs
                  have := hge ej (List.getElem?_mem hej)
                  simp only at this ⊢
                  omega
                | succ i2 =>
                  simp only [List.getElem?_cons_succ] at hf hei
                  exact hord i2 j2 f b s ei ej (by omega) hf hs hei hej

/-- C13 (counterexample): with `W = 4`, layout succeeds on the message
`(Empty N, u32 B)`, `Empty` being a message without fields; the nested field has
size `0`, and both fields get the offset `0` in `messageSize` and in
`outputMsgFields`. -/
theorem declaration_order_not_strict :
    messageSize 4 [sampleNested "N" [], sampleU32 "B"] = .ok 4 ∧
    fieldSize 4 (sampleNested "N" []) = .ok (0, 0) ∧
    messageOffsets 4 [sampleNested "N" [], sampleU32 "B"] = .ok [0, 0] ∧
    (outputMsgFields 4 [sampleNested "N" [], sampleU32 "B"]).map (List.map Emitted.start) =
      .ok [0, 0] := by
  refine ⟨by decide, by decide, by decide, by decide⟩

/-- C13 (amended): for every message on which `messageSize` succeeds, the offsets
of `messageSize` and of `outputMsgFields` exist, one per field, and for fields
`f_i`, `f_j` with `i < j` the offset of `f_j` is at or after the end of `f_i`:
`offset(f_i) + fieldSize(f_i) ≤ offset(f_j)`, so that `offset(f_i) < offset(f_j)`
whenever `f_i` has a positive field size. -/
theorem declaration_order (W : Nat) (msg : List Field) (n : Nat)
    (h : messageSize W msg = .ok n) :
    (∃ os, messageOffsets W msg = .ok os ∧ os.length = msg.length ∧
      ∀ (i j : Nat) (f : Field) (b s oi oj : Nat), i < j → msg[i]? = some f →
        fieldSize W f = .ok (b, s) → os[i]? = some oi → os[j]? = some oj →
        oi + s ≤ oj ∧ (0 < s → oi < oj)) ∧
    (∃ es, outputMsgFields W msg = .ok es ∧ es.length = msg.length ∧
      ∀ (i j : Nat) (f : Field) (b s : Nat) (ei ej : Emitted OutLine), i < j →
        msg[i]? = some f → fieldSize W f = .ok (b, s) →
        es[i]? = some ei → es[j]? = some ej →
        ei.start + s ≤ ej.start ∧ (0 < s → ei.start < ej.start)) := by
  constructor
  · obtain ⟨os, hos, hlen⟩ := messageOffsetsFrom_of_size W msg 0 n h
    refine ⟨os, hos, hlen, ?_⟩
    intro i j f b s oi oj hij hf hs hoi hoj
    have := (messageOffsetsFrom_order W msg 0 os hos).2 i j f b s oi oj hij hf hs hoi hoj
    exact ⟨this, fun _ => by omega⟩
  · obtain ⟨es, hes, hlen⟩ := outputMsgFieldsFrom_of_size W msg 0 n h 0
    refine ⟨es, hes, hlen, ?_⟩
    intro i j f b s ei ej hij hf hs hei hej
    have := (outputMsgFieldsFrom_order W msg 0 es hes).2 i j f b s ei ej hij hf hs hei hej
    exact ⟨this, fun _ => by omega⟩

theorem declaration_order_witness :
    messageSize 4 [sampleU8 "A", sampleU32 "B"] = .ok 8 ∧
    (∃ os, messageOffsets 4 [sampleU8 "A", sampleU32 "B"] = .ok os ∧
      os.length = [sampleU8 "A", sampleU32 "B"].length ∧
      ∀ (i j : Nat) (f : Field) (b s oi oj : Nat), i < j →
        [sampleU8 "A", sampleU32 "B"][i]? = some f →
        fieldSize 4 f = .ok (b, s) → os[i]? = some oi → os[j]? = some oj →
        oi + s ≤ oj ∧ (0 < s → oi < oj)) ∧
    (∃ es, outputMsgFields 4 [sampleU8 "A", sampleU32 "B"] = .ok es ∧
      es.length = [sampleU8 "A", sampleU32 "B"].length ∧
      ∀ (i j : Nat) (f : Field) (b s : Nat) (ei ej : Emitted OutLine), i < j →
        [sampleU8 "A", sampleU32 "B"][i]? = some f → fieldSize 4 f = .ok (b, s) →
        es[i]? = some ei → es[j]? = some ej →
        ei.start + s ≤ ej.start ∧ (0 < s → ei.start < ej.start)) :=
  ⟨by decide, declaration_order 4 [sampleU8 "A", sampleU32 "B"] 8 (by decide)⟩


/-- The first component of `fieldSize` is the base size, and the field size is at
least the base size. -/
theorem fieldSize_base (W b s : Nat) (f : Field) (hfs : fieldSize W f = .ok (b, s)) :
    baseSize W f = .ok b ∧ b ≤ s := by
  rw [fieldSize_eq_baseSize] at hfs
  cases hb : baseSize W f with
  | error e => rw [hb] at hfs; cases hfs
  | ok base =>
    rw [hb] at hfs
    simp only at hfs
    split at hfs
    · split at hfs
      · cases hfs
      · rename_i hlen
        cases hfs
        refine ⟨rfl, ?_⟩
        have : b * 1 ≤ b * optLength f := Nat.mul_le_mul_left _ (by omega)
        omega
    · cases hfs; exact ⟨rfl, Nat.le_refl _⟩

/-- The leading leaf of a message is no larger than the message. -/
theorem leadingLeafSize_le (W : Nat) : ∀ (fs : List Field) (o n s : Nat),
    messageSizeFrom W fs o = .ok n → leadingLeafSize W fs = .ok (some s) → s ≤ n
  | [], _, _, _, _, hl => by
    have h1 : leadingLeafSize W [] = .ok none := rfl
    rw [h1] at hl
    cases hl
  | .mk nm k l w len bits sub :: rest, o, n, s, h, hl => by
    have ih := leadingLeafSize_le W sub
    have h1 : leadingLeafSize W (.mk nm k l w len bits sub :: rest) =
        if k != .MessageKind then
          match fieldSize W (.mk nm k l w len bits sub) with
          | .error e => .error e
          | .ok (_, fsz) => .ok (some fsz)
        else leadingLeafSize W sub := rfl
    rw [h1] at hl
    cases hfs : fieldSize W (.mk nm k l w len bits sub) with
    | error e =>
      rw [messageSizeFrom_cons, hfs] at h
      cases h
    | ok p =>
      obtain ⟨b, sz⟩ := p
      have hin := messageSizeFrom_ge_field W _ o n h (.mk nm k l w len bits sub)
        (List.mem_cons_self _ _) b sz hfs
      cases hk : (k != Kind.MessageKind) with
      | true =>
        simp only [hk, if_true, hfs, Except.ok.injEq, Option.some.injEq] at hl
        omega
      | false =>
        simp only [hk, Bool.false_eq_true, if_false] at hl
        have hkm : k = Kind.MessageKind := by
          cases k <;> simp_all
        obtain ⟨hbase, hle⟩ := fieldSize_base W b sz _ hfs
        rw [baseSize_of_message W _ (by simp [Field.kind, hkm])] at hbase
        have := ih 0 b s hbase hl
        omega

/-- A message whose fields all have field size `0` gets no padding: its size is
the tail padding of the running offset. -/
theorem messageSizeFrom_all_zero (W : Nat) (hW : 0 < W) (fs : List Field) :
    ∀ o n, messageSizeFrom W fs o = .ok n →
      (∀ f ∈ fs, ∀ b s, fieldSize W f = .ok (b, s) → s = 0) → n = tailPad W o := by
  induction fs with
  | nil =>
    intro o n h _
    simp only [messageSizeFrom, Except.ok.injEq] at h
    exact h.symm
  | cons g rest ih =>
    intro o n h hz
    rw [messageSizeFrom_cons] at h
    cases hfs : fieldSize W g with
    | error e => simp [hfs] at h
    | ok p =>
      obtain ⟨b0, s0⟩ := p
      simp only [hfs] at h
      have hs0 : s0 = 0 := hz g (List.mem_cons_self _ _) b0 s0 hfs
      obtain ⟨hbase, hle⟩ := fieldSize_base W b0 s0 g hfs
      have hb0 : b0 = 0 := by omega
      have hbnd := boundary_gt W o hW
      have hpad : padDecision W g b0 o = .ok false := by
        by_cases hk : g.kind = .MessageKind
        · rw [baseSize_of_message W g hk] at hbase
          unfold padDecision
          simp only [hk, beq_self_eq_true, if_true]
          cases hl : leadingLeafSize W g.message with
          | error e =>
            obtain ⟨leaf, hleaf⟩ := leadingLeafSize_ok W g.message 0 b0 hbase
            rw [hl] at hleaf
            cases hleaf
          | ok leaf =>
            cases leaf with
            | none => rfl
            | some s =>
              have := leadingLeafSize_le W g.message 0 b0 s hbase hl
              simp only [Except.ok.injEq, decide_eq_false_iff_not]
              omega
        · exact padDecision_of_not_message W hW g b0 o hk
      rw [hpad] at h
      simp only [applyPad, Bool.false_eq_true, if_false, hs0, Nat.add_zero] at h
      exact ih o n h (fun f hf => hz f (List.mem_cons_of_mem _ hf))

/-- C14 (counterexample): with `W = 4`, layout succeeds on the message `(Empty N)`,
which has one field, `Empty` being a message without fields; its size is `0`. -/
theorem one_field_message_of_size_zero :
    [sampleNested "N" []].length = 1 ∧
    fieldSize 4 (sampleNested "N" []) = .ok (0, 0) ∧
    messageSize 4 [sampleNested "N" []] = .ok 0 := by
  refine ⟨rfl, by decide, by decide⟩

/-- C14 (amended): for every word size `W` in `{1, 2, 4, 8}` and every message on
which `messageSize` succeeds, the size is positive exactly when some field of the
message has a positive field size. -/
theorem messageSize_pos_iff (W : Nat) (msg : List Field) (n : Nat) (hW : W ∈ wordSizes)
    (h : messageSize W msg = .ok n) :
    0 < n ↔ ∃ f ∈ msg, ∃ b s, fieldSize W f = .ok (b, s) ∧ 0 < s := by
  constructor
  · intro hn
    by_contra hne
    have hz : ∀ f ∈ msg, ∀ b s, fieldSize W f = .ok (b, s) → s = 0 := by
      intro f hf b s hs
      by_contra hs0
      exact hne ⟨f, hf, b, s, hs, by omega⟩
    have := messageSizeFrom_all_zero W (wordSizes_pos hW) msg 0 n h hz
    simp [tailPad] at this
    omega
  · rintro ⟨f, hf, b, s, hs, hpos⟩
    have := messageSizeFrom_ge_field W msg 0 n h f hf b s hs
    omega

theorem messageSize_pos_iff_witness :
    4 ∈ wordSizes ∧ messageSize 4 [sampleU8 "A", sampleU32 "B"] = .ok 8 ∧
    ((0 < 8) ↔ ∃ f ∈ [sampleU8 "A", sampleU32 "B"], ∃ b s,
      fieldSize 4 f = .ok (b, s) ∧ 0 < s) :=
  ⟨by decide, by decide,
    messageSize_pos_iff 4 [sampleU8 "A", sampleU32 "B"] 8 (by decide) (by decide)⟩


/-! ## The loop of `inputMsgFields` -/

/-- A field on which `fieldSize` succeeds and that is not weak has a base Go type. -/
theorem baseFieldGoType_ok (W b s : Nat) (f : Field) (hfs : fieldSize W f = .ok (b, s))
    (hw : f.isWeak = false) : ∃ t, baseFieldGoType f = .ok t := by
  cases f with
  | mk nm k l w len bits sub =>
    simp only [Field.isWeak] at hw
    subst hw
    unfold baseFieldGoType
    simp only [Field.isWeak, Bool.false_eq_true, if_false, Field.kind, Field.bitsOpt]
    cases k <;> first
      | exact ⟨_, rfl⟩
      | (simp only []; split <;> exact ⟨_, rfl⟩)
      | (simp [fieldSize] at hfs)

/-- The body of the loop of `inputMsgFields` places the field at the padded
running offset and leaves the running offset where the body of the loop of
`outputMsgFields` leaves it. -/
theorem inputField_eq_outputField (W o b s : Nat) (f : Field) (pad : Bool) (t : GoType)
    (hfs : fieldSize W f = .ok (b, s)) (hp : padDecision W f b o = .ok pad)
    (ht : baseFieldGoType f = .ok t) :
    ∃ ei eo, inputField W f o = .ok ei ∧ outputField W f o = .ok eo ∧
      ei.start = applyPad W o pad ∧ eo.start = applyPad W o pad ∧ ei.next = eo.next := by
  unfold inputField outputField
  simp only [hfs, hp, ht]
  cases harr : (f.isList || f.kind == Kind.BytesKind) with
  | true =>
    simp only [if_true]
    by_cases h1 : b > 1
    · simp only [h1, if_true]
      exact ⟨_, _, rfl, rfl, rfl, rfl, rfl⟩
    · simp only [h1, if_false]
      exact ⟨_, _, rfl, rfl, rfl, rfl, rfl⟩
  | false =>
    simp only [Bool.false_eq_true, if_false]
    cases hkm : (f.kind == Kind.MessageKind) with
    | true =>
      simp only [if_true]
      exact ⟨_, _, rfl, rfl, rfl, rfl, rfl⟩
    | false =>
      simp only [Bool.false_eq_true, if_false]
      by_cases h1 : b > 1
      · simp only [h1, if_true]
        exact ⟨_, _, rfl, rfl, rfl, rfl, rfl⟩
      · simp only [h1, if_false]
        exact ⟨_, _, rfl, rfl, rfl, rfl, rfl⟩

/-- On a message on which `messageSize` succeeds and none of whose fields is weak,
the loop of `inputMsgFields` succeeds from any running offset, and it visits the
offsets that the loop of `outputMsgFields` visits. -/
theorem inputMsgFieldsFrom_of_size (W : Nat) (fs : List Field)
    (hweak : ∀ f ∈ fs, f.isWeak = false) :
    ∀ o n, messageSizeFrom W fs o = .ok n →
      ∀ o2, ∃ ei eo, inputMsgFieldsFrom W fs o2 = .ok ei ∧
        outputMsgFieldsFrom W fs o2 = .ok eo ∧ ei.length = fs.length ∧
        ei.map Emitted.start = eo.map Emitted.start ∧
        ei.map Emitted.next = eo.map Emitted.next := by
  induction fs with
  | nil => intro o n _ o2; exact ⟨[], [], rfl, rfl, rfl, rfl, rfl⟩
  | cons g rest ih =>
    intro o n h o2
    rw [messageSizeFrom_cons] at h
    cases hfs : fieldSize W g with
    | error e => simp [hfs] at h
    | ok p =>
      obtain ⟨b0, s0⟩ := p
      simp only [hfs] at h
      cases hp : padDecision W g b0 o with
      | error e => simp [hp] at h
      | ok pad =>
        simp only [hp] at h
        obtain ⟨pad2, hp2⟩ := padDecision_ok_indep W g b0 o b0 o2 pad hp
        obtain ⟨t, ht⟩ := baseFieldGoType_ok W b0 s0 g hfs (hweak g (List.mem_cons_self _ _))
        obtain ⟨ei, eo, hi, ho, his, hos, hnext⟩ :=
          inputField_eq_outputField W o2 b0 s0 g pad2 t hfs hp2 ht
        obtain ⟨eis, eos, his2, hos2, hlen, hst, hnx⟩ :=
          ih (fun f hf => hweak f (List.mem_cons_of_mem _ hf)) _ _ h ei.next
        refine ⟨ei :: eis, eo :: eos, ?_, ?_, by simp [hlen], ?_, ?_⟩
        · simp only [inputMsgFieldsFrom, hi, his2]
        · rw [hnext] at hos2
          simp only [outputMsgFieldsFrom, ho, hos2]
        · simp only [List.map_cons, hst, his, hos]
        · simp only [List.map_cons, hnx, hnext]


/-! ## Messages without nested fields -/

/-- In a message without a field of message kind, the offsets of `messageSize`
are the running sums of the field sizes and the size is the tail padding of
their total. -/
theorem messageOffsetsFrom_sums (W : Nat) (hW : 0 < W) (fs : List Field)
    (hk : ∀ f ∈ fs, f.kind ≠ .MessageKind) :
    ∀ o n, messageSizeFrom W fs o = .ok n →
      ∃ ss, List.Forall₂ (fun f s => ∃ b, fieldSize W f = .ok (b, s)) fs ss ∧
        messageOffsetsFrom W fs o =
          .ok ((List.range ss.length).map fun i => o + (ss.take i).sum) ∧
        n = tailPad W (o + ss.sum) := by
  induction fs with
  | nil =>
    intro o n h
    simp only [messageSizeFrom, Except.ok.injEq] at h
    exact ⟨[], List.Forall₂.nil, rfl, by simp [h]⟩
  | cons g rest ih =>
    intro o n h
    rw [messageSizeFrom_cons] at h
    cases hfs : fieldSize W g with
    | error e => simp [hfs] at h
    | ok p =>
      obtain ⟨b0, s0⟩ := p
      simp only [hfs] at h
      have hp := padDecision_of_not_message W hW g b0 o (hk g (List.mem_cons_self _ _))
      simp only [hp, applyPad, Bool.false_eq_true, if_false] at h
      obtain ⟨ss, hall, hoffs, hn⟩ := ih (fun f hf => hk f (List.mem_cons_of_mem _ hf)) _ _ h
      refine ⟨s0 :: ss, List.Forall₂.cons ⟨b0, hfs⟩ hall, ?_, ?_⟩
      · simp only [messageOffsetsFrom, hfs, hp, applyPad, Bool.false_eq_true, if_false, hoffs,
          List.length_cons, List.range_succ_eq_map, List.map_cons, List.map_map, List.take_zero,
          List.sum_nil, Nat.add_zero, Except.ok.injEq, List.cons.injEq, true_and]
        apply List.map_congr_left
        intro i _
        simp only [Function.comp, List.take_succ_cons, List.sum_cons]
        omega
      · rw [hn, List.sum_cons]
        congr 1
        omega

/-- A field that is neither nested nor a group and whose `bits` option is absent,
`8BIT` or `16BIT` has a base size of at least `1`. -/
theorem baseSize_pos (W b s : Nat) (f : Field) (hfs : fieldSize W f = .ok (b, s))
    (hm : f.kind ≠ .MessageKind) (hg : f.kind ≠ .GroupKind)
    (hbits : f.bitsOpt = none ∨ f.bitsOpt = some 0 ∨ f.bitsOpt = some 1) : 1 ≤ b := by
  obtain ⟨hbase, _⟩ := fieldSize_base W b s f hfs
  cases f with
  | mk nm k l w len bits sub =>
    simp only [Field.kind, Field.bitsOpt] at hm hg hbits
    rcases hbits with rfl | rfl | rfl <;>
      cases k <;> simp_all [baseSize, bitsSize] <;> omega

/-- C15: for every word size `W ≥ 1` the predicate `O > ((O / W) + 1) * W` is false
at every offset `O`, and the pad decision of a field that is not of message kind
is `false` at every running offset. For every message without a field of message
kind on which `messageSize` succeeds, the offset of each field is the sum of the
field sizes of the fields declared before it and the size of the message is the
tail padding of the sum of all field sizes; `outputMsgFields` and `inputMsgFields`
place each such field at their running offset, and when moreover no field is a
group or weak and every `bits` option is `8BIT` or `16BIT` they place the fields at
the offsets of `messageSize`. -/
theorem scalar_pad_branch_dead (W : Nat) (hW : 1 ≤ W) :
    (∀ O : Nat, ¬ (O > ((O / W) + 1) * W)) ∧
    (∀ (f : Field) (b o : Nat), f.kind ≠ .MessageKind → padDecision W f b o = .ok false) ∧
    (∀ (f : Field) (o : Nat) (e : Emitted OutLine), f.kind ≠ .MessageKind →
      outputField W f o = .ok e → e.start = o) ∧
    (∀ (f : Field) (o : Nat) (e : Emitted InLine), f.kind ≠ .MessageKind →
      inputField W f o = .ok e → e.start = o) ∧
    (∀ (msg : List Field) (n : Nat), (∀ f ∈ msg, f.kind ≠ .MessageKind) →
      messageSize W msg = .ok n →
      ∃ ss, List.Forall₂ (fun f s => ∃ b, fieldSize W f = .ok (b, s)) msg ss ∧
        messageOffsets W msg = .ok ((List.range ss.length).map fun i => (ss.take i).sum) ∧
        n = tailPad W ss.sum ∧
        ((∀ f ∈ msg, f.kind ≠ .GroupKind ∧ f.isWeak = false ∧
            (f.bitsOpt = none ∨ f.bitsOpt = some 0 ∨ f.bitsOpt = some 1)) →
          (outputMsgFields W msg).map (List.map Emitted.start) = messageOffsets W msg ∧
          (inputMsgFields W msg).map (List.map Emitted.start) = messageOffsets W msg)) := by
  have hW0 : 0 < W := hW
  refine ⟨?_, ?_, ?_, ?_, ?_⟩
  · intro O
    have := boundary_gt W O hW0
    unfold boundary at this
    omega
  · intro f b o hk
    exact padDecision_of_not_message W hW0 f b o hk
  · intro f o e hk he
    cases hfs : fieldSize W f with
    | error err => unfold outputField at he; simp [hfs] at he
    | ok p =>
      obtain ⟨b, s⟩ := p
      have hp := padDecision_of_not_message W hW0 f b o hk
      obtain ⟨lines, next, hof, _⟩ := outputField_advance W o b s f false hfs hp
      rw [hof] at he
      cases he
      simp [applyPad]
  · intro f o e hk he
    cases hfs : fieldSize W f with
    | error err => unfold inputField at he; simp [hfs] at he
    | ok p =>
      obtain ⟨b, s⟩ := p
      have hp := padDecision_of_not_message W hW0 f b o hk
      cases ht : baseFieldGoType f with
      | error err => unfold inputField at he; simp [hfs, ht] at he
      | ok t =>
        obtain ⟨ei, eo, hi, _, his, _, _⟩ := inputField_eq_outputField W o b s f false t hfs hp ht
        rw [hi] at he
        cases he
        simp [his, applyPad]
  · intro msg n hk h
    obtain ⟨ss, hall, hoffs, hn⟩ := messageOffsetsFrom_sums W hW0 msg hk 0 n h
    simp only [Nat.zero_add] at hoffs hn
    refine ⟨ss, hall, hoffs, hn, ?_⟩
    intro hvalid
    have hnz : ∀ f ∈ msg, ∀ b s, fieldSize W f = .ok (b, s) → 1 ≤ b := by
      intro f hf b s hfs
      exact baseSize_pos W b s f hfs (hk f hf) (hvalid f hf).1 (hvalid f hf).2.2
    obtain ⟨es, hes, hmo, _, _⟩ := outputMsgFields_within W msg hnz 0 n h
    obtain ⟨ei, eo, hi, ho, _, hst, _⟩ :=
      inputMsgFieldsFrom_of_size W msg (fun f hf => (hvalid f hf).2.1) 0 n h 0
    rw [hes] at ho
    cases ho
    constructor
    · simp only [outputMsgFields, messageOffsets, hes, hmo, Except.map]
    · simp only [inputMsgFields, messageOffsets, hi, hmo, Except.map, hst]

theorem scalar_pad_branch_dead_witness :
    1 ≤ 4 ∧ ¬ (1 > ((1 / 4) + 1) * 4) ∧
    padDecision 4 (sampleU32 "B") 4 1 = .ok false ∧
    messageOffsets 4 [sampleU8 "A", sampleU32 "B"] = .ok [0, 1] :=
  ⟨by decide, (scalar_pad_branch_dead 4 (by decide)).1 1,
    (scalar_pad_branch_dead 4 (by decide)).2.1 (sampleU32 "B") 4 1 (by decide), by decide⟩


/-! ## The destination record of `FromBytes` -/

/-- C16 (the code at the failing input): with `W = 4`, for the message `(u32 B)`
the lines of `FromBytes` are `str.B |= uint32(input[k]) << (8 * (3 - k))` for
`k = 0, 1, 2, 3`. On the buffer `00 00 00 01` the destination record with `B = 0`
ends with `B = 1` and the destination record with `B = 2` ends with `B = 3`. -/
theorem decode_depends_on_destination :
    messageSize 4 [sampleU32 "B"] = .ok 4 ∧
    inputMsgFields 4 [sampleU32 "B"] =
      .ok [⟨0, [.orByte (.str "B") .uint32 0 3, .orByte (.str "B") .uint32 1 2,
        .orByte (.str "B") .uint32 2 1, .orByte (.str "B") .uint32 3 0], 4⟩] ∧
    (runFromBytes 4 [sampleU32 "B"] (sampleRecordB 0) [0, 0, 0, 1]).map (fun r => r "B") =
      some (some (.scalar .uint32 1)) ∧
    (runFromBytes 4 [sampleU32 "B"] (sampleRecordB 2) [0, 0, 0, 1]).map (fun r => r "B") =
      some (some (.scalar .uint32 3)) := by
  refine ⟨by decide, by decide, by decide, by decide⟩

/-! ## The three layout passes -/

/-- C17 (the code at the failing input): with `W = 4`, for the message
`(repeated Empty E [length = 8], u32 B)` the field `E` has field size `0`;
`messageSize` places both fields at offset `0` and returns `4`, while
`outputMsgFields` and `inputMsgFields` advance past `E` by `length = 8`, place `B`
at offset `8` and end at the running offset `12`, which is a multiple of `4`
and is not `4`. -/
theorem layout_passes_disagree :
    fieldSize 4 (sampleArrEmpty "E") = .ok (0, 0) ∧
    messageSize 4 [sampleArrEmpty "E", sampleU32 "B"] = .ok 4 ∧
    messageOffsets 4 [sampleArrEmpty "E", sampleU32 "B"] = .ok [0, 0] ∧
    (outputMsgFields 4 [sampleArrEmpty "E", sampleU32 "B"]).map
      (List.map fun e => (e.start, e.next)) = .ok [(0, 8), (8, 12)] ∧
    (inputMsgFields 4 [sampleArrEmpty "E", sampleU32 "B"]).map
      (List.map fun e => (e.start, e.next)) = .ok [(0, 8), (8, 12)] ∧
    (outputMsgFields 4 [sampleArrEmpty "E", sampleU32 "B"]).map
      (fun es => tailPad 4 (finalOffset 0 es)) = .ok 12 ∧
    (inputMsgFields 4 [sampleArrEmpty "E", sampleU32 "B"]).map
      (fun es => tailPad 4 (finalOffset 0 es)) = .ok 12 := by
  refine ⟨by decide, by decide, by decide, by decide, by decide, by decide, by decide⟩

/-- In a message none of whose fields has base size `0`, the running offset of
`outputMsgFields` after the last field, rounded up to a multiple of the word
size, is the size that `messageSize` returns. -/
theorem outputMsgFields_final (W : Nat) (fs : List Field)
    (hnz : ∀ f ∈ fs, ∀ b s, fieldSize W f = .ok (b, s) → 1 ≤ b) :
    ∀ o n, messageSizeFrom W fs o = .ok n →
      ∃ es, outputMsgFieldsFrom W fs o = .ok es ∧ tailPad W (finalOffset o es) = n := by
  induction fs with
  | nil =>
    intro o n h
    simp only [messageSizeFrom, Except.ok.injEq] at h
    exact ⟨[], rfl, by simpa [finalOffset] using h⟩
  | cons f rest ih =>
    intro o n h
    rw [messageSizeFrom_cons] at h
    cases hfs : fieldSize W f with
    | error e => simp [hfs] at h
    | ok p =>
      obtain ⟨b, s⟩ := p
      simp only [hfs] at h
      cases hp : padDecision W f b o with
      | error e => simp [hp] at h
      | ok pad =>
        simp only [hp] at h
        have hb := hnz f (List.mem_cons_self _ _) b s hfs
        obtain ⟨lines, hof, _⟩ := outputField_span W o b s f pad hfs hp hb
        obtain ⟨es, hes, hfin⟩ := ih (fun g hg => hnz g (List.mem_cons_of_mem _ hg)) _ _ h
        refine ⟨⟨applyPad W o pad, lines, applyPad W o pad + s⟩ :: es, ?_, ?_⟩
        · simp only [outputMsgFieldsFrom, hof, hes]
        · cases es with
          | nil => simpa [finalOffset] using hfin
          | cons e es2 => simpa [finalOffset, List.getLast?_cons_cons] using hfin

/-- The three layout passes agree on a message none of whose fields has base size
`0` or is weak: when `messageSize` succeeds, `outputMsgFields` and
`inputMsgFields` succeed, both place every field at the offset that `messageSize`
gives it, both advance past it by its field size, and their final running offset
rounded up to a multiple of the word size is the size of the message. -/
theorem layout_passes_agree (W : Nat) (msg : List Field) (n : Nat)
    (hnz : ∀ f ∈ msg, ∀ b s, fieldSize W f = .ok (b, s) → 1 ≤ b)
    (hweak : ∀ f ∈ msg, f.isWeak = false) (h : messageSize W msg = .ok n) :
    ∃ eo ei, outputMsgFields W msg = .ok eo ∧ inputMsgFields W msg = .ok ei ∧
      messageOffsets W msg = .ok (eo.map Emitted.start) ∧
      ei.map Emitted.start = eo.map Emitted.start ∧
      ei.map Emitted.next = eo.map Emitted.next ∧
      List.Forall₂ (fun f e => ∃ b s, fieldSize W f = .ok (b, s) ∧ e.next = e.start + s)
        msg eo ∧
      tailPad W (finalOffset 0 eo) = n ∧ tailPad W (finalOffset 0 ei) = n := by
  obtain ⟨es, hes, hmo, hall, _⟩ := outputMsgFields_within W msg hnz 0 n h
  obtain ⟨es2, hes2, hfin⟩ := outputMsgFields_final W msg hnz 0 n h
  obtain ⟨ei, eo, hi, ho, _, hst, hnx⟩ := inputMsgFieldsFrom_of_size W msg hweak 0 n h 0
  rw [hes] at hes2 ho
  cases hes2
  cases ho
  refine ⟨es, ei, hes, hi, hmo, hst, hnx, ?_, hfin, ?_⟩
  · exact hall.imp (fun _ _ ⟨b, s, h1, h2, _⟩ => ⟨b, s, h1, h2⟩)
  · have hl : ei.getLast?.map Emitted.next = es.getLast?.map Emitted.next := by
      rw [← List.getLast?_map, ← List.getLast?_map, hnx]
    simpa [finalOffset, hl] using hfin


/-! ## Declared type and storage size -/

/-- C18 (counterexample): `Float` is a supported kind that is not nested; with
`bits = 8BIT` (and with `bits = 16BIT`) `baseFieldGoType` names `float32`, of
width 4 bytes, and `baseSize` returns `1` (and `2`). -/
theorem float_bits_width_mismatch :
    supportedKind (sampleFloatBits "F" 0).kind = true ∧
    baseFieldGoType (sampleFloatBits "F" 0) = .ok .float32 ∧
    GoType.byteWidth .float32 = 4 ∧
    baseSize 4 (sampleFloatBits "F" 0) = .ok 1 ∧
    baseFieldGoType (sampleFloatBits "F" 1) = .ok .float32 ∧
    baseSize 4 (sampleFloatBits "F" 1) = .ok 2 := by
  refine ⟨by decide, by decide, by decide, by decide, by decide, by decide⟩

/-- C18 (amended): for every field that is not weak, of a supported kind that is
not nested, whose `bits` option is absent, `8BIT` or `16BIT`, and absent when the
kind is `Float`: `baseFieldGoType` names a Go type and `baseSize` returns the byte
width of that type. -/
theorem declared_type_width (W : Nat) (f : Field) (hw : f.isWeak = false)
    (hs : supportedKind f.kind = true) (hm : f.kind ≠ .MessageKind) (hg : f.kind ≠ .GroupKind)
    (hbits : f.bitsOpt = none ∨ f.bitsOpt = some 0 ∨ f.bitsOpt = some 1)
    (hfl : f.kind = .FloatKind → f.bitsOpt = none) :
    ∃ t, baseFieldGoType f = .ok t ∧ baseSize W f = .ok t.byteWidth := by
  cases f with
  | mk nm k l w len bits sub =>
    simp only [Field.isWeak, Field.kind, Field.bitsOpt] at hw hs hm hg hbits hfl
    subst hw
    rcases hbits with rfl | rfl | rfl <;>
      cases k <;>
      simp_all [baseFieldGoType, baseSize, bitsSize, GoType.byteWidth, supportedKind,
        Field.isWeak, Field.kind, Field.bitsOpt]

theorem declared_type_width_witness :
    ∃ t, baseFieldGoType (sampleU8 "A") = .ok t ∧ baseSize 4 (sampleU8 "A") = .ok t.byteWidth :=
  declared_type_width 4 (sampleU8 "A") rfl (by decide) (by decide) (by decide)
    (Or.inr (Or.inl rfl)) (by decide)


/-! ## The offset of the first field -/

/-- C19 (counterexample): with `W = 4`, layout succeeds on the message `(Inner N)`,
`Inner` being the message `(u64 X)`; the leading leaf of the only field has size
`8 > 4`, the field is padded at running offset `0`, and `messageSize`,
`outputMsgFields` and `inputMsgFields` place it at offset `4`. -/
theorem first_field_at_offset_four :
    messageSize 4 [sampleNested "N" [sampleU64 "X"]] = .ok 12 ∧
    messageOffsets 4 [sampleNested "N" [sampleU64 "X"]] = .ok [4] ∧
    (outputMsgFields 4 [sampleNested "N" [sampleU64 "X"]]).map (List.map Emitted.start) =
      .ok [4] ∧
    (inputMsgFields 4 [sampleNested "N" [sampleU64 "X"]]).map (List.map Emitted.start) =
      .ok [4] := by
  refine ⟨by decide, by decide, by decide, by decide⟩

/-- C19 (amended): for every word size `W` in `{1, 2, 4, 8}` and every message with
at least one field on which `messageSize` succeeds, `messageSize` and
`outputMsgFields` (and `inputMsgFields`, when no field is weak) place the first
field at one offset `x`; `x = 0` when the field is not of message kind or its
descent ends in a message without fields, and when its leading leaf has field size
`s`, `x = W` if `s > W` and `x = 0` otherwise. -/
theorem first_field_offset (W : Nat) (f : Field) (rest : List Field) (n : Nat)
    (hW : W ∈ wordSizes) (h : messageSize W (f :: rest) = .ok n) :
    ∃ x, (∃ os, messageOffsets W (f :: rest) = .ok (x :: os)) ∧
      (∃ es, (outputMsgFields W (f :: rest)).map (List.map Emitted.start) = .ok (x :: es)) ∧
      ((∀ g ∈ f :: rest, g.isWeak = false) →
        ∃ es, (inputMsgFields W (f :: rest)).map (List.map Emitted.start) = .ok (x :: es)) ∧
      (f.kind ≠ .MessageKind → x = 0) ∧
      (f.kind = .MessageKind → leadingLeaf f.message = none → x = 0) ∧
      (∀ leaf b s, f.kind = .MessageKind → leadingLeaf f.message = some leaf →
        fieldSize W leaf = .ok (b, s) → x = if s > W then W else 0) := by
  have hW0 := wordSizes_pos hW
  have h0 := h
  unfold messageSize at h
  rw [messageSizeFrom_cons] at h
  cases hfs : fieldSize W f with
  | error e => simp [hfs] at h
  | ok p =>
    obtain ⟨b0, s0⟩ := p
    simp only [hfs] at h
    cases hp : padDecision W f b0 0 with
    | error e => simp [hp] at h
    | ok pad =>
      simp only [hp] at h
      refine ⟨applyPad W 0 pad, ?_, ?_, ?_, ?_, ?_, ?_⟩
      · obtain ⟨os, hos, _⟩ := messageOffsetsFrom_of_size W rest _ _ h
        exact ⟨os, by simp only [messageOffsets, messageOffsetsFrom, hfs, hp, hos]⟩
      · obtain ⟨lines, next, hof, _⟩ := outputField_advance W 0 b0 s0 f pad hfs hp
        obtain ⟨es, hes, _⟩ := outputMsgFieldsFrom_of_size W rest _ _ h next
        exact ⟨es.map Emitted.start,
          by simp only [outputMsgFields, outputMsgFieldsFrom, hof, hes, Except.map, List.map_cons]⟩
      · intro hweak
        obtain ⟨t, ht⟩ := baseFieldGoType_ok W b0 s0 f hfs (hweak f (List.mem_cons_self _ _))
        obtain ⟨ei, eo, hi, _, his, _, _⟩ := inputField_eq_outputField W 0 b0 s0 f pad t hfs hp ht
        obtain ⟨eis, _, hes, _, _, _, _⟩ := inputMsgFieldsFrom_of_size W rest
          (fun g hg => hweak g (List.mem_cons_of_mem _ hg)) _ _ h ei.next
        exact ⟨eis.map Emitted.start,
          by simp only [inputMsgFields, inputMsgFieldsFrom, hi, hes, Except.map, List.map_cons,
            his]⟩
      · intro hk
        rw [padDecision_of_not_message W hW0 f b0 0 hk] at hp
        cases hp
        rfl
      · intro hk hleaf
        unfold padDecision at hp
        simp only [hk, beq_self_eq_true, if_true, leadingLeafSize_eq_leadingLeaf, hleaf] at hp
        cases hp
        rfl
      · intro leaf b s hk hleaf hs
        rw [padDecision_of_message W f leaf b0 0 b s hk hleaf hs] at hp
        cases hp
        have hb : boundary W 0 = W := by simp [boundary]
        rw [applyPad_decide, hb]
        simp

theorem first_field_offset_witness :
    4 ∈ wordSizes ∧ messageSize 4 (sampleU8 "A" :: [sampleU32 "B"]) = .ok 8 ∧
    ∃ x, (∃ os, messageOffsets 4 (sampleU8 "A" :: [sampleU32 "B"]) = .ok (x :: os)) ∧
      (∃ es, (outputMsgFields 4 (sampleU8 "A" :: [sampleU32 "B"])).map
        (List.map Emitted.start) = .ok (x :: es)) ∧
      ((∀ g ∈ sampleU8 "A" :: [sampleU32 "B"], g.isWeak = false) →
        ∃ es, (inputMsgFields 4 (sampleU8 "A" :: [sampleU32 "B"])).map
          (List.map Emitted.start) = .ok (x :: es)) ∧
      ((sampleU8 "A").kind ≠ .MessageKind → x = 0) ∧
      ((sampleU8 "A").kind = .MessageKind → leadingLeaf (sampleU8 "A").message = none →
        x = 0) ∧
      (∀ leaf b s, (sampleU8 "A").kind = .MessageKind →
        leadingLeaf (sampleU8 "A").message = some leaf →
        fieldSize 4 leaf = .ok (b, s) → x = if s > 4 then 4 else 0) :=
  ⟨by decide, by decide,
    first_field_offset 4 (sampleU8 "A") [sampleU32 "B"] 8 (by decide) (by decide)⟩

/-! ## The declared type of an array -/

/-- For a list field or `Bytes` blob with base Go type `T` whose `length` option
is present, `fieldGoType` returns `ErrUnsupportedFieldType` when the length is
zero and the array type `[L]T` when the length is `L ≥ 1`. -/
theorem fieldGoType_of_length (zeroUint : Outcome Nat) (f : Field) (t : GoType) (L : Nat)
    (harr : (f.isList || f.kind == .BytesKind) = true) (ht : baseFieldGoType f = .ok t)
    (hlen : f.lengthOpt = some L) :
    fieldGoType zeroUint f =
      if L = 0 then .returns (.error .ErrUnsupportedFieldType)
      else .returns (.ok (.array L t)) := by
  unfold fieldGoType
  simp only [ht, harr, if_true, hlen, Option.isSome_some, lengthUint, Nat.le_zero_eq]

/-- C20 (the code at the failing input): for the list field `repeated uint32 T`
without a `length` option, `fieldGoType` does not return `ErrUnsupportedFieldType`,
whatever `Uint` does on the zero value (it panics when `Uint` panics, and it
returns `[u]uint32` when `Uint` returns `u`), while `fieldSize` returns
`ErrUnsupportedFieldType` for the same field. With `length = 0` the function
returns `ErrUnsupportedFieldType` and with `length = 4` it returns `[4]uint32`. -/
theorem fieldGoType_absent_length :
    (sampleListU32 "T" none).isList = true ∧
    baseFieldGoType (sampleListU32 "T" none) = .ok .uint32 ∧
    (∀ zeroUint, fieldGoType zeroUint (sampleListU32 "T" none) ≠
      .returns (.error .ErrUnsupportedFieldType)) ∧
    fieldGoType .panics (sampleListU32 "T" none) = .panics ∧
    (∀ u, fieldGoType (.returns u) (sampleListU32 "T" none) =
      .returns (.ok (.array u .uint32))) ∧
    fieldSize 4 (sampleListU32 "T" none) = .error .ErrUnsupportedFieldType ∧
    (∀ zeroUint, fieldGoType zeroUint (sampleListU32 "T" (some 0)) =
      .returns (.error .ErrUnsupportedFieldType)) ∧
    (∀ zeroUint, fieldGoType zeroUint (sampleListU32 "T" (some 4)) =
      .returns (.ok (.array 4 .uint32))) := by
  refine ⟨rfl, by decide, ?_, by decide, ?_, by decide, ?_, ?_⟩
  · intro zu
    cases zu with
    | panics => decide
    | returns u =>
      have : fieldGoType (.returns u) (sampleListU32 "T" none) =
          .returns (.ok (.array u .uint32)) := rfl
      rw [this]
      intro hc
      cases hc
  · intro u
    rfl
  · intro zu
    exact fieldGoType_of_length zu (sampleListU32 "T" (some 0)) .uint32 0 rfl rfl rfl
  · intro zu
    exact fieldGoType_of_length zu (sampleListU32 "T" (some 4)) .uint32 4 rfl rfl rfl

end Goblinc
